import Mathlib

/-!
# Boundary markers (`src/boundary-markers.js`)

A shallow embedding of `insert`, `extract`, `show` and `hint`.

The DOM is embedded as a value: a tree of text nodes and nodes with children.
A node is addressed by the list of child indices that leads to it from the
topmost node, so a boundary `(container, offset)` is a path and a number.
A string is a list of characters (one `Char` per code unit of the source's
strings).  A statement of the source that mutates the DOM becomes a function
from the tree before to the tree after.
-/

namespace BoundaryMarkers

/-! ## Data model -/

/-- The kinds of node that own children. -/
inductive Kind where
  | element (localName : String)
  | documentFragment
  | document
deriving DecidableEq, Repr

/-- A DOM node: a Text node owns characters, any other node owns children. -/
inductive Node where
  | text (nodeValue : List Char)
  | branch (kind : Kind) (childNodes : List Node)
deriving Repr

/-- The constant `Dom.Nodes.ELEMENT`. -/
def Nodes.ELEMENT : Nat := 1

/-- The constant `Dom.Nodes.TEXT`. -/
def Nodes.TEXT : Nat := 3

/-- The constant `Dom.Nodes.DOCUMENT`. -/
def Nodes.DOCUMENT : Nat := 9

/-- The constant `Dom.Nodes.DOCUMENT_FRAGMENT`. -/
def Nodes.DOCUMENT_FRAGMENT : Nat := 11

/-- The DOM attribute `node.nodeType`. -/
def Node.nodeType : Node → Nat
  | .text _ => Nodes.TEXT
  | .branch (.element _) _ => Nodes.ELEMENT
  | .branch .documentFragment _ => Nodes.DOCUMENT_FRAGMENT
  | .branch .document _ => Nodes.DOCUMENT

/-- The DOM call `document.createTextNode(data)`. -/
def createTextNode (data : List Char) : Node := .text data

/-- The node reached from `n` by following the child indices of `path`. -/
def Node.nodeAt : Node → List Nat → Option Node
  | n, [] => some n
  | .text _, _ :: _ => none
  | .branch _ cs, i :: p =>
    match cs.get? i with
    | some c => c.nodeAt p
    | none => none

/-- A range: two boundaries, each a container (the path from the topmost node
to it) and an offset. -/
structure Range where
  startContainer : List Nat
  startOffset : Nat
  endContainer : List Nat
  endOffset : Nat
deriving DecidableEq, Repr

/-- Modelled from the spec: the range's `setStart`, which is not under `src/`;
section 4.2 has it "set the corresponding boundary coordinate to" the pair it
is given, so it is an assignment.  (A live DOM Range would also move its end
when the new start lies behind it.) -/
def Range.setStart (range : Range) (container : List Nat) (offset : Nat) : Range :=
  { range with startContainer := container, startOffset := offset }

/-- Modelled from the spec: the range's `setEnd`, which is not under `src/`;
an assignment, as `Range.setStart`. -/
def Range.setEnd (range : Range) (container : List Nat) (offset : Nat) : Range :=
  { range with endContainer := container, endOffset := offset }

/-- What a `throw` of the source, or the failure of a statement, raises. -/
inductive Thrown where
  | message (s : String)
  | typeError
  | unspecified
deriving DecidableEq, Repr

/-! ## `extract` -/

/-- The array `markers` of `extract`. -/
def markers : List (List Char) := [['['], ['{'], ['}'], [']']]

/-- The character class of the regular expression `/[\[\{\}\]]/g`. -/
def isMarker (c : Char) : Bool := c == '[' || c == '{' || c == '}' || c == ']'

/-- Modelled from the spec: the scan of `Strings.splitIncl`, which is not under
`src/`; `pending` is the text read since the last match. -/
def splitInclAux (pattern : Char → Bool) : List Char → List Char → List (List Char)
  | pending, [] => if pending = [] then [] else [pending]
  | pending, c :: cs =>
    if pattern c then
      if pending = [] then [c] :: splitInclAux pattern [] cs
      else pending :: [c] :: splitInclAux pattern [] cs
    else splitInclAux pattern (pending ++ [c]) cs

/-- Modelled from the spec: `Strings.splitIncl(text, pattern)`, which is not
under `src/`: the "ordered sequence of substrings where delimiter matches
appear as their own elements and concatenation of the sequence reconstructs
`text` exactly"; the text between two matches is one element, and no element
is empty. -/
def splitIncl (text : List Char) (pattern : Char → Bool) : List (List Char) :=
  splitInclAux pattern [] text

/-- The closure variable `markersFound` and the range `extract` writes to. -/
structure State where
  markersFound : Nat
  range : Range
deriving DecidableEq, Repr

/-- The two values of `setFn` in `setBoundaryPoint`. -/
inductive SetFn where
  | setStart
  | setEnd
deriving DecidableEq, Repr

/-- The call `range[setFn].call(range, container, offset)`. -/
def SetFn.call (setFn : SetFn) (range : Range) (container : List Nat) (offset : Nat) : Range :=
  match setFn with
  | .setStart => range.setStart container offset
  | .setEnd => range.setEnd container offset

/-- The first part of `setBoundaryPoint`: choose `setFn` from `markersFound`
and check the glyph, or throw. -/
def chooseSetFn (markersFound : Nat) (marker : List Char) : Except Thrown SetFn :=
  if markersFound = 0 then
    if marker ≠ ['['] ∧ marker ≠ ['{'] then
      .error (.message "end marker before start marker")
    else .ok .setStart
  else if markersFound = 1 then
    if marker ≠ [']'] ∧ marker ≠ ['}'] then
      .error (.message "start marker before end marker")
    else .ok .setEnd
  else .error (.message "Too many markers")

/-- The function `setBoundaryPoint(marker, node)` of `extract`.  `here` is the
path of `node.parentNode` and `before` the siblings in front of `node`, so
`node.previousSibling` is the last of `before` and `Dom.nodeIndex(node)` is its
length.  The result is the siblings in front of `node` afterwards, the state
and the value returned. -/
def setBoundaryPoint (here : List Nat) (before : List Node) (st : State) (marker : List Char) :
    Except Thrown (List Node × State × Bool) :=
  match chooseSetFn st.markersFound marker with
  | .error e => .error e
  | .ok setFn =>
    let markersFound := st.markersFound + 1
    if marker = ['['] ∨ marker = [']'] then
      match before.getLast? with
      | some (.text data) =>
        .ok (before,
          ⟨markersFound, setFn.call st.range (here ++ [before.length - 1]) data.length⟩, false)
      | _ =>
        .ok (before ++ [createTextNode []],
          ⟨markersFound, setFn.call st.range (here ++ [before.length]) 0⟩, false)
    else
      .ok (before, ⟨markersFound, setFn.call st.range here before.length⟩, true)

/-- The body of the `parts.forEach` callback of `extractMarkers` for one part:
`forceNextSplit` has already been or-ed with `i === 0`. -/
def extractPart (here : List Nat) (before : List Node) (st : State) (forceNextSplit : Bool)
    (part : List Char) : Except Thrown (List Node × State × Bool) :=
  if part ∈ markers then
    setBoundaryPoint here before st part
  else
    match forceNextSplit, before.getLast? with
    | false, some (.text data) =>
      .ok (before.dropLast ++ [.text (data ++ part)], st, forceNextSplit)
    | _, _ => .ok (before ++ [createTextNode part], st, forceNextSplit)

/-- The loop `parts.forEach(...)` of `extractMarkers`; `first` says that the
index `i` of the next part is 0.  A throw leaves the loop with the siblings
and the state reached so far. -/
def extractParts (here : List Nat) :
    List Node → State → Bool → Bool → List (List Char) → List Node × State × Option Thrown
  | before, st, _, _, [] => (before, st, none)
  | before, st, forceNextSplit, first, part :: parts =>
    match extractPart here before st (forceNextSplit || first) part with
    | .error e => (before, st, some e)
    | .ok (before1, st1, force1) => extractParts here before1 st1 force1 false parts

/-- The function `extractMarkers(node)` of `extract` on a Text node with
content `text`, the child of the node at `here` that follows `before`.  The
result is the siblings that stand where `before` and `node` stood, the state
and what was thrown. -/
def extractMarkers (here : List Nat) (before : List Node) (st : State) (text : List Char) :
    List Node × State × Option Thrown :=
  let parts := splitIncl text isMarker
  if parts.head? ∉ markers.map some ∧ parts.length < 2 then
    (before ++ [.text text], st, none)
  else
    match extractParts here before st false true parts with
    | (before1, st1, some e) => (before1 ++ [.text text], st1, some e)
    | (before1, st1, none) => (before1, st1, none)

mutual
/-- Modelled from the spec: `Dom.walkRec(node, extractMarkers)`, which is not
under `src/`: the "depth-first traversal with a per-text-node visitor
callback", in document order; `node` is the child of the node at `here` that
follows `before`. -/
def walkRec (here : List Nat) (before : List Node) (st : State) :
    Node → List Node × State × Option Thrown
  | .text text => extractMarkers here before st text
  | .branch kind childNodes =>
    match walk (here ++ [before.length]) [] st childNodes with
    | (childNodes1, st1, thrown) => (before ++ [.branch kind childNodes1], st1, thrown)
/-- Modelled from the spec: the part of `Dom.walkRec` that visits the siblings
`nodes` that follow `before`, from left to right; the siblings behind a throw
stay as they are. -/
def walk (here : List Nat) (before : List Node) (st : State) :
    List Node → List Node × State × Option Thrown
  | [] => (before, st, none)
  | node :: nodes =>
    match walkRec here before st node with
    | (before1, st1, some e) => (before1 ++ nodes, st1, some e)
    | (before1, st1, none) => walk here before1 st1 nodes
end

/-- What a call of `extract` leaves: the tree under `rootElem`, the range, and
what was thrown (`none` when the call returns). -/
structure Extracted where
  rootElem : Node
  range : Range
  thrown : Option Thrown

/-- The function `extract(rootElem, range)`.  A Text node given as `rootElem`
is one without a parent: its `parentNode` is `null`. -/
def extract (rootElem : Node) (range : Range) : Extracted :=
  match rootElem with
  | .branch kind childNodes =>
    match walk [] [] ⟨0, range⟩ childNodes with
    | (childNodes1, st, some e) => ⟨.branch kind childNodes1, st.range, some e⟩
    | (childNodes1, st, none) =>
      if 2 ≠ st.markersFound then
        ⟨.branch kind childNodes1, st.range, some (.message "Missing one or both markers")⟩
      else ⟨.branch kind childNodes1, st.range, none⟩
  | .text text =>
    match splitIncl text isMarker with
    | [] => ⟨rootElem, range, some (.message "Missing one or both markers")⟩
    | part :: parts =>
      if part ∉ markers then
        if parts.length = 0 then
          ⟨rootElem, range, some (.message "Missing one or both markers")⟩
        else ⟨rootElem, range, some .typeError⟩
      else
        match chooseSetFn 0 part with
        | .error e => ⟨rootElem, range, some e⟩
        | .ok _ => ⟨rootElem, range, some .typeError⟩

/-! ## `insert` -/

/-- The tree with the children `cs` of the node at `path` replaced by `f cs`. -/
def Node.updateAt (f : List Node → List Node) : List Nat → Node → Option Node
  | _, .text _ => none
  | [], .branch kind cs => some (.branch kind (f cs))
  | i :: p, .branch kind cs =>
    match cs.get? i with
    | some c =>
      match Node.updateAt f p c with
      | some c1 => some (.branch kind (cs.set i c1))
      | none => none
    | none => none

/-- The DOM call `parent.insertBefore(node, parent.childNodes[index])` on the
children of `parent`; with `index` the number of children it appends. -/
def insertBefore (node : Node) (index : Nat) (cs : List Node) : List Node :=
  cs.take index ++ [node] ++ cs.drop index

/-- The address `(container, offset)` of a boundary once a child has been
inserted in the node at `parent` at `index`: the children from `index` on lie
one further. -/
def shiftFrom : List Nat → Nat → List Nat → Nat → List Nat × Nat
  | [], index, [], offset => ([], if index ≤ offset then offset + 1 else offset)
  | [], index, i :: p, offset => ((if index ≤ i then i + 1 else i) :: p, offset)
  | _ :: _, _, [], offset => ([], offset)
  | j :: parent, index, i :: p, offset =>
    if j = i then
      match shiftFrom parent index p offset with
      | (p1, offset1) => (i :: p1, offset1)
    else (i :: p, offset)

/-- The address of the boundary `(container, offset)` once the Text node
`parent ++ [index]` has been split at `cut`: a boundary of that node up to the
cut stays in the first half, one behind the cut lies in the second half. -/
def afterSplit (parent : List Nat) (index cut : Nat) (container : List Nat) (offset : Nat) :
    List Nat × Nat :=
  if container = parent ++ [index] then
    if offset ≤ cut then (container, offset) else (parent ++ [index + 1], offset - cut)
  else shiftFrom parent (index + 1) container offset

/-- Modelled from the spec: the split of `Mutation.splitTextContainers`, which
is not under `src/`: the children with the Text node at `index`, of content
`data`, replaced by "two siblings carrying the original concatenated
content". -/
def splitChild (index cut : Nat) (data : List Char) (cs : List Node) : List Node :=
  cs.take index ++ [.text (data.take cut), .text (data.drop cut)] ++ cs.drop (index + 1)

/-- Modelled from the spec: one step of `Mutation.splitTextContainers`, which
is not under `src/`: split the container of the boundary `(container, offset)`
when it is a Text node and the offset is not at one of its edges, and address
both boundaries of the range in the new tree. -/
def splitTextContainer (top : Node) (range : Range) (container : List Nat) (offset : Nat) :
    Option (Node × Range) :=
  match top.nodeAt container with
  | none => none
  | some (.branch _ _) => some (top, range)
  | some (.text data) =>
    if 0 < offset ∧ offset < data.length then
      match container.getLast? with
      | none => none
      | some index =>
        let parent := container.dropLast
        match top.updateAt (splitChild index offset data) parent with
        | none => none
        | some top1 =>
          let s := afterSplit parent index offset range.startContainer range.startOffset
          let e := afterSplit parent index offset range.endContainer range.endOffset
          some (top1, ⟨s.1, s.2, e.1, e.2⟩)
    else some (top, range)

/-- Modelled from the spec: `Mutation.splitTextContainers(range)`, which is
not under `src/`: it "splits any text node at a non-edge offset referenced by
either coordinate, so that both coordinates land exactly on a text-node
boundary or node-child boundary", the start first, then the end as the first
split left it. -/
def splitTextContainers (top : Node) (range : Range) : Option (Node × Range) :=
  match splitTextContainer top range range.startContainer range.startOffset with
  | none => none
  | some (top1, range1) =>
    splitTextContainer top1 range1 range1.endContainer range1.endOffset

/-- A cursor: the place in front of the child `index` of the node at `parent`
(behind its last child when `index` is the number of children). -/
structure Cursor where
  parent : List Nat
  index : Nat
deriving DecidableEq, Repr

/-- Modelled from the spec: `Cursors.cursorFromBoundaryPoint(container,
offset)`, which is not under `src/`: the boundary "translated into 'insert
before this exact child'"; a boundary at the end of a Text node is the place
behind that node, any other boundary of a Text node the place in front of
it. -/
def cursorFromBoundaryPoint (top : Node) (container : List Nat) (offset : Nat) : Option Cursor :=
  match top.nodeAt container with
  | none => none
  | some (.branch _ cs) => if offset ≤ cs.length then some ⟨container, offset⟩ else none
  | some (.text data) =>
    match container.getLast? with
    | none => none
    | some index =>
      if offset = data.length then some ⟨container.dropLast, index + 1⟩
      else if offset < data.length then some ⟨container.dropLast, index⟩
      else none

/-- Modelled from the spec: the cursor's `insert(node)`, which is not under
`src/`: it "place[s] a new node there". -/
def Cursor.insert (cursor : Cursor) (top : Node) (node : Node) : Option Node :=
  top.updateAt (insertBefore node cursor.index) cursor.parent

/-- A cursor holds on to the node it stands in front of: its address once a
node has been inserted at the cursor `other`. -/
def Cursor.behind (cursor other : Cursor) : Cursor :=
  match shiftFrom other.parent other.index cursor.parent cursor.index with
  | (parent, index) => ⟨parent, index⟩

/-- The glyph `leftMarkerChar` of `insert`. -/
def leftMarkerChar (startContainer : Node) : Char :=
  if Nodes.TEXT = startContainer.nodeType then '[' else '{'

/-- The glyph `rightMarkerChar` of `insert`. -/
def rightMarkerChar (endContainer : Node) : Char :=
  if Nodes.TEXT = endContainer.nodeType then ']' else '}'

/-- The function `insert(range)`, on the tree `top` the containers of `range`
live in; the result is that tree afterwards, `none` when a boundary of the
range is not one of the tree (which the source leaves undefined). -/
def insert (top : Node) (range : Range) : Option Node :=
  match top.nodeAt range.startContainer, top.nodeAt range.endContainer with
  | some startContainer, some endContainer =>
    match splitTextContainers top range with
    | none => none
    | some (top1, range1) =>
      let leftMarker := createTextNode [leftMarkerChar startContainer]
      let rightMarker := createTextNode [rightMarkerChar endContainer]
      match cursorFromBoundaryPoint top1 range1.startContainer range1.startOffset,
          cursorFromBoundaryPoint top1 range1.endContainer range1.endOffset with
      | some start, some end1 =>
        match start.insert top1 leftMarker with
        | none => none
        | some top2 => (end1.behind start).insert top2 rightMarker
      | _, _ => none
  | _, _ => none

/-! ## `show` -/

/-- The trees that exist, each one a node without a parent; a tree is named by
its index.  `cloneNode` and the `create...` calls of the DOM add a tree, and a
function that mutates the DOM replaces the tree it works on. -/
abbrev Heap := List Node

/-- The function `insert(range)` on the heap: `tree` is the tree the containers
of `range` live in. -/
def insertIn (heap : Heap) (tree : Nat) (range : Range) : Option Heap :=
  match heap.get? tree with
  | none => none
  | some top =>
    match insert top range with
    | none => none
    | some top1 => some (heap.set tree top1)

/-- The longest common start of two paths. -/
def commonPrefix : List Nat → List Nat → List Nat
  | i :: p, j :: q => if i = j then i :: commonPrefix p q else []
  | _, _ => []

/-- The DOM attribute `range.commonAncestorContainer`: the deepest node that
holds both containers. -/
def Range.commonAncestorContainer (range : Range) : List Nat :=
  commonPrefix range.startContainer range.endContainer

/-- Modelled from the spec: `Paths.fromBoundary(ancestor, boundary)`, which is
not under `src/`: the "sequence of child indices describing a coordinate's
location relative to some ancestor node", the indices that lead from the
ancestor to the container followed by the offset. -/
def Paths.fromBoundary (ancestor : List Nat) (container : List Nat) (offset : Nat) : List Nat :=
  container.drop ancestor.length ++ [offset]

/-- Modelled from the spec: `Paths.toBoundary(ancestor, path)`, which is not
under `src/`: the inverse of `Paths.fromBoundary`, for an ancestor that is the
topmost node of its tree. -/
def Paths.toBoundary (path : List Nat) : Option (List Nat × Nat) :=
  match path.getLast? with
  | none => none
  | some offset => some (path.dropLast, offset)

/-- The escaping of one character of a Text node in the HTML serialisation. -/
def escapeChar (c : Char) : List Char :=
  if c = '&' then "&amp;".toList
  else if c = Char.ofNat 160 then "&nbsp;".toList
  else if c = '<' then "&lt;".toList
  else if c = '>' then "&gt;".toList
  else [c]

/-- The escaping of the content of a Text node in the HTML serialisation. -/
def escape (data : List Char) : List Char := data.flatMap escapeChar

/-- The elements that the HTML serialisation writes without content and end
tag. -/
def voidElements : List String :=
  ["area", "base", "basefont", "bgsound", "br", "col", "embed", "frame", "hr", "img", "input",
    "keygen", "link", "meta", "param", "source", "track", "wbr"]

/-- The elements whose Text children the HTML serialisation writes as they
are. -/
def rawTextElements : List String :=
  ["style", "script", "xmp", "iframe", "noembed", "noframes", "plaintext", "noscript"]

mutual
/-- The HTML serialisation of a node; `raw` says that the parent is an element
whose text is written as it is.  The model has no attributes. -/
def serialize (raw : Bool) : Node → List Char
  | .text data => if raw then data else escape data
  | .branch (.element name) cs =>
    if name ∈ voidElements then "<".toList ++ name.toList ++ ">".toList
    else "<".toList ++ name.toList ++ ">".toList
      ++ serializeList (decide (name ∈ rawTextElements)) cs
      ++ "</".toList ++ name.toList ++ ">".toList
  | .branch _ cs => serializeList false cs
/-- The HTML serialisation of a list of siblings. -/
def serializeList (raw : Bool) : List Node → List Char
  | [] => []
  | c :: cs => serialize raw c ++ serializeList raw cs
end

/-- The DOM attribute `element.outerHTML`; `none` is the `undefined` that a
node of another kind gives. -/
def outerHTML : Node → Option (List Char)
  | .branch (.element name) cs => some (serialize false (.branch (.element name) cs))
  | _ => none

/-- What `show` leaves: the value returned (`none` for `undefined`) or what was
thrown, and the heap. -/
structure Shown where
  result : Except Thrown (Option (List Char))
  heap : Heap

/-- The function `show(range)`, for a range of the tree `tree` of the heap.  In
the branch of a common ancestor without parent `root` is never assigned, so
`root.concat(start)` raises a TypeError. -/
def «show» (heap : Heap) (tree : Nat) (range : Range) : Shown :=
  let cac := range.commonAncestorContainer
  let start := Paths.fromBoundary cac range.startContainer range.startOffset
  let end1 := Paths.fromBoundary cac range.endContainer range.endOffset
  match heap.get? tree with
  | none => ⟨.error .unspecified, heap⟩
  | some top =>
    match cac.getLast? with
    | some index =>
      -- `cac.parentNode` is the node at `cac.dropLast`
      let root := Paths.fromBoundary cac.dropLast cac.dropLast index
      match top.nodeAt cac.dropLast with
      | none => ⟨.error .unspecified, heap⟩
      | some parentNode =>
        -- `cac.parentNode.cloneNode(true)` is a new tree, and `clone` its topmost node
        let heap1 := heap ++ [parentNode]
        let clone := heap.length
        match Paths.toBoundary (root ++ start), Paths.toBoundary (root ++ end1) with
        | some (sc, so), some (ec, eo) =>
          let copy : Range := ⟨sc, so, ec, eo⟩
          match insertIn heap1 clone copy with
          | none => ⟨.error .unspecified, heap1⟩
          | some heap2 =>
            match heap2.get? clone with
            | none => ⟨.error .unspecified, heap2⟩
            | some cloneNode =>
              if Nodes.DOCUMENT_FRAGMENT ≠ cloneNode.nodeType then
                ⟨.ok (outerHTML cloneNode), heap2⟩
              else
                match cloneNode with
                | .branch kind cs =>
                  -- the element `node`: appending the fragment `clone` to it moves the
                  -- children of the fragment there
                  ⟨.ok (some (serializeList false cs)),
                    heap2.set clone (.branch kind []) ++ [.branch (.element "div") cs]⟩
                | .text _ => ⟨.error .unspecified, heap2⟩
        | _, _ => ⟨.error .unspecified, heap1⟩
    | none =>
      match top.nodeAt cac with
      | none => ⟨.error .unspecified, heap⟩
      | some cacNode =>
        -- `cac.cloneNode(true)` is a new tree; a Document has no `ownerDocument`
        if Nodes.DOCUMENT = cacNode.nodeType then ⟨.error .typeError, heap ++ [cacNode]⟩
        else
          match cacNode with
          | .branch .documentFragment cs =>
            -- appending a fragment moves its children: those of the clone go to `two`
            -- and from there to `one`, and the clone and `two` are left empty
            ⟨.error .typeError,
              heap ++ [.branch .documentFragment [], .branch .documentFragment cs,
                .branch .documentFragment []]⟩
          | _ =>
            -- the clone goes to `two`, and as the content of `two` to `one`
            ⟨.error .typeError,
              heap ++ [.branch .documentFragment [cacNode], .branch .documentFragment []]⟩

/-! ## `hint` -/

/-- Modelled from the spec: `Ranges.fromBoundaries(start, end)`, which is not
under `src/`: it "build[s] a selection from" two boundaries. -/
def Ranges.fromBoundaries (start end1 : List Nat × Nat) : Range :=
  ⟨start.1, start.2, end1.1, end1.2⟩

/-- The function `showBoundary(boundary)`. -/
def showBoundary (heap : Heap) (tree : Nat) (boundary : List Nat × Nat) : Shown :=
  «show» heap tree (Ranges.fromBoundaries boundary boundary)

/-- The function `showBoundaries(boundaries)`; an array with less than two
elements has `undefined` for `boundaries[1]`, which is no boundary. -/
def showBoundaries (heap : Heap) (tree : Nat) (boundaries : List (List Nat × Nat)) : Shown :=
  match boundaries.get? 0, boundaries.get? 1 with
  | some start, some end1 => «show» heap tree (Ranges.fromBoundaries start end1)
  | _, _ => ⟨.error .unspecified, heap⟩

/-- What `hint` is called with, as its documentation has it
(`Boundary|Array.<Boundary>|Range`): a boundary, which is the array of a node
and an offset, an array of boundaries, or a range. -/
inductive Arg where
  | boundary (container : List Nat) (offset : Nat)
  | boundaries (items : List (List Nat × Nat))
  | range (r : Range)
deriving Repr

/-- The value of `arg.length`; `none` is `undefined`, which a range gives. -/
def Arg.length : Arg → Option Nat
  | .boundary _ _ => some 2
  | .boundaries items => some items.length
  | .range _ => none

/-- The test `'string' === typeof arg[0].nodeName` of `hint`, for an `arg`
with elements: it holds when `arg[0]` is a node, so when `arg` is a boundary,
and fails when `arg[0]` is itself a boundary. -/
def Arg.firstHasNodeName : Arg → Bool
  | .boundary _ _ => true
  | .boundaries _ => false
  | .range _ => false

/-- The function `hint(arg)`, for ranges and boundaries of the tree `tree` of
the heap.  An empty array has the length 0, so it is handed to `show` as if it
were a range. -/
def hint (heap : Heap) (tree : Nat) (arg : Arg) : Shown :=
  if arg.length ≠ none ∧ arg.length ≠ some 0 then
    if arg.firstHasNodeName then
      match arg with
      | .boundary container offset => showBoundary heap tree (container, offset)
      | _ => ⟨.error .unspecified, heap⟩
    else
      match arg with
      | .boundaries items => showBoundaries heap tree items
      | _ => ⟨.error .unspecified, heap⟩
  else
    match arg with
    | .range r => «show» heap tree r
    | _ => ⟨.error .unspecified, heap⟩

/-! ## Notions the statements are written in -/

mutual
/-- The DOM attribute `node.textContent`: the text of the Text nodes under the
node, in document order. -/
def Node.textContent : Node → List Char
  | .text data => data
  | .branch _ cs => textContentList cs
/-- The text of a list of siblings, in document order. -/
def textContentList : List Node → List Char
  | [] => []
  | c :: cs => c.textContent ++ textContentList cs
end

/-- The marker characters of a text, in order. -/
def markerChars (text : List Char) : List Char := text.filter isMarker

/-- A start glyph. -/
def isStartGlyph (c : Char) : Bool := c == '[' || c == '{'

/-- An end glyph. -/
def isEndGlyph (c : Char) : Bool := c == ']' || c == '}'

/-- What reading marker characters one after the other does to `markersFound`:
the checks of `setBoundaryPoint` alone. -/
def scanMarkers : Nat → List Char → Nat × Option Thrown
  | found, [] => (found, none)
  | found, c :: cs =>
    match chooseSetFn found [c] with
    | .error e => (found, some e)
    | .ok _ => scanMarkers (found + 1) cs

/-- A part as `splitIncl` produces them: one marker character, or text free of
marker characters. -/
def IsPart (part : List Char) : Prop :=
  (∃ c, part = [c] ∧ isMarker c = true) ∨ (part ≠ [] ∧ ∀ c ∈ part, isMarker c = false)

/-- A symbol of the markup of a tree: the opening of a node with children, its
closing, or a character of a Text node. -/
inductive Sym where
  | opening (kind : Kind)
  | closing
  | char (c : Char)
deriving DecidableEq, Repr

mutual
/-- The markup of a tree, symbol by symbol, in document order; the limits
between adjacent Text nodes leave no trace in it. -/
def Node.markup : Node → List Sym
  | .text data => data.map Sym.char
  | .branch kind cs => Sym.opening kind :: (markupList cs ++ [Sym.closing])
/-- The markup of a list of siblings. -/
def markupList : List Node → List Sym
  | [] => []
  | c :: cs => c.markup ++ markupList cs
end

/-- A marker character in the markup. -/
def Sym.isMarker : Sym → Bool
  | .char c => BoundaryMarkers.isMarker c
  | _ => false

/-- The markup without its marker characters. -/
def unmarked (syms : List Sym) : List Sym := syms.filter (fun s => !s.isMarker)

/-- A text without its marker characters. -/
def plainText (text : List Char) : List Char := text.filter (fun c => !isMarker c)

/-- The characters of a markup, in order. -/
def charsOf (syms : List Sym) : List Char :=
  syms.filterMap (fun s => match s with | .char c => some c | _ => none)

/-- The start boundary (`idx = 0`) or the end boundary (any other `idx`) of a
range. -/
def Range.boundary (range : Range) (idx : Nat) : List Nat × Nat :=
  if idx = 0 then (range.startContainer, range.startOffset)
  else (range.endContainer, range.endOffset)

/-- A bracket glyph, as opposed to a brace glyph. -/
def isBracket (c : Char) : Bool := c == '[' || c == ']'

/-- Whether `(container, offset)` is a boundary of the tree `top`, and of
which kind: `some true` for an offset into the characters of a Text node,
`some false` for an offset between the children of another node, `none` when
it is no boundary of the tree. -/
def Node.boundaryKind (top : Node) (container : List Nat) (offset : Nat) : Option Bool :=
  match top.nodeAt container with
  | some (.text data) => if offset ≤ data.length then some true else none
  | some (.branch _ cs) => if offset ≤ cs.length then some false else none
  | none => none

/-- What a stretch of the traversal of `extract` does with the boundaries: it
starts with the siblings `before` and the state `st`, reads the marker
characters `ms`, and ends with the siblings `out` and the state `st1`, under
the node at `here`.  The boundaries set before stay boundaries of the same
kind, the boundary a marker of the stretch sets is one of the kind of its
glyph, and the other boundary of the range is not touched. -/
structure Stretch (here : List Nat) (before : List Node) (st : State) (ms : List Char)
    (out : List Node) (st1 : State) : Prop where
  found : st1.markersFound = st.markersFound + ms.length
  stable : ∀ kind rel offset b, (Node.branch kind before).boundaryKind rel offset = some b →
    (Node.branch kind out).boundaryKind rel offset = some b
  set : ∀ idx g, idx ≤ 1 → st.markersFound ≤ idx → ms.get? (idx - st.markersFound) = some g →
    ∃ rel, (st1.range.boundary idx).1 = here ++ rel ∧
      ∀ kind, (Node.branch kind out).boundaryKind rel (st1.range.boundary idx).2
        = some (isBracket g)
  keep : ∀ idx, idx ≤ 1 → idx < st.markersFound ∨ ms.length ≤ idx - st.markersFound →
    st1.range.boundary idx = st.range.boundary idx

/-- Where a boundary lies in the markup of a tree: the number of symbols in
front of it, and whether it is at an edge of its container's content (any
boundary of a node with children, the first and the last boundary of a Text
node). -/
structure Place where
  pos : Nat
  edge : Bool
deriving DecidableEq, Repr

/-- The place of the boundary `(container, offset)` in the tree, `none` when
it is no boundary of the tree. -/
def Node.place : Node → List Nat → Nat → Option Place
  | .text data, [], offset =>
    if offset ≤ data.length then some ⟨offset, offset == 0 || offset == data.length⟩ else none
  | .text _, _ :: _, _ => none
  | .branch _ cs, [], offset =>
    if offset ≤ cs.length then some ⟨1 + (markupList (cs.take offset)).length, true⟩ else none
  | .branch _ cs, i :: p, offset =>
    match cs.get? i with
    | some c =>
      match c.place p offset with
      | some pl => some ⟨1 + (markupList (cs.take i)).length + pl.pos, pl.edge⟩
      | none => none
    | none => none

/-- The position of the boundary `(container, offset)` in the markup of the
tree: the number of symbols in front of it. -/
def Node.position (top : Node) (container : List Nat) (offset : Nat) : Option Nat :=
  (top.place container offset).map Place.pos

/-- The order of the boundaries of a tree, as the DOM defines it: the boundary
`(c1, o1)` is not after `(c2, o2)`.  A boundary of a node lies in front of the
boundaries inside its child `o1` and behind those inside the children before. -/
def notAfter : List Nat → Nat → List Nat → Nat → Bool
  | [], o1, [], o2 => decide (o1 ≤ o2)
  | [], o1, k2 :: _, _ => decide (o1 ≤ k2)
  | k1 :: _, _, [], o2 => decide (k1 < o2)
  | k1 :: p1, o1, k2 :: p2, o2 => decide (k1 < k2) || (k1 == k2 && notAfter p1 o1 p2 o2)

/-- A range of the tree `top`: its two boundaries are boundaries of the tree,
and the start is not after the end. -/
def ValidRange (top : Node) (range : Range) : Prop :=
  (top.position range.startContainer range.startOffset).isSome = true ∧
  (top.position range.endContainer range.endOffset).isSome = true ∧
  notAfter range.startContainer range.startOffset range.endContainer range.endOffset = true

/-- The list `syms` with the symbol `s` put in at index `n`. -/
def putAt (n : Nat) (s : Sym) (syms : List Sym) : List Sym :=
  syms.take n ++ s :: syms.drop n

/-- The tree `top1` is the tree `top` with Text nodes split, and `g` gives the
address in `top1` of each boundary of `top`: the markup is the same, every
boundary keeps its position in it and stays at an edge when it was at one, and
the order of the boundaries is kept. -/
structure Readdress (top top1 : Node) (g : List Nat → Nat → List Nat × Nat) : Prop where
  markup : top1.markup = top.markup
  place : ∀ c o pl, top.place c o = some pl →
    ∃ e, top1.place (g c o).1 (g c o).2 = some ⟨pl.pos, e⟩ ∧ (pl.edge = true → e = true)
  order : ∀ c1 o1 c2 o2, (top.place c1 o1).isSome = true → (top.place c2 o2).isSome = true →
    notAfter c1 o1 c2 o2 = true →
    notAfter (g c1 o1).1 (g c1 o1).2 (g c2 o2).1 (g c2 o2).2 = true

/-- The number of symbols that are no markers in front of the marker number
`i` of a markup (counted from 0); `none` when the markup has no such marker. -/
def markerPos : List Sym → Nat → Option Nat
  | [], _ => none
  | s :: rest, i =>
    if s.isMarker then
      if i = 0 then some 0 else markerPos rest (i - 1)
    else (markerPos rest i).map (· + 1)

/-- The number of markers of a markup. -/
def markerCount (syms : List Sym) : Nat := (syms.filter Sym.isMarker).length

mutual
/-- A tree whose markers are isolated: every Text node is free of marker
characters or holds a single character.  The trees `insert` makes of a tree
free of marker characters are such trees. -/
def Node.Isolated : Node → Prop
  | .text data => markerChars data = [] ∨ data.length = 1
  | .branch _ cs => IsolatedList cs
/-- A list of siblings whose markers are isolated. -/
def IsolatedList : List Node → Prop
  | [] => True
  | c :: cs => c.Isolated ∧ IsolatedList cs
end

/-- What a stretch of the traversal of `extract` does with the positions of
the boundaries, on a tree whose markers are isolated: the stretch starts with
the siblings `before`, reads the markup `seg` and ends with the siblings
`out`.  The siblings read are put behind `before` without their markers, and
the boundary a marker of the stretch sets lies where the marker was. -/
structure Track (here : List Nat) (before : List Node) (st : State) (seg : List Sym)
    (out : List Node) (st1 : State) : Prop where
  found : st1.markersFound = st.markersFound + markerCount seg
  markup : markupList out = markupList before ++ unmarked seg
  stable : ∀ kind rel offset pl, (Node.branch kind before).place rel offset = some pl →
    (Node.branch kind out).place rel offset = some pl
  set : ∀ idx x, idx ≤ 1 → st.markersFound ≤ idx →
    markerPos seg (idx - st.markersFound) = some x →
    ∃ rel, (st1.range.boundary idx).1 = here ++ rel ∧
      ∀ kind, ∃ e, (Node.branch kind out).place rel (st1.range.boundary idx).2
        = some ⟨1 + (markupList before).length + x, e⟩
  keep : ∀ idx, idx ≤ 1 → idx < st.markersFound ∨ markerCount seg ≤ idx - st.markersFound →
    st1.range.boundary idx = st.range.boundary idx

/-- A Text node that is one brace glyph: what `insert` makes for a boundary
between the children of a node. -/
def Node.isBrace : Node → Bool
  | .text data => data == ['{'] || data == ['}']
  | .branch _ _ => false

mutual
/-- The tree without the Text nodes that are one brace glyph. -/
def Node.withoutBraces : Node → Node
  | .text data => .text data
  | .branch kind cs => .branch kind (withoutBracesList cs)
/-- A list of siblings without the Text nodes that are one brace glyph. -/
def withoutBracesList : List Node → List Node
  | [] => []
  | c :: cs =>
    if c.isBrace then withoutBracesList cs else c.withoutBraces :: withoutBracesList cs
end

/-! ## Lemmas on `splitIncl` and on the checks of `setBoundaryPoint` -/

theorem mem_markers_iff (part : List Char) :
    part ∈ markers ↔ ∃ c, part = [c] ∧ isMarker c = true := by
  constructor
  · intro h
    simp only [markers, List.mem_cons, List.mem_singleton, List.not_mem_nil, or_false] at h
    rcases h with h | h | h | h <;> subst h <;> exact ⟨_, rfl, by decide⟩
  · rintro ⟨c, rfl, hc⟩
    simp only [isMarker, Bool.or_eq_true, beq_iff_eq] at hc
    rcases hc with ((h | h) | h) | h <;> subst h <;> decide

theorem splitInclAux_flatten (pending text : List Char) :
    (splitInclAux isMarker pending text).flatten = pending ++ text := by
  induction text generalizing pending with
  | nil => by_cases h : pending = [] <;> simp [splitInclAux, h]
  | cons c cs ih =>
    unfold splitInclAux
    by_cases hc : isMarker c = true
    · by_cases h : pending = [] <;> simp [hc, h, ih]
    · simp [hc, ih]

theorem splitInclAux_isPart (pending text : List Char)
    (hp : ∀ c ∈ pending, isMarker c = false) :
    ∀ part ∈ splitInclAux isMarker pending text, IsPart part := by
  induction text generalizing pending with
  | nil =>
    intro part
    by_cases h : pending = [] <;> simp [splitInclAux, h]
    rintro rfl
    exact Or.inr ⟨h, hp⟩
  | cons c cs ih =>
    intro part
    unfold splitInclAux
    by_cases hc : isMarker c = true
    · by_cases h : pending = []
      · simp only [hc, h, if_true, List.mem_cons]
        rintro (rfl | hm)
        · exact Or.inl ⟨c, rfl, hc⟩
        · exact ih [] (by simp) part hm
      · simp only [hc, h, if_true, if_false, List.mem_cons]
        rintro (rfl | rfl | hm)
        · exact Or.inr ⟨h, hp⟩
        · exact Or.inl ⟨c, rfl, hc⟩
        · exact ih [] (by simp) part hm
    · simp only [hc, if_false]
      intro hm
      refine ih (pending ++ [c]) ?_ part hm
      intro x hx
      rcases List.mem_append.1 hx with hx | hx
      · exact hp x hx
      · simp at hx; subst hx; simpa using hc

theorem splitIncl_flatten (text : List Char) : (splitIncl text isMarker).flatten = text := by
  simpa [splitIncl] using splitInclAux_flatten [] text

theorem splitIncl_isPart (text : List Char) : ∀ part ∈ splitIncl text isMarker, IsPart part :=
  splitInclAux_isPart [] text (by simp)

theorem markerChars_of_not_mem {part : List Char} (hp : IsPart part) (hm : part ∉ markers) :
    markerChars part = [] := by
  rcases hp with h | ⟨_, h⟩
  · exact absurd ((mem_markers_iff part).2 h) hm
  · simpa [markerChars, List.filter_eq_nil_iff] using h

theorem markerChars_of_mem {part : List Char} (hm : part ∈ markers) :
    ∃ c, part = [c] ∧ markerChars part = [c] := by
  obtain ⟨c, rfl, hc⟩ := (mem_markers_iff part).1 hm
  exact ⟨c, rfl, by simp [markerChars, hc]⟩

theorem markerChars_append (a b : List Char) :
    markerChars (a ++ b) = markerChars a ++ markerChars b := by
  simp [markerChars]

/-- The parts `extractMarkers` skips are those of a text free of markers. -/
theorem fastPath_markerChars (text : List Char)
    (h : (splitIncl text isMarker).head? ∉ markers.map some ∧ (splitIncl text isMarker).length < 2) :
    markerChars text = [] := by
  have hf := splitIncl_flatten text
  have hp := splitIncl_isPart text
  rcases h with ⟨h1, h2⟩
  match hs : splitIncl text isMarker with
  | [] => rw [hs] at hf; simp at hf; subst hf; rfl
  | [p] =>
    rw [hs] at hf h1 hp
    simp at hf; subst hf
    apply markerChars_of_not_mem (hp _ (by simp))
    intro hm
    apply h1
    simp only [List.head?_cons, List.mem_map]
    exact ⟨_, hm, rfl⟩
  | _ :: _ :: _ => rw [hs] at h2; simp at h2; omega

theorem scanMarkers_nil (found : Nat) : scanMarkers found [] = (found, none) := rfl

/-- The shape of what `setBoundaryPoint` returns once its checks pass. -/
theorem setBoundaryPoint_ok (here : List Nat) (before : List Node) (st : State)
    (marker : List Char) (fn : SetFn) (h : chooseSetFn st.markersFound marker = .ok fn) :
    ∃ before1 range1 force1, setBoundaryPoint here before st marker
      = .ok (before1, ⟨st.markersFound + 1, range1⟩, force1) := by
  unfold setBoundaryPoint
  rw [h]
  simp only
  split_ifs
  · cases hl : before.getLast? with
    | none => exact ⟨_, _, _, rfl⟩
    | some n => cases n <;> exact ⟨_, _, _, rfl⟩
  · exact ⟨_, _, _, rfl⟩

theorem setBoundaryPoint_error (here : List Nat) (before : List Node) (st : State)
    (marker : List Char) (e : Thrown) (h : chooseSetFn st.markersFound marker = .error e) :
    setBoundaryPoint here before st marker = .error e := by
  unfold setBoundaryPoint
  rw [h]

theorem extractPart_text (here : List Nat) (before : List Node) (st : State) (force : Bool)
    (part : List Char) (hm : part ∉ markers) :
    ∃ before1, extractPart here before st force part = .ok (before1, st, force) := by
  unfold extractPart
  simp only [hm, if_false]
  cases force
  · cases hl : before.getLast? with
    | none => exact ⟨_, rfl⟩
    | some n => cases n <;> exact ⟨_, rfl⟩
  · exact ⟨_, rfl⟩

theorem extractPart_scan (here : List Nat) (before : List Node) (st : State) (force : Bool)
    (part : List Char) (hp : IsPart part) :
    match extractPart here before st force part with
    | .error e => ∀ rest, scanMarkers st.markersFound (markerChars part ++ rest)
        = (st.markersFound, some e)
    | .ok (_, st1, _) => ∀ rest, scanMarkers st.markersFound (markerChars part ++ rest)
        = scanMarkers st1.markersFound rest := by
  by_cases hm : part ∈ markers
  · obtain ⟨c, rfl, hc⟩ := markerChars_of_mem hm
    have hx : extractPart here before st force [c] = setBoundaryPoint here before st [c] := by
      simp [extractPart, hm]
    rw [hx, hc]
    cases hch : chooseSetFn st.markersFound [c] with
    | error e =>
      rw [setBoundaryPoint_error _ _ _ _ _ hch]
      simp [scanMarkers, hch]
    | ok fn =>
      obtain ⟨b1, r1, f1, h1⟩ := setBoundaryPoint_ok here before st [c] fn hch
      rw [h1]
      simp [scanMarkers, hch]
  · obtain ⟨b1, h1⟩ := extractPart_text here before st force part hm
    rw [h1]
    simp [markerChars_of_not_mem hp hm]

theorem extractParts_scan (here : List Nat) (parts : List (List Char))
    (hp : ∀ part ∈ parts, IsPart part) (before : List Node) (st : State) (force first : Bool) :
    ((extractParts here before st force first parts).2.1.markersFound,
      (extractParts here before st force first parts).2.2)
      = scanMarkers st.markersFound (markerChars parts.flatten) := by
  induction parts generalizing before st force first with
  | nil => rfl
  | cons part parts ih =>
    have h1 := extractPart_scan here before st (force || first) part (hp part (by simp))
    unfold extractParts
    cases hx : extractPart here before st (force || first) part with
    | error e =>
      rw [hx] at h1
      simp only at h1 ⊢
      rw [List.flatten_cons, markerChars_append, h1]
    | ok r =>
      obtain ⟨b1, st1, f1⟩ := r
      rw [hx] at h1
      simp only at h1 ⊢
      rw [ih (fun p hp1 => hp p (by simp [hp1])), List.flatten_cons, markerChars_append, h1]

theorem extractMarkers_scan (here : List Nat) (before : List Node) (st : State)
    (text : List Char) :
    ((extractMarkers here before st text).2.1.markersFound,
      (extractMarkers here before st text).2.2)
      = scanMarkers st.markersFound (markerChars text) := by
  unfold extractMarkers
  simp only
  split_ifs with h
  · rw [fastPath_markerChars text h]; rfl
  · have h1 := extractParts_scan here (splitIncl text isMarker) (splitIncl_isPart text)
      before st false true
    rw [splitIncl_flatten] at h1
    rw [← h1]
    split <;> rename_i heq <;> simp [heq]

theorem scanMarkers_append (found : Nat) (a b : List Char) :
    scanMarkers found (a ++ b) =
      match scanMarkers found a with
      | (found1, none) => scanMarkers found1 b
      | (found1, some e) => (found1, some e) := by
  induction a generalizing found with
  | nil => rfl
  | cons c cs ih =>
    simp only [List.cons_append, scanMarkers]
    cases chooseSetFn found [c] with
    | error e => rfl
    | ok fn => exact ih _

mutual
theorem walkRec_scan (here : List Nat) (before : List Node) (st : State) :
    ∀ node : Node, ((walkRec here before st node).2.1.markersFound,
      (walkRec here before st node).2.2)
      = scanMarkers st.markersFound (markerChars node.textContent)
  | .text text => by
    simp only [walkRec, Node.textContent]
    exact extractMarkers_scan here before st text
  | .branch kind cs => by
    have h := walk_scan (here ++ [before.length]) [] st cs
    simp only [walkRec, Node.textContent]
    rw [← h]
theorem walk_scan (here : List Nat) (before : List Node) (st : State) :
    ∀ nodes : List Node, ((walk here before st nodes).2.1.markersFound,
      (walk here before st nodes).2.2)
      = scanMarkers st.markersFound (markerChars (textContentList nodes))
  | [] => rfl
  | node :: nodes => by
    have h1 := walkRec_scan here before st node
    simp only [walk, textContentList, markerChars_append, scanMarkers_append]
    rw [← h1]
    rcases hw : walkRec here before st node with ⟨b1, st1, _ | e⟩
    · simp only
      exact walk_scan here b1 st1 nodes
    · rfl
end

/-- What `extract` throws on a node with children, read off the marker
characters under it. -/
theorem extract_thrown (kind : Kind) (cs : List Node) (range : Range) :
    (extract (.branch kind cs) range).thrown =
      match scanMarkers 0 (markerChars (textContentList cs)) with
      | (_, some e) => some e
      | (found, none) =>
        if 2 ≠ found then some (.message "Missing one or both markers") else none := by
  have h := walk_scan [] [] ⟨0, range⟩ cs
  simp only at h
  rw [← h]
  unfold extract
  rcases hw : walk [] [] ⟨0, range⟩ cs with ⟨b1, st1, _ | e⟩
  · simp only [hw]
    split_ifs <;> rfl
  · simp only [hw]

theorem chooseSetFn_zero (c : Char) :
    chooseSetFn 0 [c] = if isStartGlyph c = true then .ok .setStart
      else .error (.message "end marker before start marker") := by
  unfold chooseSetFn isStartGlyph
  by_cases h1 : c = '[' <;> by_cases h2 : c = '{' <;> simp [h1, h2]

theorem chooseSetFn_one (c : Char) :
    chooseSetFn 1 [c] = if isEndGlyph c = true then .ok .setEnd
      else .error (.message "start marker before end marker") := by
  unfold chooseSetFn isEndGlyph
  by_cases h1 : c = ']' <;> by_cases h2 : c = '}' <;> simp [h1, h2]

theorem chooseSetFn_many (found : Nat) (c : Char) :
    chooseSetFn (found + 2) [c] = .error (.message "Too many markers") := by
  simp [chooseSetFn]

/-- The marker sequences on which the checks of `setBoundaryPoint` pass twice
and no more. -/
theorem scanMarkers_two (ms : List Char) :
    scanMarkers 0 ms = (2, none) ↔
      ∃ a b, ms = [a, b] ∧ isStartGlyph a = true ∧ isEndGlyph b = true := by
  constructor
  · intro h
    match ms, h with
    | [], h => simp [scanMarkers] at h
    | [a], h =>
      simp only [scanMarkers, chooseSetFn_zero] at h
      by_cases ha : isStartGlyph a = true <;> simp [ha] at h
    | [a, b], h =>
      simp only [scanMarkers, chooseSetFn_zero] at h
      by_cases ha : isStartGlyph a = true <;> by_cases hb : isEndGlyph b = true <;>
        simp [ha, hb, chooseSetFn_one] at h
      exact ⟨a, b, rfl, ha, hb⟩
    | a :: b :: c :: rest, h =>
      simp only [scanMarkers, chooseSetFn_zero] at h
      by_cases ha : isStartGlyph a = true <;> by_cases hb : isEndGlyph b = true <;>
        simp [ha, hb, chooseSetFn_one, chooseSetFn_many 0 c] at h
  · rintro ⟨a, b, rfl, ha, hb⟩
    simp [scanMarkers, chooseSetFn_zero, chooseSetFn_one, ha, hb]

theorem scanMarkers_found_none (found : Nat) (ms : List Char) (found1 : Nat)
    (h : scanMarkers found ms = (found1, none)) : found1 = found + ms.length := by
  induction ms generalizing found with
  | nil => simp [scanMarkers] at h; simp [h]
  | cons c cs ih =>
    simp only [scanMarkers] at h
    cases hc : chooseSetFn found [c] with
    | error e => rw [hc] at h; simp at h
    | ok fn =>
      rw [hc] at h
      have := ih _ h
      simp; omega

/-- When `extract` returns, in terms of the marker characters under a node with
children. -/
theorem thrown_none_iff (kind : Kind) (cs : List Node) (range : Range) :
    (extract (.branch kind cs) range).thrown = none ↔
      ∃ a b, markerChars (Node.branch kind cs).textContent = [a, b] ∧
        isStartGlyph a = true ∧ isEndGlyph b = true := by
  rw [extract_thrown, Node.textContent, ← scanMarkers_two]
  rcases hs : scanMarkers 0 (markerChars (textContentList cs)) with ⟨found, _ | e⟩
  · simp only
    constructor
    · intro h
      split_ifs at h with h2
      simp only [ne_eq, not_not] at h2
      rw [← h2]
    · intro h
      cases h
      simp
  · simp

/-- C2: `extract(root, range)` on a node with children returns without a throw
exactly when the marker characters under `root`, in document order, are two,
a start glyph followed by an end glyph. -/
theorem extract_returns_iff (kind : Kind) (cs : List Node) (range : Range) :
    (extract (.branch kind cs) range).thrown = none ↔
      ∃ a b, markerChars (Node.branch kind cs).textContent = [a, b] ∧
        isStartGlyph a = true ∧ isEndGlyph b = true :=
  thrown_none_iff kind cs range

/-- C10: when the first marker character under `root`, in document order, is
an end glyph, `extract` throws 'end marker before start marker'. -/
theorem extract_end_marker_first (kind : Kind) (cs : List Node) (range : Range)
    (c : Char) (rest : List Char)
    (hfirst : markerChars (Node.branch kind cs).textContent = c :: rest)
    (hend : isEndGlyph c = true) :
    (extract (.branch kind cs) range).thrown
      = some (.message "end marker before start marker") := by
  rw [Node.textContent] at hfirst
  rw [extract_thrown, hfirst]
  have hs : isStartGlyph c = false := by
    simp only [isEndGlyph, Bool.or_eq_true, beq_iff_eq] at hend
    rcases hend with h | h <;> subst h <;> decide
  simp [scanMarkers, chooseSetFn_zero, hs]

/-- The witness of C10: `<p>a]b[c</p>`. -/
theorem extract_end_marker_first_witness :
    (extract (.branch (.element "p") [.text "a]b[c".toList]) ⟨[], 0, [], 0⟩).thrown
      = some (.message "end marker before start marker") :=
  extract_end_marker_first (.element "p") [.text "a]b[c".toList] ⟨[], 0, [], 0⟩ ']'
    ['['] (by decide) (by decide)

/-! ## The markup `extract` leaves -/

theorem markupList_append (a b : List Node) :
    markupList (a ++ b) = markupList a ++ markupList b := by
  induction a with
  | nil => rfl
  | cons c cs ih => simp [markupList, ih]

theorem markupList_singleton (n : Node) : markupList [n] = n.markup := by
  simp [markupList]

theorem unmarked_append (a b : List Sym) : unmarked (a ++ b) = unmarked a ++ unmarked b := by
  simp [unmarked]

theorem unmarked_map_char (text : List Char) :
    unmarked (text.map Sym.char) = (plainText text).map Sym.char := by
  induction text with
  | nil => rfl
  | cons c cs ih =>
    have e : (Sym.char c).isMarker = isMarker c := rfl
    simp only [unmarked, plainText, List.map_cons, List.filter_cons, e] at ih ⊢
    by_cases h : isMarker c = true <;> simp [h, ih]

theorem plainText_append (a b : List Char) : plainText (a ++ b) = plainText a ++ plainText b := by
  simp [plainText]

theorem plainText_of_mem {part : List Char} (hm : part ∈ markers) : plainText part = [] := by
  obtain ⟨c, rfl, hc⟩ := (mem_markers_iff part).1 hm
  simp [plainText, hc]

theorem plainText_of_not_mem {part : List Char} (hp : IsPart part) (hm : part ∉ markers) :
    plainText part = part := by
  rcases hp with h | ⟨_, h⟩
  · exact absurd ((mem_markers_iff part).2 h) hm
  · simp only [plainText, List.filter_eq_self]
    intro c hc
    simp [h c hc]

theorem setBoundaryPoint_markup (here : List Nat) (before : List Node) (st : State)
    (marker : List Char) (before1 : List Node) (st1 : State) (force1 : Bool)
    (h : setBoundaryPoint here before st marker = .ok (before1, st1, force1)) :
    markupList before1 = markupList before := by
  unfold setBoundaryPoint at h
  cases hch : chooseSetFn st.markersFound marker with
  | error e => rw [hch] at h; simp at h
  | ok fn =>
    rw [hch] at h
    simp only at h
    split_ifs at h
    · cases hl : before.getLast? with
      | none =>
        rw [hl] at h
        simp only [Except.ok.injEq, Prod.mk.injEq] at h
        rw [← h.1, markupList_append]
        simp [markupList, createTextNode, Node.markup]
      | some n =>
        rw [hl] at h
        cases n with
        | text d =>
          simp only [Except.ok.injEq, Prod.mk.injEq] at h
          rw [← h.1]
        | branch k cs =>
          simp only [Except.ok.injEq, Prod.mk.injEq] at h
          rw [← h.1, markupList_append]
          simp [markupList, createTextNode, Node.markup]
    · simp only [Except.ok.injEq, Prod.mk.injEq] at h
      rw [← h.1]

theorem extractPart_markup (here : List Nat) (before : List Node) (st : State) (force : Bool)
    (part : List Char) (hp : IsPart part) (before1 : List Node) (st1 : State) (force1 : Bool)
    (h : extractPart here before st force part = .ok (before1, st1, force1)) :
    markupList before1 = markupList before ++ (plainText part).map Sym.char := by
  unfold extractPart at h
  by_cases hm : part ∈ markers
  · simp only [hm, if_true] at h
    rw [setBoundaryPoint_markup here before st part before1 st1 force1 h, plainText_of_mem hm]
    simp
  · simp only [hm, if_false] at h
    rw [plainText_of_not_mem hp hm]
    have happ : markupList (before ++ [createTextNode part])
        = markupList before ++ part.map Sym.char := by
      rw [markupList_append]; simp [markupList, createTextNode, Node.markup]
    cases force with
    | true =>
      simp only [Except.ok.injEq, Prod.mk.injEq] at h
      rw [← h.1, happ]
    | false =>
      cases hl : before.getLast? with
      | none =>
        rw [hl] at h
        simp only [Except.ok.injEq, Prod.mk.injEq] at h
        rw [← h.1, happ]
      | some n =>
        rw [hl] at h
        cases n with
        | text d =>
          simp only [Except.ok.injEq, Prod.mk.injEq] at h
          have hb := List.dropLast_append_getLast? _ hl
          rw [← h.1]
          conv_rhs => rw [← hb]
          simp [markupList_append, markupList, Node.markup]
        | branch k cs =>
          simp only [Except.ok.injEq, Prod.mk.injEq] at h
          rw [← h.1, happ]

theorem extractParts_markup (here : List Nat) (parts : List (List Char))
    (hp : ∀ part ∈ parts, IsPart part) (before : List Node) (st : State) (force first : Bool)
    (before1 : List Node) (st1 : State)
    (h : extractParts here before st force first parts = (before1, st1, none)) :
    markupList before1 = markupList before ++ (plainText parts.flatten).map Sym.char := by
  induction parts generalizing before st force first with
  | nil =>
    simp only [extractParts, Prod.mk.injEq] at h
    rw [← h.1]; simp [plainText]
  | cons part parts ih =>
    unfold extractParts at h
    cases hx : extractPart here before st (force || first) part with
    | error e => rw [hx] at h; simp at h
    | ok r =>
      obtain ⟨b1, s1, f1⟩ := r
      rw [hx] at h
      simp only at h
      rw [ih (fun p hp1 => hp p (by simp [hp1])) b1 s1 f1 false h,
        extractPart_markup here before st _ part (hp part (by simp)) b1 s1 f1 hx]
      simp [plainText_append]

theorem extractMarkers_markup (here : List Nat) (before : List Node) (st : State)
    (text : List Char) (before1 : List Node) (st1 : State)
    (h : extractMarkers here before st text = (before1, st1, none)) :
    markupList before1 = markupList before ++ unmarked (Node.text text).markup := by
  rw [Node.markup, unmarked_map_char]
  unfold extractMarkers at h
  simp only at h
  split_ifs at h with hf
  · simp only [Prod.mk.injEq] at h
    have h0 := fastPath_markerChars text hf
    have : plainText text = text := by
      simp only [markerChars, List.filter_eq_nil_iff] at h0
      simp only [plainText, List.filter_eq_self]
      intro c hc
      simpa using h0 c hc
    rw [← h.1, this, markupList_append]
    simp [markupList, Node.markup]
  · rcases hx : extractParts here before st false true (splitIncl text isMarker)
      with ⟨b1, s1, _ | e⟩
    · rw [hx] at h
      simp only [Prod.mk.injEq] at h
      have := extractParts_markup here _ (splitIncl_isPart text) before st false true b1 s1 hx
      rw [splitIncl_flatten] at this
      rw [← h.1, this]
    · rw [hx] at h
      simp at h

mutual
theorem walkRec_markup (here : List Nat) (before : List Node) (st : State) :
    ∀ (node : Node) (before1 : List Node) (st1 : State),
      walkRec here before st node = (before1, st1, none) →
      markupList before1 = markupList before ++ unmarked node.markup
  | .text text, before1, st1, h => by
    simp only [walkRec] at h
    exact extractMarkers_markup here before st text before1 st1 h
  | .branch kind cs, before1, st1, h => by
    simp only [walkRec] at h
    rcases hw : walk (here ++ [before.length]) [] st cs with ⟨cs1, s1, thr⟩
    rw [hw] at h
    simp only [Prod.mk.injEq] at h
    obtain ⟨h1, h2, h3⟩ := h
    subst h3
    have := walk_markup (here ++ [before.length]) [] st cs cs1 s1 hw
    rw [← h1, markupList_append, markupList_singleton, Node.markup, this, Node.markup]
    simp [unmarked, Sym.isMarker, markupList]
theorem walk_markup (here : List Nat) (before : List Node) (st : State) :
    ∀ (nodes : List Node) (before1 : List Node) (st1 : State),
      walk here before st nodes = (before1, st1, none) →
      markupList before1 = markupList before ++ unmarked (markupList nodes)
  | [], before1, st1, h => by
    simp only [walk, Prod.mk.injEq] at h
    rw [← h.1]; simp [markupList, unmarked]
  | node :: nodes, before1, st1, h => by
    simp only [walk] at h
    rcases hw : walkRec here before st node with ⟨b1, s1, _ | e⟩
    · rw [hw] at h
      simp only at h
      rw [walk_markup here b1 s1 nodes before1 st1 h,
        walkRec_markup here before st node b1 s1 hw]
      simp [markupList, unmarked_append]
    · rw [hw] at h
      simp at h
end

theorem charsOf_append (a b : List Sym) : charsOf (a ++ b) = charsOf a ++ charsOf b := by
  simp [charsOf]

theorem charsOf_map_char (text : List Char) : charsOf (text.map Sym.char) = text := by
  induction text with
  | nil => rfl
  | cons c cs ih => simp only [charsOf, List.map_cons, List.filterMap_cons] at ih ⊢; rw [ih]

mutual
theorem charsOf_markup : ∀ node : Node, charsOf node.markup = node.textContent
  | .text data => by simp [Node.markup, Node.textContent, charsOf_map_char]
  | .branch kind cs => by
    have := charsOf_markupList cs
    simp only [Node.markup, Node.textContent]
    rw [← this]
    simp [charsOf]
theorem charsOf_markupList : ∀ nodes : List Node, charsOf (markupList nodes) = textContentList nodes
  | [] => rfl
  | node :: nodes => by
    simp [markupList, textContentList, charsOf_append, charsOf_markup node,
      charsOf_markupList nodes]
end

theorem charsOf_unmarked (syms : List Sym) : charsOf (unmarked syms) = plainText (charsOf syms) := by
  induction syms with
  | nil => rfl
  | cons s ss ih =>
    cases s with
    | opening k =>
      have e1 : unmarked (Sym.opening k :: ss) = Sym.opening k :: unmarked ss := rfl
      have e2 : ∀ l, charsOf (Sym.opening k :: l) = charsOf l := fun _ => rfl
      rw [e1, e2, e2, ih]
    | closing =>
      have e1 : unmarked (Sym.closing :: ss) = Sym.closing :: unmarked ss := rfl
      have e2 : ∀ l, charsOf (Sym.closing :: l) = charsOf l := fun _ => rfl
      rw [e1, e2, e2, ih]
    | char c =>
      have e2 : ∀ l, charsOf (Sym.char c :: l) = c :: charsOf l := fun _ => rfl
      by_cases h : isMarker c = true
      · have e1 : unmarked (Sym.char c :: ss) = unmarked ss := by
          simp [unmarked, List.filter_cons, Sym.isMarker, h]
        rw [e1, e2, ih]
        simp [plainText, List.filter_cons, h]
      · have e1 : unmarked (Sym.char c :: ss) = Sym.char c :: unmarked ss := by
          simp [unmarked, List.filter_cons, Sym.isMarker, h]
        rw [e1, e2, e2, ih]
        simp [plainText, List.filter_cons, h]

/-- A successful `extract` leaves the markup of the tree without its marker
characters: the nodes with children and every other character stay. -/
theorem extract_markup (kind : Kind) (cs : List Node) (range : Range)
    (h : (extract (.branch kind cs) range).thrown = none) :
    (extract (.branch kind cs) range).rootElem.markup = unmarked (Node.branch kind cs).markup := by
  unfold extract at h ⊢
  rcases hw : walk [] [] ⟨0, range⟩ cs with ⟨cs1, st1, _ | e⟩
  · have hm := walk_markup [] [] ⟨0, range⟩ cs cs1 st1 hw
    simp only [hw] at h ⊢
    split_ifs at h ⊢
    simp only [Node.markup, hm]
    simp [unmarked, Sym.isMarker, markupList]
  · simp [hw] at h

theorem extract_textContent (kind : Kind) (cs : List Node) (range : Range)
    (h : (extract (.branch kind cs) range).thrown = none) :
    (extract (.branch kind cs) range).rootElem.textContent
      = plainText (Node.branch kind cs).textContent := by
  rw [← charsOf_markup, extract_markup kind cs range h, charsOf_unmarked, charsOf_markup]

theorem markerChars_plainText (text : List Char) : markerChars (plainText text) = [] := by
  simp [markerChars, plainText, List.filter_filter]

/-- A text with the two marker characters `a` and `b`, taken apart. -/
theorem split_of_markerChars (text : List Char) (a b : Char)
    (h : markerChars text = [a, b]) :
    ∃ s1 s2 s3, text = s1 ++ a :: (s2 ++ b :: s3) ∧ plainText text = s1 ++ (s2 ++ s3) ∧
      markerChars s1 = [] ∧ markerChars s2 = [] ∧ markerChars s3 = [] := by
  obtain ⟨s1, r1, rfl, h1, ha, hr⟩ := List.filter_eq_cons_iff.1 h
  obtain ⟨s2, s3, rfl, h2, hb, h3⟩ := List.filter_eq_cons_iff.1 hr
  have e1 : plainText s1 = s1 := by
    simp only [plainText, List.filter_eq_self]; intro c hc; simpa using h1 c hc
  have e2 : plainText s2 = s2 := by
    simp only [plainText, List.filter_eq_self]; intro c hc; simpa using h2 c hc
  have e3 : plainText s3 = s3 := by
    simp only [plainText, List.filter_eq_self]
    intro c hc; simpa using (List.filter_eq_nil_iff.1 h3) c hc
  refine ⟨s1, s2, s3, rfl, ?_, ?_, ?_, h3⟩
  · have pa : plainText [a] = [] := by simp [plainText, ha]
    have pb : plainText [b] = [] := by simp [plainText, hb]
    have : s1 ++ a :: (s2 ++ b :: s3) = s1 ++ ([a] ++ (s2 ++ ([b] ++ s3))) := by simp
    rw [this]
    simp only [plainText_append, e1, e2, e3, pa, pb, List.nil_append]
  · simpa [markerChars, List.filter_eq_nil_iff] using h1
  · simpa [markerChars, List.filter_eq_nil_iff] using h2

/-- C4: after a successful `extract` no Text node under `root` holds a marker
character, and the text under `root` is the text before the call with exactly
its two marker characters deleted. -/
theorem extract_text_result (kind : Kind) (cs : List Node) (range : Range)
    (h : (extract (.branch kind cs) range).thrown = none) :
    markerChars (extract (.branch kind cs) range).rootElem.textContent = [] ∧
    ∃ s1 a s2 b s3,
      (Node.branch kind cs).textContent = s1 ++ a :: (s2 ++ b :: s3) ∧
      isMarker a = true ∧ isMarker b = true ∧
      markerChars s1 = [] ∧ markerChars s2 = [] ∧ markerChars s3 = [] ∧
      (extract (.branch kind cs) range).rootElem.textContent = s1 ++ (s2 ++ s3) := by
  rw [extract_textContent kind cs range h]
  refine ⟨markerChars_plainText _, ?_⟩
  obtain ⟨a, b, hab, ha, hb⟩ := (thrown_none_iff kind cs range).1 h
  obtain ⟨s1, s2, s3, e, ep, h1, h2, h3⟩ := split_of_markerChars _ a b hab
  refine ⟨s1, a, s2, b, s3, e, ?_, ?_, h1, h2, h3, ep⟩
  · simp only [isStartGlyph, Bool.or_eq_true, beq_iff_eq] at ha
    rcases ha with h | h <;> subst h <;> decide
  · simp only [isEndGlyph, Bool.or_eq_true, beq_iff_eq] at hb
    rcases hb with h | h <;> subst h <;> decide

/-- The witness of C4: `<p>ab[cd<b>e]</b>f</p>`. -/
theorem extract_text_result_witness :
    markerChars (extract (.branch (.element "p") [.text "ab[cd".toList,
      .branch (.element "b") [.text "e]".toList], .text "f".toList])
        ⟨[], 0, [], 0⟩).rootElem.textContent = [] ∧
    ∃ s1 a s2 b s3,
      (Node.branch (.element "p") [.text "ab[cd".toList,
        .branch (.element "b") [.text "e]".toList], .text "f".toList]).textContent
          = s1 ++ a :: (s2 ++ b :: s3) ∧
      isMarker a = true ∧ isMarker b = true ∧
      markerChars s1 = [] ∧ markerChars s2 = [] ∧ markerChars s3 = [] ∧
      (extract (.branch (.element "p") [.text "ab[cd".toList,
        .branch (.element "b") [.text "e]".toList], .text "f".toList])
          ⟨[], 0, [], 0⟩).rootElem.textContent = s1 ++ (s2 ++ s3) :=
  extract_text_result (.element "p") [.text "ab[cd".toList,
    .branch (.element "b") [.text "e]".toList], .text "f".toList] ⟨[], 0, [], 0⟩ (by decide)

/-! ## The kind of the boundaries `extract` sets -/

theorem Stretch.refl (here : List Nat) (before : List Node) (st : State) :
    Stretch here before st [] before st where
  found := by simp
  stable := fun _ _ _ _ h => h
  set := by intro idx g _ _ h; simp at h
  keep := fun _ _ _ => rfl

theorem Stretch.trans {here : List Nat} {b0 b1 b2 : List Node} {s0 s1 s2 : State}
    {ms1 ms2 : List Char} (h1 : Stretch here b0 s0 ms1 b1 s1)
    (h2 : Stretch here b1 s1 ms2 b2 s2) : Stretch here b0 s0 (ms1 ++ ms2) b2 s2 where
  found := by rw [h2.found, h1.found, List.length_append]; omega
  stable := fun kind rel offset b h => h2.stable kind rel offset b (h1.stable kind rel offset b h)
  set := by
    intro idx g hidx hm hg
    by_cases hlt : idx - s0.markersFound < ms1.length
    · rw [List.get?_eq_getElem?, List.getElem?_append_left hlt, ← List.get?_eq_getElem?] at hg
      obtain ⟨rel, hrel, hk⟩ := h1.set idx g hidx hm hg
      have hkeep := h2.keep idx hidx (Or.inl (by rw [h1.found]; omega))
      refine ⟨rel, by rw [hkeep]; exact hrel, fun kind => ?_⟩
      rw [hkeep]
      exact h2.stable kind rel _ _ (hk kind)
    · have hge : ms1.length ≤ idx - s0.markersFound := Nat.le_of_not_lt hlt
      rw [List.get?_eq_getElem?, List.getElem?_append_right hge, ← List.get?_eq_getElem?] at hg
      have e : idx - s0.markersFound - ms1.length = idx - s1.markersFound := by
        rw [h1.found]; omega
      rw [e] at hg
      exact h2.set idx g hidx (by rw [h1.found]; omega) hg
  keep := by
    intro idx hidx h
    rw [h2.keep idx hidx (by rw [h1.found]; rw [List.length_append] at h; omega),
      h1.keep idx hidx (by rw [List.length_append] at h; omega)]

theorem boundaryKind_append (kind : Kind) (before extra : List Node) (rel : List Nat)
    (offset : Nat) (b : Bool)
    (h : (Node.branch kind before).boundaryKind rel offset = some b) :
    (Node.branch kind (before ++ extra)).boundaryKind rel offset = some b := by
  unfold Node.boundaryKind at h ⊢
  cases rel with
  | nil =>
    simp only [Node.nodeAt] at h ⊢
    split_ifs at h with h1
    rw [if_pos (by rw [List.length_append]; omega)]
    exact h
  | cons i p =>
    simp only [Node.nodeAt] at h ⊢
    cases hg : before.get? i with
    | none => rw [hg] at h; simp at h
    | some c =>
      have hi : i < before.length := by
        rw [List.get?_eq_getElem?] at hg
        exact (List.getElem?_eq_some_iff.1 hg).1
      have : (before ++ extra).get? i = some c := by
        rw [List.get?_eq_getElem?, List.getElem?_append_left hi, ← List.get?_eq_getElem?, hg]
      rw [hg] at h
      rw [this]
      exact h

theorem boundaryKind_extend (kind : Kind) (pre : List Node) (data part : List Char)
    (rel : List Nat) (offset : Nat) (b : Bool)
    (h : (Node.branch kind (pre ++ [.text data])).boundaryKind rel offset = some b) :
    (Node.branch kind (pre ++ [.text (data ++ part)])).boundaryKind rel offset = some b := by
  unfold Node.boundaryKind at h ⊢
  cases rel with
  | nil =>
    simp only [Node.nodeAt, List.length_append, List.length_singleton] at h ⊢
    exact h
  | cons i p =>
    simp only [Node.nodeAt] at h ⊢
    by_cases hi : i < pre.length
    · rw [List.get?_eq_getElem?, List.getElem?_append_left hi] at h ⊢
      exact h
    · have hge : pre.length ≤ i := Nat.le_of_not_lt hi
      rw [List.get?_eq_getElem?, List.getElem?_append_right hge] at h ⊢
      cases hj : i - pre.length with
      | zero =>
        rw [hj] at h
        simp only [List.getElem?_cons_zero] at h ⊢
        cases p with
        | nil =>
          simp only [Node.nodeAt] at h ⊢
          split_ifs at h with h1
          rw [if_pos (by rw [List.length_append]; omega)]
          exact h
        | cons j q => simp [Node.nodeAt] at h
      | succ n =>
        rw [hj] at h
        simp at h

theorem chooseSetFn_ok (found : Nat) (marker : List Char) (fn : SetFn)
    (h : chooseSetFn found marker = .ok fn) :
    (found = 0 ∧ fn = .setStart) ∨ (found = 1 ∧ fn = .setEnd) := by
  unfold chooseSetFn at h
  split_ifs at h with h0 h1 h2 h3
  · simp only [Except.ok.injEq] at h; exact Or.inl ⟨h0, h.symm⟩
  · simp only [Except.ok.injEq] at h; exact Or.inr ⟨h2, h.symm⟩

theorem boundaryKind_last_text (kind : Kind) (before : List Node) (data : List Char)
    (hl : before.getLast? = some (.text data)) :
    (Node.branch kind before).boundaryKind [before.length - 1] data.length = some true := by
  obtain ⟨pre, rfl⟩ := List.getLast?_eq_some_iff.1 hl
  simp [Node.boundaryKind, Node.nodeAt, List.get?_eq_getElem?]

theorem boundaryKind_new_text (kind : Kind) (before : List Node) :
    (Node.branch kind (before ++ [createTextNode []])).boundaryKind [before.length] 0
      = some true := by
  simp [Node.boundaryKind, Node.nodeAt, List.get?_eq_getElem?, createTextNode]

theorem boundaryKind_index (kind : Kind) (before : List Node) :
    (Node.branch kind before).boundaryKind [] before.length = some false := by
  simp [Node.boundaryKind, Node.nodeAt]

/-- The stretch of one marker: what `setBoundaryPoint` does. -/
theorem setBoundaryPoint_stretch (here : List Nat) (before : List Node) (st : State)
    (c : Char) (hc : isMarker c = true) (out : List Node) (st1 : State) (force1 : Bool)
    (h : setBoundaryPoint here before st [c] = .ok (out, st1, force1)) :
    Stretch here before st [c] out st1 := by
  unfold setBoundaryPoint at h
  cases hch : chooseSetFn st.markersFound [c] with
  | error e => rw [hch] at h; simp at h
  | ok fn =>
    rw [hch] at h
    simp only at h
    have hfn := chooseSetFn_ok _ _ _ hch
    -- the boundary written and the one left alone
    have key : ∀ (container : List Nat) (offset : Nat) (idx : Nat), idx ≤ 1 →
        ((fn.call st.range container offset).boundary idx =
          if idx = st.markersFound then (container, offset) else st.range.boundary idx) := by
      intro container offset idx hidx
      rcases hfn with ⟨h0, rfl⟩ | ⟨h1, rfl⟩
      · rw [h0]
        by_cases hi : idx = 0
        · simp [hi, SetFn.call, Range.setStart, Range.boundary]
        · have : (0 : Nat) ≠ idx := fun e => hi e.symm
          simp [hi, SetFn.call, Range.setStart, Range.boundary]
      · rw [h1]
        by_cases hi : idx = 0
        · simp [hi, SetFn.call, Range.setEnd, Range.boundary]
        · have : idx = 1 := by omega
          simp [this, SetFn.call, Range.setEnd, Range.boundary]
    have hb : isBracket c = true ↔ ([c] = ['['] ∨ [c] = [']']) := by
      simp [isBracket]
    -- the three ways out of `setBoundaryPoint`
    have build : ∀ (container_rel : List Nat) (offset : Nat),
        out = out → (∀ kind rel off b, (Node.branch kind before).boundaryKind rel off = some b →
          (Node.branch kind out).boundaryKind rel off = some b) →
        (∀ kind, (Node.branch kind out).boundaryKind container_rel offset
          = some (isBracket c)) →
        st1 = ⟨st.markersFound + 1, fn.call st.range (here ++ container_rel) offset⟩ →
        Stretch here before st [c] out st1 := by
      intro rel offset _ hstable hkind hst
      subst hst
      refine ⟨by simp, hstable, ?_, ?_⟩
      · intro idx g hidx hm hg
        have hi : idx = st.markersFound := by
          by_contra hne
          have : idx - st.markersFound ≥ 1 := by omega
          rw [List.get?_eq_getElem?, List.getElem?_eq_none (by simpa using this)] at hg
          simp at hg
        have hgc : g = c := by
          rw [hi] at hg; simp at hg; exact hg.symm
        subst hgc
        have hk := key (here ++ rel) offset idx hidx
        rw [if_pos hi] at hk
        refine ⟨rel, ?_, fun kind => ?_⟩
        · show ((fn.call st.range (here ++ rel) offset).boundary idx).1 = here ++ rel
          rw [hk]
        · show (Node.branch kind out).boundaryKind rel
            ((fn.call st.range (here ++ rel) offset).boundary idx).2 = some (isBracket g)
          rw [hk]
          exact hkind kind
      · intro idx hidx hcase
        have hi : idx ≠ st.markersFound := by
          simp only [List.length_singleton] at hcase; omega
        have hk := key (here ++ rel) offset idx hidx
        rw [if_neg hi] at hk
        exact hk
    split_ifs at h with hbr
    · cases hl : before.getLast? with
      | none =>
        rw [hl] at h
        simp only [Except.ok.injEq, Prod.mk.injEq] at h
        obtain ⟨h1, h2, -⟩ := h
        subst h1
        exact build [before.length] 0 rfl
          (fun kind rel off b hk => boundaryKind_append kind before _ rel off b hk)
          (fun kind => by rw [hb.2 hbr]; exact boundaryKind_new_text kind before) h2.symm
      | some n =>
        rw [hl] at h
        cases n with
        | text d =>
          simp only [Except.ok.injEq, Prod.mk.injEq] at h
          obtain ⟨h1, h2, -⟩ := h
          subst h1
          exact build [before.length - 1] d.length rfl (fun _ _ _ _ hk => hk)
            (fun kind => by rw [hb.2 hbr]; exact boundaryKind_last_text kind before d hl)
            h2.symm
        | branch k cs =>
          simp only [Except.ok.injEq, Prod.mk.injEq] at h
          obtain ⟨h1, h2, -⟩ := h
          subst h1
          exact build [before.length] 0 rfl
            (fun kind rel off b hk => boundaryKind_append kind before _ rel off b hk)
            (fun kind => by rw [hb.2 hbr]; exact boundaryKind_new_text kind before) h2.symm
    · simp only [Except.ok.injEq, Prod.mk.injEq] at h
      obtain ⟨h1, h2, -⟩ := h
      subst h1
      have hnb : isBracket c = false := by
        cases hx : isBracket c with
        | false => rfl
        | true => exact absurd (hb.1 hx) hbr
      refine build [] before.length rfl (fun _ _ _ _ hk => hk)
        (fun kind => by rw [hnb]; exact boundaryKind_index kind before) ?_
      rw [List.append_nil]
      exact h2.symm

theorem Stretch.append_node (here : List Nat) (before : List Node) (st : State)
    (extra : List Node) : Stretch here before st [] (before ++ extra) st where
  found := by simp
  stable := fun kind rel offset b h => boundaryKind_append kind before extra rel offset b h
  set := by intro idx g _ _ h; simp at h
  keep := fun _ _ _ => rfl

theorem extractPart_stretch (here : List Nat) (before : List Node) (st : State) (force : Bool)
    (part : List Char) (hp : IsPart part) (out : List Node) (st1 : State) (force1 : Bool)
    (h : extractPart here before st force part = .ok (out, st1, force1)) :
    Stretch here before st (markerChars part) out st1 := by
  by_cases hm : part ∈ markers
  · obtain ⟨c, rfl, hc⟩ := (mem_markers_iff part).1 hm
    have hx : extractPart here before st force [c] = setBoundaryPoint here before st [c] := by
      simp [extractPart, hm]
    rw [hx] at h
    have : markerChars [c] = [c] := by simp [markerChars, hc]
    rw [this]
    exact setBoundaryPoint_stretch here before st c hc out st1 force1 h
  · rw [markerChars_of_not_mem hp hm]
    unfold extractPart at h
    simp only [hm, if_false] at h
    cases force with
    | true =>
      simp only [Except.ok.injEq, Prod.mk.injEq] at h
      obtain ⟨h1, h2, -⟩ := h
      subst h1 h2
      exact Stretch.append_node here before st _
    | false =>
      cases hl : before.getLast? with
      | none =>
        rw [hl] at h
        simp only [Except.ok.injEq, Prod.mk.injEq] at h
        obtain ⟨h1, h2, -⟩ := h
        subst h1 h2
        exact Stretch.append_node here before st _
      | some n =>
        rw [hl] at h
        cases n with
        | text d =>
          simp only [Except.ok.injEq, Prod.mk.injEq] at h
          obtain ⟨h1, h2, -⟩ := h
          subst h1 h2
          obtain ⟨pre, rfl⟩ := List.getLast?_eq_some_iff.1 hl
          rw [List.dropLast_concat]
          exact ⟨by simp, fun kind rel offset b hk =>
            boundaryKind_extend kind pre d part rel offset b hk,
            by intro idx g _ _ h; simp at h, fun _ _ _ => rfl⟩
        | branch k cs =>
          simp only [Except.ok.injEq, Prod.mk.injEq] at h
          obtain ⟨h1, h2, -⟩ := h
          subst h1 h2
          exact Stretch.append_node here before st _

theorem extractParts_stretch (here : List Nat) (parts : List (List Char))
    (hp : ∀ part ∈ parts, IsPart part) (before : List Node) (st : State) (force first : Bool)
    (out : List Node) (st1 : State)
    (h : extractParts here before st force first parts = (out, st1, none)) :
    Stretch here before st (markerChars parts.flatten) out st1 := by
  induction parts generalizing before st force first with
  | nil =>
    simp only [extractParts, Prod.mk.injEq] at h
    obtain ⟨h1, h2, -⟩ := h
    subst h1 h2
    exact Stretch.refl here before st
  | cons part parts ih =>
    unfold extractParts at h
    cases hx : extractPart here before st (force || first) part with
    | error e => rw [hx] at h; simp at h
    | ok r =>
      obtain ⟨b1, s1, f1⟩ := r
      rw [hx] at h
      simp only at h
      rw [List.flatten_cons, markerChars_append]
      exact (extractPart_stretch here before st _ part (hp part (by simp)) b1 s1 f1 hx).trans
        (ih (fun p hp1 => hp p (by simp [hp1])) b1 s1 f1 false h)

theorem extractMarkers_stretch (here : List Nat) (before : List Node) (st : State)
    (text : List Char) (out : List Node) (st1 : State)
    (h : extractMarkers here before st text = (out, st1, none)) :
    Stretch here before st (markerChars text) out st1 := by
  unfold extractMarkers at h
  simp only at h
  split_ifs at h with hf
  · simp only [Prod.mk.injEq] at h
    obtain ⟨h1, h2, -⟩ := h
    subst h1 h2
    rw [fastPath_markerChars text hf]
    exact Stretch.append_node here before st _
  · rcases hx : extractParts here before st false true (splitIncl text isMarker)
      with ⟨b1, s1, _ | e⟩
    · rw [hx] at h
      simp only [Prod.mk.injEq] at h
      obtain ⟨h1, h2, -⟩ := h
      subst h1 h2
      have := extractParts_stretch here _ (splitIncl_isPart text) before st false true b1 s1 hx
      rwa [splitIncl_flatten] at this
    · rw [hx] at h
      simp at h

theorem boundaryKind_child (kind kind1 : Kind) (before cs : List Node) (rel : List Nat)
    (offset : Nat) :
    (Node.branch kind (before ++ [.branch kind1 cs])).boundaryKind (before.length :: rel) offset
      = (Node.branch kind1 cs).boundaryKind rel offset := by
  simp [Node.boundaryKind, Node.nodeAt, List.get?_eq_getElem?]

/-- The stretch of the children of a node, seen from its parent. -/
theorem Stretch.lift {here : List Nat} {before : List Node} {st : State} {ms : List Char}
    {cs1 : List Node} {st1 : State} (kind1 : Kind)
    (h : Stretch (here ++ [before.length]) [] st ms cs1 st1) :
    Stretch here before st ms (before ++ [.branch kind1 cs1]) st1 where
  found := h.found
  stable := fun kind rel offset b hk => boundaryKind_append kind before _ rel offset b hk
  set := by
    intro idx g hidx hm hg
    obtain ⟨rel, hrel, hk⟩ := h.set idx g hidx hm hg
    refine ⟨before.length :: rel, by rw [hrel]; simp, fun kind => ?_⟩
    rw [boundaryKind_child]
    exact hk kind1
  keep := h.keep

mutual
theorem walkRec_stretch (here : List Nat) (before : List Node) (st : State) :
    ∀ (node : Node) (out : List Node) (st1 : State),
      walkRec here before st node = (out, st1, none) →
      Stretch here before st (markerChars node.textContent) out st1
  | .text text, out, st1, h => by
    simp only [walkRec] at h
    exact extractMarkers_stretch here before st text out st1 h
  | .branch kind cs, out, st1, h => by
    simp only [walkRec] at h
    rcases hw : walk (here ++ [before.length]) [] st cs with ⟨cs1, s1, thr⟩
    rw [hw] at h
    simp only [Prod.mk.injEq] at h
    obtain ⟨h1, h2, h3⟩ := h
    subst h1 h2 h3
    exact (walk_stretch (here ++ [before.length]) [] st cs cs1 s1 hw).lift kind
theorem walk_stretch (here : List Nat) (before : List Node) (st : State) :
    ∀ (nodes : List Node) (out : List Node) (st1 : State),
      walk here before st nodes = (out, st1, none) →
      Stretch here before st (markerChars (textContentList nodes)) out st1
  | [], out, st1, h => by
    simp only [walk, Prod.mk.injEq] at h
    obtain ⟨h1, h2, -⟩ := h
    subst h1 h2
    exact Stretch.refl here before st
  | node :: nodes, out, st1, h => by
    simp only [walk] at h
    rcases hw : walkRec here before st node with ⟨b1, s1, _ | e⟩
    · rw [hw] at h
      simp only at h
      rw [textContentList, markerChars_append]
      exact (walkRec_stretch here before st node b1 s1 hw).trans
        (walk_stretch here b1 s1 nodes out st1 h)
    · rw [hw] at h
      simp at h
end

/-- The kinds of the two boundaries a successful `extract` leaves, read off the
two glyphs. -/
theorem extract_kinds (kind : Kind) (cs : List Node) (range : Range)
    (h : (extract (.branch kind cs) range).thrown = none) :
    ∃ a b, markerChars (Node.branch kind cs).textContent = [a, b] ∧
      (extract (.branch kind cs) range).rootElem.boundaryKind
        (extract (.branch kind cs) range).range.startContainer
        (extract (.branch kind cs) range).range.startOffset = some (a == '[') ∧
      (extract (.branch kind cs) range).rootElem.boundaryKind
        (extract (.branch kind cs) range).range.endContainer
        (extract (.branch kind cs) range).range.endOffset = some (b == ']') := by
  obtain ⟨a, b, hab, ha, hb⟩ := (thrown_none_iff kind cs range).1 h
  refine ⟨a, b, hab, ?_⟩
  rw [Node.textContent] at hab
  have ea : isBracket a = (a == '[') := by
    simp only [isStartGlyph, Bool.or_eq_true, beq_iff_eq] at ha
    rcases ha with h | h <;> subst h <;> decide
  have eb : isBracket b = (b == ']') := by
    simp only [isEndGlyph, Bool.or_eq_true, beq_iff_eq] at hb
    rcases hb with h | h <;> subst h <;> decide
  unfold extract at h ⊢
  rcases hw : walk [] [] ⟨0, range⟩ cs with ⟨cs1, st1, _ | e⟩
  · have hs := walk_stretch [] [] ⟨0, range⟩ cs cs1 st1 hw
    rw [hab] at hs
    simp only [hw] at h ⊢
    split_ifs at h ⊢
    obtain ⟨rel0, hrel0, hk0⟩ := hs.set 0 a (by omega) (by simp) (by simp)
    obtain ⟨rel1, hrel1, hk1⟩ := hs.set 1 b (by omega) (by simp) (by simp)
    simp only [Range.boundary, if_true, List.nil_append] at hrel0 hk0
    simp only [Range.boundary, one_ne_zero, if_false, List.nil_append] at hrel1 hk1
    refine ⟨?_, ?_⟩
    · rw [hrel0, ← ea]; exact hk0 kind
    · rw [hrel1, ← eb]; exact hk1 kind
  · simp [hw] at h

/-! ## Places in a tree, and how `insert` moves them -/

theorem get?_split {α : Type} (cs : List α) (i : Nat) (c : α) (h : cs.get? i = some c) :
    ∃ pre post, cs = pre ++ c :: post ∧ pre.length = i := by
  rw [List.get?_eq_getElem?] at h
  obtain ⟨hi, hc⟩ := List.getElem?_eq_some_iff.1 h
  refine ⟨cs.take i, cs.drop (i + 1), ?_, by simp; omega⟩
  rw [← hc, ← List.drop_eq_getElem_cons hi, List.take_append_drop]

theorem get?_mid {α : Type} (pre post : List α) (c : α) :
    (pre ++ c :: post).get? pre.length = some c := by
  rw [List.get?_eq_getElem?, List.getElem?_append_right (Nat.le_refl _)]
  simp

theorem get?_mid_gt {α : Type} (pre post : List α) (c : α) (j : Nat) (h : pre.length < j) :
    (pre ++ c :: post).get? j = post.get? (j - pre.length - 1) := by
  obtain ⟨m, rfl⟩ : ∃ m, j = pre.length + 1 + m := ⟨j - pre.length - 1, by omega⟩
  have e1 : pre.length + 1 + m - pre.length = m + 1 := by omega
  have e2 : pre.length + 1 + m - pre.length - 1 = m := by omega
  rw [List.get?_eq_getElem?, List.getElem?_append_right (by omega), e1,
    List.getElem?_cons_succ, List.get?_eq_getElem?]
  simp

theorem get?_mid_lt {α : Type} (pre post : List α) (c : α) (j : Nat) (h : j < pre.length) :
    (pre ++ c :: post).get? j = pre.get? j := by
  rw [List.get?_eq_getElem?, List.getElem?_append_left h, List.get?_eq_getElem?]

theorem set_mid {α : Type} (pre post : List α) (c c1 : α) :
    (pre ++ c :: post).set pre.length c1 = pre ++ c1 :: post := by
  simp

theorem take_mid_le {α : Type} (pre post : List α) (c : α) (j : Nat) (h : j ≤ pre.length) :
    (pre ++ c :: post).take j = pre.take j := by
  rw [List.take_append_of_le_length h]

theorem take_mid_gt {α : Type} (pre post : List α) (c : α) (j : Nat) (h : pre.length < j) :
    (pre ++ c :: post).take j = pre ++ c :: post.take (j - pre.length - 1) := by
  obtain ⟨m, rfl⟩ : ∃ m, j = pre.length + 1 + m := ⟨j - pre.length - 1, by omega⟩
  rw [List.take_append_eq_append_take, List.take_of_length_le (by omega)]
  have e1 : pre.length + 1 + m - pre.length = m + 1 := by omega
  have e2 : pre.length + 1 + m - pre.length - 1 = m := by omega
  rw [e1, List.take_succ_cons]
  simp

theorem markupList_cons (c : Node) (cs : List Node) :
    markupList (c :: cs) = c.markup ++ markupList cs := by
  simp [markupList]

theorem markupList_nil : markupList [] = [] := by simp [markupList]

theorem place_nil (kind : Kind) (cs : List Node) (offset : Nat) :
    (Node.branch kind cs).place [] offset =
      if offset ≤ cs.length then some ⟨1 + (markupList (cs.take offset)).length, true⟩
      else none := by
  simp [Node.place]

theorem place_mid (kind : Kind) (pre post : List Node) (c : Node) (p : List Nat) (offset : Nat) :
    (Node.branch kind (pre ++ c :: post)).place (pre.length :: p) offset =
      match c.place p offset with
      | some pl => some ⟨1 + (markupList pre).length + pl.pos, pl.edge⟩
      | none => none := by
  rw [Node.place, get?_mid, take_mid_le _ _ _ _ (Nat.le_refl _), List.take_length]

/-- The places outside the child that is replaced: the symbols in front of a
place behind that child change by the growth `d` of its markup. -/
theorem place_replace_other (kind : Kind) (pre post : List Node) (c c1 : Node) (d : Nat)
    (hd : c1.markup.length = c.markup.length + d) (j : Nat) (p : List Nat) (offset : Nat)
    (hj : j ≠ pre.length) :
    (Node.branch kind (pre ++ c1 :: post)).place (j :: p) offset =
      match (Node.branch kind (pre ++ c :: post)).place (j :: p) offset with
      | some pl => some ⟨pl.pos + (if pre.length < j then d else 0), pl.edge⟩
      | none => none := by
  simp only [Node.place]
  by_cases hlt : j < pre.length
  · have h1 : (pre ++ c1 :: post).get? j = pre.get? j := by
      simp [List.get?_eq_getElem?, List.getElem?_append_left hlt]
    have h2 : (pre ++ c :: post).get? j = pre.get? j := by
      simp [List.get?_eq_getElem?, List.getElem?_append_left hlt]
    rw [h1, h2, take_mid_le _ _ _ _ (Nat.le_of_lt hlt), take_mid_le _ _ _ _ (Nat.le_of_lt hlt)]
    have : ¬ pre.length < j := by omega
    simp only [this, if_false, Nat.add_zero]
    cases pre.get? j with
    | none => rfl
    | some x => cases hx : x.place p offset <;> simp [hx]
  · have hgt : pre.length < j := by omega
    have h1 := get?_mid_gt pre post c1 j hgt
    have h2 := get?_mid_gt pre post c j hgt
    rw [h1, h2, take_mid_gt _ _ _ _ hgt, take_mid_gt _ _ _ _ hgt]
    simp only [hgt, if_true, markupList_append, markupList_cons, List.length_append, hd]
    cases post.get? (j - pre.length - 1) with
    | none => rfl
    | some x =>
      cases hx : x.place p offset with
      | none => simp [hx]
      | some pl => simp only [hx, Option.some.injEq, Place.mk.injEq, and_true]; omega

theorem place_replace_nil (kind : Kind) (pre post : List Node) (c c1 : Node) (d : Nat)
    (hd : c1.markup.length = c.markup.length + d) (offset : Nat) :
    (Node.branch kind (pre ++ c1 :: post)).place [] offset =
      match (Node.branch kind (pre ++ c :: post)).place [] offset with
      | some pl => some ⟨pl.pos + (if pre.length < offset then d else 0), pl.edge⟩
      | none => none := by
  simp only [place_nil, List.length_append, List.length_cons]
  by_cases ho : offset ≤ pre.length + (post.length + 1)
  · simp only [ho, if_true]
    by_cases hlt : pre.length < offset
    · rw [take_mid_gt _ _ _ _ hlt, take_mid_gt _ _ _ _ hlt]
      simp only [hlt, if_true, markupList_append, markupList_cons, List.length_append, hd,
        Option.some.injEq, Place.mk.injEq, and_true]
      omega
    · rw [take_mid_le _ _ _ _ (by omega), take_mid_le _ _ _ _ (by omega)]
      simp [hlt]
  · simp [ho]

theorem markup_replace (kind : Kind) (pre post : List Node) (c c1 : Node)
    (h : c1.markup = c.markup) :
    (Node.branch kind (pre ++ c1 :: post)).markup = (Node.branch kind (pre ++ c :: post)).markup := by
  simp [Node.markup, markupList_append, markupList_cons, h]

theorem shiftFrom_cons_same (i : Nat) (parent : List Nat) (index : Nat) (p : List Nat)
    (offset : Nat) :
    shiftFrom (i :: parent) index (i :: p) offset
      = (i :: (shiftFrom parent index p offset).1, (shiftFrom parent index p offset).2) := by
  simp [shiftFrom]

theorem shiftFrom_cons_ne (i j : Nat) (parent : List Nat) (index : Nat) (p : List Nat)
    (offset : Nat) (h : i ≠ j) :
    shiftFrom (i :: parent) index (j :: p) offset = (j :: p, offset) := by
  simp [shiftFrom, h]

theorem shiftFrom_cons_nil (i : Nat) (parent : List Nat) (index : Nat) (offset : Nat) :
    shiftFrom (i :: parent) index [] offset = ([], offset) := by
  simp [shiftFrom]

theorem afterSplit_cons_same (i : Nat) (parent : List Nat) (index cut : Nat) (p : List Nat)
    (offset : Nat) :
    afterSplit (i :: parent) index cut (i :: p) offset
      = (i :: (afterSplit parent index cut p offset).1,
          (afterSplit parent index cut p offset).2) := by
  unfold afterSplit
  by_cases h : p = parent ++ [index]
  · subst h
    simp only [List.cons_append, if_true]
    split_ifs <;> rfl
  · have : ¬ (i :: p = i :: parent ++ [index]) := by simpa using h
    simp only [this, h, if_false, shiftFrom_cons_same]

theorem afterSplit_cons_ne (i j : Nat) (parent : List Nat) (index cut : Nat) (p : List Nat)
    (offset : Nat) (h : i ≠ j) :
    afterSplit (i :: parent) index cut (j :: p) offset = (j :: p, offset) := by
  unfold afterSplit
  have : ¬ (j :: p = i :: parent ++ [index]) := by
    intro e; simp at e; exact h e.1.symm
  simp only [this, if_false, shiftFrom_cons_ne i j parent _ p offset h]

theorem afterSplit_cons_nil (i : Nat) (parent : List Nat) (index cut : Nat) (offset : Nat) :
    afterSplit (i :: parent) index cut [] offset = ([], offset) := by
  unfold afterSplit
  simp [shiftFrom]

theorem place_text_cons (data : List Char) (j : Nat) (p : List Nat) (offset : Nat) :
    (Node.text data).place (j :: p) offset = none := by
  simp [Node.place]

/-- The places of a tree whose child `text data` has been split at `cut`. -/
theorem split_base (kind : Kind) (pre post : List Node) (data : List Char) (cut : Nat)
    (hcut : cut ≤ data.length) (c : List Nat) (o : Nat) (pl : Place)
    (h : (Node.branch kind (pre ++ .text data :: post)).place c o = some pl) :
    (Node.branch kind (pre ++ .text (data.take cut) :: .text (data.drop cut) :: post)).place
        (afterSplit [] pre.length cut c o).1 (afterSplit [] pre.length cut c o).2
      = some ⟨pl.pos, pl.edge || (c == [pre.length] && o == cut)⟩ := by
  have e1 : pre ++ Node.text (data.take cut) :: .text (data.drop cut) :: post
      = (pre ++ [.text (data.take cut)]) ++ .text (data.drop cut) :: post := by simp
  have hl1 : (data.take cut).length = cut := by simp [hcut]
  have hl2 : (data.drop cut).length = data.length - cut := by simp
  cases c with
  | nil =>
    have ha : afterSplit [] pre.length cut [] o
        = ([], if pre.length + 1 ≤ o then o + 1 else o) := by
      simp [afterSplit, shiftFrom]
    rw [ha]
    simp only [place_nil, List.length_append, List.length_cons] at h ⊢
    split_ifs at h with ho
    simp only [Option.some.injEq] at h
    subst h
    by_cases hlt : pre.length + 1 ≤ o
    · simp only [hlt, if_true]
      rw [if_pos (by omega), e1, take_mid_gt _ _ _ _ (by rw [List.length_append, List.length_singleton]; omega),
        take_mid_gt _ _ _ _ (by omega)]
      simp only [markupList_append, markupList_cons, markupList_nil, Node.markup,
        List.length_append, List.length_map, hl1, hl2, List.length_singleton,
        List.length_nil, Option.some.injEq, Place.mk.injEq]
      refine ⟨?_, by simp⟩
      have e3 : o + 1 - (pre.length + 1) - 1 = o - pre.length - 1 := by omega
      rw [e3]
      omega
    · simp only [hlt, if_false]
      rw [if_pos (by omega), take_mid_le _ _ _ _ (by omega), take_mid_le _ _ _ _ (by omega)]
      simp
  | cons j p =>
    by_cases hjk : j = pre.length
    · subst hjk
      rw [place_mid] at h
      cases p with
      | cons q r => simp [place_text_cons] at h
      | nil =>
        simp only [Node.place] at h
        split_ifs at h with ho
        simp only [Option.some.injEq] at h
        subst h
        by_cases hoc : o ≤ cut
        · have ha : afterSplit [] pre.length cut [pre.length] o = ([pre.length], o) := by
            simp [afterSplit, hoc]
          rw [ha, place_mid]
          simp only [Node.place, hl1, hoc, if_true, Option.some.injEq, Place.mk.injEq,
            true_and]
          rw [Bool.eq_iff_iff]
          simp only [Bool.or_eq_true, beq_iff_eq, Bool.and_eq_true, beq_self_eq_true, true_and]
          omega
        · have ha : afterSplit [] pre.length cut [pre.length] o
              = ([pre.length + 1], o - cut) := by
            simp [afterSplit, hoc]
          rw [ha, e1]
          have hlen : (pre ++ [Node.text (data.take cut)]).length = pre.length + 1 := by simp
          rw [← hlen, place_mid]
          simp only [Node.place, hl2]
          rw [if_pos (by omega)]
          simp only [markupList_append, markupList_cons, markupList_nil, Node.markup,
            List.length_append, List.length_map, hl1, List.length_nil, Option.some.injEq,
            Place.mk.injEq]
          refine ⟨by omega, ?_⟩
          rw [Bool.eq_iff_iff]
          simp only [Bool.or_eq_true, beq_iff_eq, Bool.and_eq_true, List.cons.injEq, and_true,
            true_and]
          omega
    · have hne : ¬ (j :: p = [pre.length]) := by
        intro e; simp at e; exact hjk e.1
      have hb : ((j :: p) == [pre.length]) = false := by
        simpa using fun e : j = pre.length => absurd e hjk
      have ha : afterSplit [] pre.length cut (j :: p) o
          = ((if pre.length + 1 ≤ j then j + 1 else j) :: p, o) := by
        simp [afterSplit, hne, shiftFrom]
      rw [ha, hb]
      simp only [Bool.false_and, Bool.or_false]
      by_cases hlt : j < pre.length
      · have : ¬ pre.length + 1 ≤ j := by omega
        simp only [this, if_false]
        simp only [Node.place] at h ⊢
        rw [get?_mid_lt _ _ _ _ hlt, take_mid_le _ _ _ _ (by omega)] at h
        rw [get?_mid_lt _ _ _ _ hlt, take_mid_le _ _ _ _ (by omega)]
        exact h
      · have hgt : pre.length + 1 ≤ j := by omega
        simp only [hgt, if_true]
        simp only [Node.place] at h ⊢
        rw [get?_mid_gt _ _ _ _ (by omega), take_mid_gt _ _ _ _ (by omega)] at h
        rw [e1, get?_mid_gt _ _ _ _ (by rw [List.length_append, List.length_singleton]; omega), take_mid_gt _ _ _ _ (by rw [List.length_append, List.length_singleton]; omega)]
        have e3 : j + 1 - (pre ++ [Node.text (data.take cut)]).length - 1
            = j - pre.length - 1 := by
          rw [List.length_append, List.length_singleton]; omega
        rw [e3]
        cases hg : post.get? (j - pre.length - 1) with
        | none => rw [hg] at h; simp at h
        | some x =>
          rw [hg] at h
          simp only at h ⊢
          cases hx : x.place p o with
          | none => rw [hx] at h; simp at h
          | some pl1 =>
            rw [hx] at h
            simp only [Option.some.injEq] at h ⊢
            subst h
            simp only [markupList_append, markupList_cons, markupList_nil, Node.markup,
              List.length_append, List.length_map, hl1, hl2, List.length_nil,
              Place.mk.injEq, and_true]
            omega

theorem nodeAt_cons (kind : Kind) (cs : List Node) (i : Nat) (p : List Nat) (n : Node)
    (h : (Node.branch kind cs).nodeAt (i :: p) = some n) :
    ∃ pre post c, cs = pre ++ c :: post ∧ pre.length = i ∧ c.nodeAt p = some n := by
  simp only [Node.nodeAt] at h
  cases hg : cs.get? i with
  | none => rw [hg] at h; simp at h
  | some c =>
    rw [hg] at h
    obtain ⟨pre, post, e, hl⟩ := get?_split cs i c hg
    exact ⟨pre, post, c, e, hl, h⟩

theorem nodeAt_text_cons (data : List Char) (i : Nat) (p : List Nat) :
    (Node.text data).nodeAt (i :: p) = none := by
  simp [Node.nodeAt]

theorem splitChild_mid (pre post : List Node) (data : List Char) (cut : Nat) :
    splitChild pre.length cut data (pre ++ .text data :: post)
      = pre ++ .text (data.take cut) :: .text (data.drop cut) :: post := by
  unfold splitChild
  have h1 : (pre ++ Node.text data :: post).take pre.length = pre := by simp
  have h2 : (pre ++ Node.text data :: post).drop (pre.length + 1) = post := by
    rw [List.drop_append_eq_append_drop, List.drop_of_length_le (Nat.le_succ _)]
    simp
  rw [h1, h2]
  simp

theorem updateAt_nil (f : List Node → List Node) (kind : Kind) (cs : List Node) :
    Node.updateAt f [] (.branch kind cs) = some (.branch kind (f cs)) := by
  simp [Node.updateAt]

theorem updateAt_mid (f : List Node → List Node) (kind : Kind) (pre post : List Node)
    (c : Node) (p : List Nat) :
    Node.updateAt f (pre.length :: p) (.branch kind (pre ++ c :: post)) =
      match Node.updateAt f p c with
      | some c1 => some (.branch kind (pre ++ c1 :: post))
      | none => none := by
  rw [Node.updateAt, get?_mid]
  simp only [set_mid]

/-- Splitting the Text node at `parent ++ [index]` keeps the markup and the
place of every boundary, addressed as `afterSplit` says; the boundary at the
cut becomes one at an edge. -/
theorem split_place (parent : List Nat) :
    ∀ (top : Node) (index cut : Nat) (data : List Char),
      top.nodeAt (parent ++ [index]) = some (.text data) → cut ≤ data.length →
      ∃ top1, top.updateAt (splitChild index cut data) parent = some top1 ∧
        top1.markup = top.markup ∧
        ∀ c o pl, top.place c o = some pl →
          top1.place (afterSplit parent index cut c o).1 (afterSplit parent index cut c o).2
            = some ⟨pl.pos, pl.edge || (c == parent ++ [index] && o == cut)⟩ := by
  induction parent with
  | nil =>
    intro top index cut data h hcut
    cases top with
    | text d => simp [Node.nodeAt] at h
    | branch kind cs =>
      obtain ⟨pre, post, c, rfl, rfl, hc⟩ := nodeAt_cons kind cs index [] _ h
      simp only [Node.nodeAt, Option.some.injEq] at hc
      subst hc
      refine ⟨_, updateAt_nil _ kind _, ?_, ?_⟩
      · rw [splitChild_mid]
        simp only [Node.markup, markupList_append, markupList_cons]
        rw [← List.append_assoc (List.map Sym.char (List.take cut data)), ← List.map_append,
          List.take_append_drop]
      · intro c o pl hpl
        rw [splitChild_mid]
        exact split_base kind pre post data cut hcut c o pl hpl
  | cons i parent ih =>
    intro top index cut data h hcut
    cases top with
    | text d => simp [Node.nodeAt] at h
    | branch kind cs =>
      obtain ⟨pre, post, ci, rfl, rfl, hc⟩ := nodeAt_cons kind cs i (parent ++ [index]) _ h
      obtain ⟨ci1, hu, hm, hp⟩ := ih ci index cut data hc hcut
      refine ⟨.branch kind (pre ++ ci1 :: post), ?_, markup_replace kind pre post ci ci1 hm, ?_⟩
      · rw [updateAt_mid, hu]
      · intro c o pl hpl
        have hd : ci1.markup.length = ci.markup.length + 0 := by rw [hm]; rfl
        cases c with
        | nil =>
          rw [afterSplit_cons_nil, place_replace_nil kind pre post ci ci1 0 hd, hpl]
          simp
        | cons j p =>
          by_cases hj : j = pre.length
          · subst hj
            rw [afterSplit_cons_same]
            rw [place_mid] at hpl ⊢
            cases hx : ci.place p o with
            | none => rw [hx] at hpl; simp at hpl
            | some pl1 =>
              rw [hx] at hpl
              simp only [Option.some.injEq] at hpl
              subst hpl
              rw [hp p o pl1 hx]
              simp
          · rw [afterSplit_cons_ne _ _ _ _ _ _ _ (fun e => hj e.symm),
              place_replace_other kind pre post ci ci1 0 hd j p o hj, hpl]
            simp [hj]

theorem notAfter_nil_nil (o1 o2 : Nat) : notAfter [] o1 [] o2 = true ↔ o1 ≤ o2 := by
  simp [notAfter]

theorem notAfter_nil_cons (o1 k2 : Nat) (p2 : List Nat) (o2 : Nat) :
    notAfter [] o1 (k2 :: p2) o2 = true ↔ o1 ≤ k2 := by
  simp [notAfter]

theorem notAfter_cons_nil (k1 : Nat) (p1 : List Nat) (o1 o2 : Nat) :
    notAfter (k1 :: p1) o1 [] o2 = true ↔ k1 < o2 := by
  simp [notAfter]

theorem notAfter_cons_cons (k1 : Nat) (p1 : List Nat) (o1 k2 : Nat) (p2 : List Nat) (o2 : Nat) :
    notAfter (k1 :: p1) o1 (k2 :: p2) o2 = true ↔
      k1 < k2 ∨ (k1 = k2 ∧ notAfter p1 o1 p2 o2 = true) := by
  simp [notAfter]

theorem place_below_text (kind : Kind) (pre post : List Node) (data : List Char) (p : List Nat)
    (o : Nat) (h : ((Node.branch kind (pre ++ .text data :: post)).place
      (pre.length :: p) o).isSome = true) : p = [] := by
  rw [place_mid] at h
  cases p with
  | nil => rfl
  | cons q r => simp [place_text_cons] at h

theorem afterSplit_nil_nil (index cut o : Nat) :
    afterSplit [] index cut [] o = ([], if index + 1 ≤ o then o + 1 else o) := by
  simp [afterSplit, shiftFrom]

theorem afterSplit_nil_self (index cut o : Nat) :
    afterSplit [] index cut [index] o
      = if o ≤ cut then ([index], o) else ([index + 1], o - cut) := by
  simp [afterSplit]

theorem afterSplit_nil_other (index cut j : Nat) (p : List Nat) (o : Nat) (h : j ≠ index) :
    afterSplit [] index cut (j :: p) o = ((if index + 1 ≤ j then j + 1 else j) :: p, o) := by
  have : ¬ (j :: p = [index]) := by intro e; simp at e; exact h e.1
  simp [afterSplit, this, shiftFrom]

/-- The order of two boundaries of a tree is kept when a Text child of the top
node is split. -/
theorem split_order_base (kind : Kind) (pre post : List Node) (data : List Char) (cut : Nat)
    (c1 : List Nat) (o1 : Nat) (c2 : List Nat) (o2 : Nat)
    (h1 : ((Node.branch kind (pre ++ .text data :: post)).place c1 o1).isSome = true)
    (h2 : ((Node.branch kind (pre ++ .text data :: post)).place c2 o2).isSome = true)
    (h : notAfter c1 o1 c2 o2 = true) :
    notAfter (afterSplit [] pre.length cut c1 o1).1 (afterSplit [] pre.length cut c1 o1).2
      (afterSplit [] pre.length cut c2 o2).1 (afterSplit [] pre.length cut c2 o2).2 = true := by
  cases c1 with
  | nil =>
    cases c2 with
    | nil =>
      rw [notAfter_nil_nil] at h
      simp only [afterSplit_nil_nil]
      rw [notAfter_nil_nil]
      split_ifs <;> omega
    | cons j2 p2 =>
      rw [notAfter_nil_cons] at h
      by_cases hj2 : j2 = pre.length
      · subst hj2
        have := place_below_text kind pre post data p2 o2 h2
        subst this
        simp only [afterSplit_nil_nil, afterSplit_nil_self]
        split_ifs <;> rw [notAfter_nil_cons] <;> omega
      · simp only [afterSplit_nil_nil, afterSplit_nil_other _ _ _ _ _ hj2]
        rw [notAfter_nil_cons]
        split_ifs <;> omega
  | cons j1 p1 =>
    by_cases hj1 : j1 = pre.length
    · subst hj1
      have := place_below_text kind pre post data p1 o1 h1
      subst this
      cases c2 with
      | nil =>
        rw [notAfter_cons_nil] at h
        simp only [afterSplit_nil_nil, afterSplit_nil_self]
        split_ifs <;> rw [notAfter_cons_nil] <;> omega
      | cons j2 p2 =>
        rw [notAfter_cons_cons] at h
        by_cases hj2 : j2 = pre.length
        · subst hj2
          have := place_below_text kind pre post data p2 o2 h2
          subst this
          rw [notAfter_nil_nil] at h
          simp only [afterSplit_nil_self]
          split_ifs <;> rw [notAfter_cons_cons, notAfter_nil_nil] <;> omega
        · simp only [afterSplit_nil_self, afterSplit_nil_other _ _ _ _ _ hj2]
          have hlt : pre.length < j2 := by
            rcases h with h | ⟨h, -⟩
            · exact h
            · exact absurd h.symm hj2
          split_ifs <;> rw [notAfter_cons_cons] <;> left <;> omega
    · cases c2 with
      | nil =>
        rw [notAfter_cons_nil] at h
        simp only [afterSplit_nil_nil, afterSplit_nil_other _ _ _ _ _ hj1]
        rw [notAfter_cons_nil]
        split_ifs <;> omega
      | cons j2 p2 =>
        rw [notAfter_cons_cons] at h
        by_cases hj2 : j2 = pre.length
        · subst hj2
          have := place_below_text kind pre post data p2 o2 h2
          subst this
          simp only [afterSplit_nil_self, afterSplit_nil_other _ _ _ _ _ hj1]
          have hlt : j1 < pre.length := by
            rcases h with h | ⟨h, -⟩
            · exact h
            · exact absurd h hj1
          split_ifs <;> rw [notAfter_cons_cons] <;> left <;> omega
        · simp only [afterSplit_nil_other _ _ _ _ _ hj1, afterSplit_nil_other _ _ _ _ _ hj2]
          rw [notAfter_cons_cons]
          rcases h with h | ⟨h, ht⟩
          · left; split_ifs <;> omega
          · right
            subst h
            exact ⟨rfl, ht⟩

/-- The order of two boundaries of a tree is kept when a Text node is split. -/
theorem split_order (parent : List Nat) :
    ∀ (top : Node) (index cut : Nat) (data : List Char),
      top.nodeAt (parent ++ [index]) = some (.text data) →
      ∀ c1 o1 c2 o2, (top.place c1 o1).isSome = true → (top.place c2 o2).isSome = true →
        notAfter c1 o1 c2 o2 = true →
        notAfter (afterSplit parent index cut c1 o1).1 (afterSplit parent index cut c1 o1).2
          (afterSplit parent index cut c2 o2).1 (afterSplit parent index cut c2 o2).2
          = true := by
  induction parent with
  | nil =>
    intro top index cut data h c1 o1 c2 o2 h1 h2 hn
    cases top with
    | text d => simp [Node.nodeAt] at h
    | branch kind cs =>
      obtain ⟨pre, post, c, rfl, rfl, hc⟩ := nodeAt_cons kind cs index [] _ h
      simp only [Node.nodeAt, Option.some.injEq] at hc
      subst hc
      exact split_order_base kind pre post data cut c1 o1 c2 o2 h1 h2 hn
  | cons i parent ih =>
    intro top index cut data h c1 o1 c2 o2 h1 h2 hn
    cases top with
    | text d => simp [Node.nodeAt] at h
    | branch kind cs =>
      obtain ⟨pre, post, ci, rfl, rfl, hc⟩ := nodeAt_cons kind cs i (parent ++ [index]) _ h
      have sub : ∀ p o, ((Node.branch kind (pre ++ ci :: post)).place
          (pre.length :: p) o).isSome = true → (ci.place p o).isSome = true := by
        intro p o hp
        rw [place_mid] at hp
        cases hx : ci.place p o with
        | none => rw [hx] at hp; simp at hp
        | some pl => rfl
      -- the head of an address does not change
      have head : ∀ j p o, ∃ q o', afterSplit (pre.length :: parent) index cut (j :: p) o
          = (j :: q, o') := by
        intro j p o
        by_cases hj : j = pre.length
        · subst hj; rw [afterSplit_cons_same]; exact ⟨_, _, rfl⟩
        · rw [afterSplit_cons_ne _ _ _ _ _ _ _ (fun e => hj e.symm)]; exact ⟨_, _, rfl⟩
      cases c1 with
      | nil =>
        rw [afterSplit_cons_nil]
        cases c2 with
        | nil => rw [afterSplit_cons_nil]; exact hn
        | cons j2 p2 =>
          obtain ⟨q, o', e⟩ := head j2 p2 o2
          rw [e]
          rw [notAfter_nil_cons] at hn ⊢
          exact hn
      | cons j1 p1 =>
        cases c2 with
        | nil =>
          obtain ⟨q, o', e⟩ := head j1 p1 o1
          rw [e, afterSplit_cons_nil]
          rw [notAfter_cons_nil] at hn ⊢
          exact hn
        | cons j2 p2 =>
          rw [notAfter_cons_cons] at hn
          rcases hn with hlt | ⟨heq, ht⟩
          · obtain ⟨q1, o1', e1⟩ := head j1 p1 o1
            obtain ⟨q2, o2', e2⟩ := head j2 p2 o2
            rw [e1, e2, notAfter_cons_cons]
            exact Or.inl hlt
          · subst heq
            by_cases hj : j1 = pre.length
            · subst hj
              rw [afterSplit_cons_same, afterSplit_cons_same, notAfter_cons_cons]
              exact Or.inr ⟨rfl, ih ci index cut data hc p1 o1 p2 o2 (sub p1 o1 h1)
                (sub p2 o2 h2) ht⟩
            · rw [afterSplit_cons_ne _ _ _ _ _ _ _ (fun e => hj e.symm),
                afterSplit_cons_ne _ _ _ _ _ _ _ (fun e => hj e.symm), notAfter_cons_cons]
              exact Or.inr ⟨rfl, ht⟩

theorem Readdress.same (top : Node) : Readdress top top (fun c o => (c, o)) where
  markup := rfl
  place := fun _ _ pl h => ⟨pl.edge, h, fun e => e⟩
  order := fun _ _ _ _ _ _ h => h

theorem Readdress.compose {top top1 top2 : Node} {g g1 : List Nat → Nat → List Nat × Nat}
    (h : Readdress top top1 g) (h1 : Readdress top1 top2 g1) :
    Readdress top top2 (fun c o => g1 (g c o).1 (g c o).2) where
  markup := by rw [h1.markup, h.markup]
  place := by
    intro c o pl hpl
    obtain ⟨e, he, hee⟩ := h.place c o pl hpl
    obtain ⟨e1, he1, hee1⟩ := h1.place _ _ _ he
    exact ⟨e1, he1, fun x => hee1 (hee x)⟩
  order := by
    intro c1 o1 c2 o2 v1 v2 hn
    have w1 : (top1.place (g c1 o1).1 (g c1 o1).2).isSome = true := by
      cases hx : top.place c1 o1 with
      | none => rw [hx] at v1; simp at v1
      | some pl => obtain ⟨e, he, -⟩ := h.place c1 o1 pl hx; rw [he]; rfl
    have w2 : (top1.place (g c2 o2).1 (g c2 o2).2).isSome = true := by
      cases hx : top.place c2 o2 with
      | none => rw [hx] at v2; simp at v2
      | some pl => obtain ⟨e, he, -⟩ := h.place c2 o2 pl hx; rw [he]; rfl
    exact h1.order _ _ _ _ w1 w2 (h.order c1 o1 c2 o2 v1 v2 hn)

/-- The node a boundary of the tree lies in. -/
theorem place_nodeAt (c : List Nat) : ∀ (top : Node) (o : Nat) (pl : Place),
    top.place c o = some pl →
    (∃ data, top.nodeAt c = some (.text data) ∧ o ≤ data.length ∧
      pl.edge = (o == 0 || o == data.length)) ∨
    (∃ kind cs, top.nodeAt c = some (.branch kind cs) ∧ o ≤ cs.length ∧ pl.edge = true) := by
  induction c with
  | nil =>
    intro top o pl h
    cases top with
    | text data =>
      simp only [Node.place] at h
      split_ifs at h with ho
      simp only [Option.some.injEq] at h
      subst h
      exact Or.inl ⟨data, rfl, ho, rfl⟩
    | branch kind cs =>
      rw [place_nil] at h
      split_ifs at h with ho
      simp only [Option.some.injEq] at h
      subst h
      exact Or.inr ⟨kind, cs, rfl, ho, rfl⟩
  | cons i p ih =>
    intro top o pl h
    cases top with
    | text data => simp [Node.place] at h
    | branch kind cs =>
      simp only [Node.place] at h
      cases hg : cs.get? i with
      | none => rw [hg] at h; simp at h
      | some ci =>
        rw [hg] at h
        simp only at h
        cases hx : ci.place p o with
        | none => rw [hx] at h; simp at h
        | some pl1 =>
          rw [hx] at h
          simp only [Option.some.injEq] at h
          subst h
          simp only [Node.nodeAt, hg]
          exact ih ci o pl1 hx

theorem markup_branch (kind : Kind) (cs : List Node) (top1 : Node)
    (h : top1.markup = (Node.branch kind cs).markup) :
    ∃ cs1, top1 = .branch kind cs1 := by
  cases top1 with
  | text data =>
    simp only [Node.markup] at h
    cases data with
    | nil => simp at h
    | cons a b => simp at h
  | branch kind1 cs1 =>
    simp only [Node.markup, List.cons.injEq, Sym.opening.injEq] at h
    exact ⟨cs1, by rw [h.1]⟩

theorem dropLast_append_getLast {α : Type} (l : List α) (a : α) (h : l.getLast? = some a) :
    l = l.dropLast ++ [a] :=
  (List.dropLast_append_getLast? a h).symm

/-- One step of `splitTextContainers` on a boundary of the tree: the tree and
the range afterwards. -/
theorem splitTextContainer_spec (kind : Kind) (cs : List Node) (range : Range)
    (container : List Nat) (offset : Nat) (pl : Place)
    (h : (Node.branch kind cs).place container offset = some pl) :
    ∃ top1 g, splitTextContainer (.branch kind cs) range container offset
        = some (top1, ⟨(g range.startContainer range.startOffset).1,
            (g range.startContainer range.startOffset).2,
            (g range.endContainer range.endOffset).1,
            (g range.endContainer range.endOffset).2⟩) ∧
      Readdress (.branch kind cs) top1 g ∧
      top1.place (g container offset).1 (g container offset).2 = some ⟨pl.pos, true⟩ := by
  unfold splitTextContainer
  rcases place_nodeAt container _ offset pl h with ⟨data, hn, ho, he⟩ | ⟨kind1, cs1, hn, ho, he⟩
  · rw [hn]
    simp only
    by_cases hin : 0 < offset ∧ offset < data.length
    · rw [if_pos hin]
      cases hl : container.getLast? with
      | none =>
        rw [List.getLast?_eq_none_iff] at hl
        subst hl
        simp [Node.nodeAt] at hn
      | some index =>
        have hc := dropLast_append_getLast container index hl
        simp only
        have hn1 : (Node.branch kind cs).nodeAt (container.dropLast ++ [index])
            = some (.text data) := by rw [← hc]; exact hn
        obtain ⟨top1, hu, hm, hp⟩ := split_place container.dropLast (.branch kind cs) index
          offset data hn1 ho
        rw [hu]
        refine ⟨top1, afterSplit container.dropLast index offset, rfl, ⟨hm, ?_, ?_⟩, ?_⟩
        · intro c o pl1 hpl1
          exact ⟨_, hp c o pl1 hpl1, fun e => by simp [e]⟩
        · intro c1 o1 c2 o2 v1 v2 hno
          exact split_order container.dropLast _ index offset data hn1 c1 o1 c2 o2 v1 v2 hno
        · rw [hp container offset pl h]
          have : (container == container.dropLast ++ [index]) = true := by
            rw [← hc]; simp
          simp [this]
    · rw [if_neg hin]
      refine ⟨_, fun c o => (c, o), rfl, Readdress.same _, ?_⟩
      simp only
      rw [h]
      have : pl.edge = true := by
        rw [he]
        simp only [Bool.or_eq_true, beq_iff_eq]
        omega
      cases pl with
      | mk pos edge => simp only at this; rw [this]
  · rw [hn]
    refine ⟨_, fun c o => (c, o), rfl, Readdress.same _, ?_⟩
    simp only
    rw [h]
    cases pl with
    | mk pos edge => simp only at he; rw [he]

/-- The function `splitTextContainers` on a range of the tree: both boundaries
come to lie at an edge, at the place they had. -/
theorem splitTextContainers_spec (kind : Kind) (cs : List Node) (range : Range)
    (ps pe : Place)
    (hs : (Node.branch kind cs).place range.startContainer range.startOffset = some ps)
    (he : (Node.branch kind cs).place range.endContainer range.endOffset = some pe) :
    ∃ cs1 range1 g, splitTextContainers (.branch kind cs) range
        = some (.branch kind cs1, range1) ∧
      Readdress (.branch kind cs) (.branch kind cs1) g ∧
      (Node.branch kind cs1).place range1.startContainer range1.startOffset
        = some ⟨ps.pos, true⟩ ∧
      (Node.branch kind cs1).place range1.endContainer range1.endOffset
        = some ⟨pe.pos, true⟩ ∧
      (g range.startContainer range.startOffset
        = (range1.startContainer, range1.startOffset)) ∧
      (g range.endContainer range.endOffset = (range1.endContainer, range1.endOffset)) := by
  unfold splitTextContainers
  obtain ⟨top1, g, h1, r1, p1⟩ := splitTextContainer_spec kind cs range
    range.startContainer range.startOffset ps hs
  rw [h1]
  simp only
  obtain ⟨cs1, rfl⟩ := markup_branch kind cs top1 r1.markup
  obtain ⟨ee, hee, -⟩ := r1.place _ _ pe he
  obtain ⟨top2, g2, h2, r2, p2⟩ := splitTextContainer_spec kind cs1
    ⟨(g range.startContainer range.startOffset).1, (g range.startContainer range.startOffset).2,
      (g range.endContainer range.endOffset).1, (g range.endContainer range.endOffset).2⟩
    (g range.endContainer range.endOffset).1 (g range.endContainer range.endOffset).2 _ hee
  rw [h2]
  have r12 := r1.compose r2
  obtain ⟨cs2, rfl⟩ := markup_branch kind cs top2 r12.markup
  obtain ⟨e3, he3, hee3⟩ := r2.place _ _ _ p1
  have := hee3 rfl
  subst this
  exact ⟨cs2, _, _, rfl, r12, he3, p2, rfl, rfl⟩

theorem cursor_nil (kind : Kind) (cs : List Node) (o : Nat) (h : o ≤ cs.length) :
    cursorFromBoundaryPoint (.branch kind cs) [] o = some ⟨[], o⟩ := by
  simp [cursorFromBoundaryPoint, Node.nodeAt, h]

theorem cursor_text (kind : Kind) (pre post : List Node) (data : List Char) (o : Nat) :
    cursorFromBoundaryPoint (.branch kind (pre ++ .text data :: post)) [pre.length] o =
      if o = data.length then some ⟨[], pre.length + 1⟩
      else if o < data.length then some ⟨[], pre.length⟩ else none := by
  unfold cursorFromBoundaryPoint
  simp only [Node.nodeAt, get?_mid]
  rfl

theorem cursor_branch (kind : Kind) (pre post : List Node) (kind1 : Kind) (cs1 : List Node)
    (p : List Nat) (o : Nat) :
    cursorFromBoundaryPoint (.branch kind (pre ++ .branch kind1 cs1 :: post))
        (pre.length :: p) o =
      match cursorFromBoundaryPoint (.branch kind1 cs1) p o with
      | some cur => some ⟨pre.length :: cur.parent, cur.index⟩
      | none => none := by
  unfold cursorFromBoundaryPoint
  simp only [Node.nodeAt, get?_mid]
  cases p with
  | nil =>
    simp only [Node.nodeAt]
    split_ifs <;> rfl
  | cons q r =>
    cases hn : (Node.branch kind1 cs1).nodeAt (q :: r) with
    | none => rfl
    | some n =>
      cases n with
      | branch k2 cs2 =>
        simp only
        split_ifs <;> rfl
      | text data =>
        simp only
        have hl : (pre.length :: q :: r).getLast? = (q :: r).getLast? := by
          simp [List.getLast?_cons_cons]
        have hd : (pre.length :: q :: r).dropLast = pre.length :: (q :: r).dropLast := by
          simp [List.dropLast]
        rw [hl, hd]
        cases (q :: r).getLast? with
        | none => rfl
        | some index =>
          simp only
          split_ifs <;> rfl

/-- The cursor of a boundary at an edge stands at the place of the boundary. -/
theorem cursor_place (c : List Nat) : ∀ (kind : Kind) (cs : List Node) (o x : Nat),
    (Node.branch kind cs).place c o = some ⟨x, true⟩ →
    ∃ cur, cursorFromBoundaryPoint (.branch kind cs) c o = some cur ∧
      (Node.branch kind cs).place cur.parent cur.index = some ⟨x, true⟩ := by
  induction c with
  | nil =>
    intro kind cs o x h
    have h' := h
    rw [place_nil] at h'
    split_ifs at h' with ho
    exact ⟨⟨[], o⟩, cursor_nil kind cs o ho, h⟩
  | cons i p ih =>
    intro kind cs o x h
    have hsome : ∃ ci, cs.get? i = some ci := by
      simp only [Node.place] at h
      cases hg : cs.get? i with
      | none => rw [hg] at h; simp at h
      | some ci => exact ⟨ci, rfl⟩
    obtain ⟨ci, hg⟩ := hsome
    obtain ⟨pre, post, rfl, rfl⟩ := get?_split cs i ci hg
    rw [place_mid] at h
    cases hx : ci.place p o with
    | none => rw [hx] at h; simp at h
    | some pl1 =>
      rw [hx] at h
      simp only [Option.some.injEq, Place.mk.injEq] at h
      obtain ⟨hpos, hedge⟩ := h
      cases ci with
      | text data =>
        cases p with
        | cons q r => simp [place_text_cons] at hx
        | nil =>
          simp only [Node.place] at hx
          split_ifs at hx with ho
          simp only [Option.some.injEq] at hx
          subst hx
          simp only [Bool.or_eq_true, beq_iff_eq] at hedge
          rw [cursor_text]
          by_cases hend : o = data.length
          · refine ⟨⟨[], pre.length + 1⟩, by rw [if_pos hend], ?_⟩
            have e0 : pre.length + 1 - pre.length - 1 = 0 := by omega
            rw [place_nil, if_pos (by simp),
              take_mid_gt _ _ _ _ (by omega : pre.length < pre.length + 1), e0]
            simp only [markupList_append, markupList_cons, Node.markup, List.length_append,
              List.length_map, List.take_zero,
              markupList_nil, List.length_nil, Option.some.injEq, Place.mk.injEq, and_true]
            simp only at hpos
            omega
          · have h0 : o = 0 := by omega
            refine ⟨⟨[], pre.length⟩, by rw [if_neg hend, if_pos (by omega)], ?_⟩
            rw [place_nil, if_pos (by simp), take_mid_le _ _ _ _ (Nat.le_refl _),
              List.take_length]
            simp only [Option.some.injEq, Place.mk.injEq, and_true]
            simp only at hpos
            omega
      | branch kind1 cs1 =>
        have hx' : (Node.branch kind1 cs1).place p o = some ⟨pl1.pos, true⟩ := by
          rw [hx]; cases pl1 with
          | mk pos edge => simp only at hedge; rw [hedge]
        obtain ⟨cur1, hc1, hp1⟩ := ih kind1 cs1 o pl1.pos hx'
        refine ⟨⟨pre.length :: cur1.parent, cur1.index⟩, by rw [cursor_branch, hc1], ?_⟩
        simp only
        rw [place_mid, hp1]
        simp only [Option.some.injEq, Place.mk.injEq, and_true]
        exact hpos

/-- The cursor of a boundary at an edge inside the child `ci` of the top node:
next to `ci` when `ci` is a Text node, inside `ci` when it has children. -/
theorem cursor_cons_shape (kind : Kind) (pre post : List Node) (ci : Node) (p : List Nat)
    (o x : Nat) (cur : Cursor)
    (h : (Node.branch kind (pre ++ ci :: post)).place (pre.length :: p) o = some ⟨x, true⟩)
    (hc : cursorFromBoundaryPoint (.branch kind (pre ++ ci :: post)) (pre.length :: p) o
      = some cur) :
    (∃ data, ci = .text data ∧ p = [] ∧ o ≤ data.length ∧
      ((o = data.length ∧ cur = ⟨[], pre.length + 1⟩) ∨
        (o < data.length ∧ cur = ⟨[], pre.length⟩))) ∨
    (∃ kind1 cs1 cur1 x1, ci = .branch kind1 cs1 ∧
      (Node.branch kind1 cs1).place p o = some ⟨x1, true⟩ ∧
      cursorFromBoundaryPoint (.branch kind1 cs1) p o = some cur1 ∧
      cur = ⟨pre.length :: cur1.parent, cur1.index⟩) := by
  rw [place_mid] at h
  cases hx : ci.place p o with
  | none => rw [hx] at h; simp at h
  | some pl1 =>
    rw [hx] at h
    simp only [Option.some.injEq, Place.mk.injEq] at h
    obtain ⟨-, hedge⟩ := h
    cases ci with
    | text data =>
      left
      cases p with
      | cons q r => simp [place_text_cons] at hx
      | nil =>
        simp only [Node.place] at hx
        split_ifs at hx with ho
        rw [cursor_text] at hc
        refine ⟨data, rfl, rfl, ho, ?_⟩
        by_cases hend : o = data.length
        · rw [if_pos hend] at hc
          simp only [Option.some.injEq] at hc
          exact Or.inl ⟨hend, hc.symm⟩
        · rw [if_neg hend, if_pos (by omega)] at hc
          simp only [Option.some.injEq] at hc
          exact Or.inr ⟨by omega, hc.symm⟩
    | branch kind1 cs1 =>
      right
      rw [cursor_branch] at hc
      cases hc1 : cursorFromBoundaryPoint (.branch kind1 cs1) p o with
      | none => rw [hc1] at hc; simp at hc
      | some cur1 =>
        rw [hc1] at hc
        simp only [Option.some.injEq] at hc
        refine ⟨kind1, cs1, cur1, pl1.pos, rfl, ?_, hc1, hc.symm⟩
        rw [hx]
        cases pl1 with
        | mk pos edge => simp only at hedge; rw [hedge]

/-- The cursors of two boundaries at an edge stand in the order of the
boundaries. -/
theorem cursor_order (c1 : List Nat) : ∀ (kind : Kind) (cs : List Node) (o1 : Nat)
    (c2 : List Nat) (o2 x1 x2 : Nat) (cur1 cur2 : Cursor),
    (Node.branch kind cs).place c1 o1 = some ⟨x1, true⟩ →
    (Node.branch kind cs).place c2 o2 = some ⟨x2, true⟩ →
    notAfter c1 o1 c2 o2 = true →
    cursorFromBoundaryPoint (.branch kind cs) c1 o1 = some cur1 →
    cursorFromBoundaryPoint (.branch kind cs) c2 o2 = some cur2 →
    notAfter cur1.parent cur1.index cur2.parent cur2.index = true := by
  induction c1 with
  | nil =>
    intro kind cs o1 c2 o2 x1 x2 cur1 cur2 h1 h2 hn hc1 hc2
    have ho1 : o1 ≤ cs.length := by
      rw [place_nil] at h1
      split_ifs at h1 with ho
      exact ho
    rw [cursor_nil kind cs o1 ho1] at hc1
    simp only [Option.some.injEq] at hc1
    subst hc1
    cases c2 with
    | nil =>
      have ho2 : o2 ≤ cs.length := by
        rw [place_nil] at h2
        split_ifs at h2 with ho
        exact ho
      rw [cursor_nil kind cs o2 ho2] at hc2
      simp only [Option.some.injEq] at hc2
      subst hc2
      exact hn
    | cons k2 p2 =>
      rw [notAfter_nil_cons] at hn
      have hsome : ∃ ci, cs.get? k2 = some ci := by
        simp only [Node.place] at h2
        cases hg : cs.get? k2 with
        | none => rw [hg] at h2; simp at h2
        | some ci => exact ⟨ci, rfl⟩
      obtain ⟨ci, hg⟩ := hsome
      obtain ⟨pre, post, rfl, rfl⟩ := get?_split cs k2 ci hg
      rcases cursor_cons_shape kind pre post ci p2 o2 x2 cur2 h2 hc2 with
        ⟨data, -, -, -, ⟨-, rfl⟩ | ⟨-, rfl⟩⟩ | ⟨kind1, cs1, cur, y, -, -, -, rfl⟩
      · simp only [notAfter_nil_nil]; omega
      · simp only [notAfter_nil_nil]; omega
      · simp only [notAfter_nil_cons]; omega
  | cons k1 p1 ih =>
    intro kind cs o1 c2 o2 x1 x2 cur1 cur2 h1 h2 hn hc1 hc2
    have hsome : ∃ ci, cs.get? k1 = some ci := by
      simp only [Node.place] at h1
      cases hg : cs.get? k1 with
      | none => rw [hg] at h1; simp at h1
      | some ci => exact ⟨ci, rfl⟩
    obtain ⟨ci, hg⟩ := hsome
    obtain ⟨pre, post, rfl, rfl⟩ := get?_split cs k1 ci hg
    have sh1 := cursor_cons_shape kind pre post ci p1 o1 x1 cur1 h1 hc1
    cases c2 with
    | nil =>
      rw [notAfter_cons_nil] at hn
      have ho2 : o2 ≤ (pre ++ ci :: post).length := by
        rw [place_nil] at h2
        split_ifs at h2 with ho
        exact ho
      rw [cursor_nil kind _ o2 ho2] at hc2
      simp only [Option.some.injEq] at hc2
      subst hc2
      rcases sh1 with ⟨data, -, -, -, ⟨-, rfl⟩ | ⟨-, rfl⟩⟩ | ⟨kind1, cs1, cur, y, -, -, -, rfl⟩
      · simp only [notAfter_nil_nil]; omega
      · simp only [notAfter_nil_nil]; omega
      · simp only [notAfter_cons_nil]; omega
    | cons k2 p2 =>
      rw [notAfter_cons_cons] at hn
      by_cases hk : k2 = pre.length
      · subst hk
        have sh2 := cursor_cons_shape kind pre post ci p2 o2 x2 cur2 h2 hc2
        have ht : notAfter p1 o1 p2 o2 = true := by
          rcases hn with hlt | ⟨-, ht⟩
          · omega
          · exact ht
        rcases sh1 with ⟨data, rfl, rfl, ho1, hcase1⟩ | ⟨kind1, cs1, cu1, y1, rfl, hp1, hcc1, rfl⟩
        · rcases sh2 with ⟨data2, e2, rfl, ho2, hcase2⟩ | ⟨kind2, cs2, cu2, y2, e2, -, -, -⟩
          · cases e2
            rw [notAfter_nil_nil] at ht
            rcases hcase1 with ⟨e1, rfl⟩ | ⟨e1, rfl⟩ <;>
              rcases hcase2 with ⟨e2, rfl⟩ | ⟨e2, rfl⟩ <;>
              simp only [notAfter_nil_nil] <;> omega
          · cases e2
        · rcases sh2 with ⟨data2, e2, -, -, -⟩ | ⟨kind2, cs2, cu2, y2, e2, hp2, hcc2, rfl⟩
          · cases e2
          · cases e2
            rw [notAfter_cons_cons]
            exact Or.inr ⟨rfl, ih kind1 cs1 o1 p2 o2 y1 y2 cu1 cu2 hp1 hp2 ht hcc1 hcc2⟩
      · have hlt : pre.length < k2 := by
          rcases hn with hlt | ⟨he, -⟩
          · exact hlt
          · exact absurd he.symm hk
        have hsome2 : ∃ cj, (pre ++ ci :: post).get? k2 = some cj := by
          simp only [Node.place] at h2
          cases hg2 : (pre ++ ci :: post).get? k2 with
          | none => rw [hg2] at h2; simp at h2
          | some cj => exact ⟨cj, rfl⟩
        obtain ⟨cj, hg2⟩ := hsome2
        obtain ⟨pre2, post2, e2, hl2⟩ := get?_split _ k2 cj hg2
        rw [e2] at h2 hc2
        rw [← hl2] at h2 hc2
        have sh2 := cursor_cons_shape kind pre2 post2 cj p2 o2 x2 cur2 h2 hc2
        rw [hl2] at sh2
        rcases sh1 with ⟨data, -, -, -, ⟨-, rfl⟩ | ⟨-, rfl⟩⟩ | ⟨kind1, cs1, cu1, y1, -, -, -, rfl⟩ <;>
          rcases sh2 with ⟨data2, -, -, -, ⟨-, rfl⟩ | ⟨-, rfl⟩⟩ |
            ⟨kind2, cs2, cu2, y2, -, -, -, rfl⟩ <;>
          first
            | (simp only [notAfter_nil_nil]; omega)
            | (simp only [notAfter_nil_cons]; omega)
            | (simp only [notAfter_cons_nil]; omega)
            | (simp only [notAfter_cons_cons]; left; omega)

theorem boundaryKind_mid (kind : Kind) (pre post : List Node) (c : Node) (p : List Nat)
    (o : Nat) :
    (Node.branch kind (pre ++ c :: post)).boundaryKind (pre.length :: p) o
      = c.boundaryKind p o := by
  simp only [Node.boundaryKind, Node.nodeAt, get?_mid]

theorem boundaryKind_replace_other (kind : Kind) (pre post : List Node) (c c1 : Node) (j : Nat)
    (p : List Nat) (o : Nat) (hj : j ≠ pre.length) :
    (Node.branch kind (pre ++ c1 :: post)).boundaryKind (j :: p) o
      = (Node.branch kind (pre ++ c :: post)).boundaryKind (j :: p) o := by
  simp only [Node.boundaryKind, Node.nodeAt]
  by_cases hlt : j < pre.length
  · rw [get?_mid_lt _ _ _ _ hlt, get?_mid_lt _ _ _ _ hlt]
  · rw [get?_mid_gt _ _ _ _ (by omega), get?_mid_gt _ _ _ _ (by omega)]

theorem boundaryKind_nil (kind : Kind) (cs : List Node) (o : Nat) :
    (Node.branch kind cs).boundaryKind [] o = if o ≤ cs.length then some false else none := by
  simp [Node.boundaryKind, Node.nodeAt]

/-- The cursor of a boundary at an edge is a place between the children of a
node. -/
theorem cursor_kind (c : List Nat) : ∀ (kind : Kind) (cs : List Node) (o x : Nat) (cur : Cursor),
    (Node.branch kind cs).place c o = some ⟨x, true⟩ →
    cursorFromBoundaryPoint (.branch kind cs) c o = some cur →
    (Node.branch kind cs).boundaryKind cur.parent cur.index = some false := by
  induction c with
  | nil =>
    intro kind cs o x cur h hc
    have ho : o ≤ cs.length := by
      rw [place_nil] at h
      split_ifs at h with ho
      exact ho
    rw [cursor_nil kind cs o ho] at hc
    simp only [Option.some.injEq] at hc
    subst hc
    simp only [boundaryKind_nil, ho, if_true]
  | cons i p ih =>
    intro kind cs o x cur h hc
    have hsome : ∃ ci, cs.get? i = some ci := by
      simp only [Node.place] at h
      cases hg : cs.get? i with
      | none => rw [hg] at h; simp at h
      | some ci => exact ⟨ci, rfl⟩
    obtain ⟨ci, hg⟩ := hsome
    obtain ⟨pre, post, rfl, rfl⟩ := get?_split cs i ci hg
    rcases cursor_cons_shape kind pre post ci p o x cur h hc with
      ⟨data, -, -, -, ⟨-, rfl⟩ | ⟨-, rfl⟩⟩ | ⟨kind1, cs1, cur1, y, rfl, hp, hcc, rfl⟩
    · simp only [boundaryKind_nil, List.length_append, List.length_cons]
      rw [if_pos (by omega)]
    · simp only [boundaryKind_nil, List.length_append, List.length_cons]
      rw [if_pos (by omega)]
    · simp only [boundaryKind_mid]
      exact ih kind1 cs1 o y cur1 hp hcc

theorem markupList_take_le (cs : List Node) (k : Nat) :
    (markupList (cs.take k)).length ≤ (markupList cs).length := by
  conv_rhs => rw [← List.take_append_drop k cs, markupList_append, List.length_append]
  omega

/-- A boundary of a tree lies within its markup. -/
theorem place_le (c : List Nat) : ∀ (top : Node) (o : Nat) (pl : Place),
    top.place c o = some pl → pl.pos ≤ top.markup.length := by
  induction c with
  | nil =>
    intro top o pl h
    cases top with
    | text data =>
      simp only [Node.place] at h
      split_ifs at h with ho
      simp only [Option.some.injEq] at h
      subst h
      simpa [Node.markup] using ho
    | branch kind cs =>
      rw [place_nil] at h
      split_ifs at h with ho
      simp only [Option.some.injEq] at h
      subst h
      have := markupList_take_le cs o
      simp only [Node.markup, List.length_cons, List.length_append, List.length_singleton]
      omega
  | cons i p ih =>
    intro top o pl h
    cases top with
    | text data => simp [Node.place] at h
    | branch kind cs =>
      have hsome : ∃ ci, cs.get? i = some ci := by
        simp only [Node.place] at h
        cases hg : cs.get? i with
        | none => rw [hg] at h; simp at h
        | some ci => exact ⟨ci, rfl⟩
      obtain ⟨ci, hg⟩ := hsome
      obtain ⟨pre, post, rfl, rfl⟩ := get?_split cs i ci hg
      rw [place_mid] at h
      cases hx : ci.place p o with
      | none => rw [hx] at h; simp at h
      | some pl1 =>
        rw [hx] at h
        simp only [Option.some.injEq] at h
        subst h
        have := ih ci o pl1 hx
        simp only [Node.markup, markupList_append, markupList_cons, List.length_cons,
          List.length_append, List.length_singleton]
        omega

theorem insertBefore_split (n : Node) (pre post : List Node) :
    insertBefore n pre.length (pre ++ post) = pre ++ n :: post := by
  simp [insertBefore]

/-- Inserting the node `n` at a cursor puts its markup in at the place of the
cursor. -/
theorem insert_markup (parent : List Nat) : ∀ (kind : Kind) (cs : List Node) (index x : Nat)
    (n : Node),
    (Node.branch kind cs).boundaryKind parent index = some false →
    (Node.branch kind cs).place parent index = some ⟨x, true⟩ →
    ∃ cs2, Cursor.insert ⟨parent, index⟩ (.branch kind cs) n = some (.branch kind cs2) ∧
      (Node.branch kind cs2).markup
        = (Node.branch kind cs).markup.take x ++ n.markup ++ (Node.branch kind cs).markup.drop x := by
  induction parent with
  | nil =>
    intro kind cs index x n hk hp
    rw [place_nil] at hp
    split_ifs at hp with ho
    simp only [Option.some.injEq, Place.mk.injEq, and_true] at hp
    refine ⟨insertBefore n index cs, by simp [Cursor.insert, updateAt_nil], ?_⟩
    obtain ⟨pre, post, rfl, rfl⟩ : ∃ pre post, cs = pre ++ post ∧ pre.length = index :=
      ⟨cs.take index, cs.drop index, (List.take_append_drop index cs).symm, by simp [ho]⟩
    rw [insertBefore_split]
    rw [List.take_left' rfl] at hp
    subst hp
    simp only [Node.markup, markupList_append, markupList_cons]
    have e : 1 + (markupList pre).length = (Sym.opening kind :: markupList pre).length := by
      simp; omega
    rw [e]
    have t1 : (Sym.opening kind :: (markupList pre ++ markupList post ++ [Sym.closing]))
        = (Sym.opening kind :: markupList pre) ++ (markupList post ++ [Sym.closing]) := by simp
    rw [t1, List.take_left' rfl, List.drop_left' rfl]
    simp
  | cons i p ih =>
    intro kind cs index x n hk hp
    have hsome : ∃ ci, cs.get? i = some ci := by
      simp only [Node.place] at hp
      cases hg : cs.get? i with
      | none => rw [hg] at hp; simp at hp
      | some ci => exact ⟨ci, rfl⟩
    obtain ⟨ci, hg⟩ := hsome
    obtain ⟨pre, post, rfl, rfl⟩ := get?_split cs i ci hg
    rw [boundaryKind_mid] at hk
    rw [place_mid] at hp
    cases hx : ci.place p index with
    | none => rw [hx] at hp; simp at hp
    | some pl1 =>
      rw [hx] at hp
      simp only [Option.some.injEq, Place.mk.injEq] at hp
      obtain ⟨hpos, hedge⟩ := hp
      cases ci with
      | text data =>
        cases p with
        | nil => simp [Node.boundaryKind, Node.nodeAt] at hk
        | cons q r => simp [place_text_cons] at hx
      | branch kind1 cs1 =>
        have hx' : (Node.branch kind1 cs1).place p index = some ⟨pl1.pos, true⟩ := by
          rw [hx]; cases pl1 with
          | mk pos edge => simp only at hedge; rw [hedge]
        obtain ⟨cs2, hi, hm⟩ := ih kind1 cs1 index pl1.pos n hk hx'
        have hle := place_le p _ index _ hx'
        simp only at hle
        refine ⟨pre ++ .branch kind1 cs2 :: post, ?_, ?_⟩
        · simp only [Cursor.insert] at hi ⊢
          rw [updateAt_mid, hi]
        · subst hpos
          simp only [Node.markup] at hm hle ⊢
          simp only [markupList_append, markupList_cons, Node.markup]
          rw [hm]
          generalize hM : Sym.opening kind1 :: (markupList cs1 ++ [Sym.closing]) = M at hm hle ⊢
          have e : 1 + (markupList pre).length + pl1.pos
              = (Sym.opening kind :: markupList pre).length + pl1.pos := by
            simp; omega
          rw [e]
          have t1 : (Sym.opening kind :: (markupList pre ++ (M ++ markupList post)
              ++ [Sym.closing]))
              = (Sym.opening kind :: markupList pre) ++ (M ++ (markupList post ++ [Sym.closing])) := by
            simp
          rw [t1, List.take_append, List.drop_append, List.take_append_of_le_length hle,
            List.drop_append_of_le_length hle]
          simp

theorem updateAt_kind (f : List Node → List Node) (p : List Nat) :
    ∀ (kind : Kind) (cs : List Node) (t : Node),
      Node.updateAt f p (.branch kind cs) = some t → ∃ cs1, t = .branch kind cs1 := by
  intro kind cs t h
  cases p with
  | nil =>
    rw [updateAt_nil] at h
    simp only [Option.some.injEq] at h
    exact ⟨_, h.symm⟩
  | cons i q =>
    rw [Node.updateAt] at h
    cases hg : cs.get? i with
    | none => rw [hg] at h; simp at h
    | some c =>
      rw [hg] at h
      simp only at h
      cases hu : Node.updateAt f q c with
      | none => rw [hu] at h; simp at h
      | some c1 =>
        rw [hu] at h
        simp only [Option.some.injEq] at h
        exact ⟨_, h.symm⟩

theorem get?_append_ge {α : Type} (pre post : List α) (j : Nat) (h : pre.length ≤ j) :
    (pre ++ post).get? j = post.get? (j - pre.length) := by
  rw [List.get?_eq_getElem?, List.getElem?_append_right h, List.get?_eq_getElem?]

theorem take_append_ge {α : Type} (pre post : List α) (j : Nat) (h : pre.length ≤ j) :
    (pre ++ post).take j = pre ++ post.take (j - pre.length) := by
  rw [List.take_append_eq_append_take, List.take_of_length_le h]

/-- The markup grows by that of the node inserted. -/
theorem insert_length (parent : List Nat) : ∀ (top : Node) (index : Nat) (n : Node) (top2 : Node),
    Cursor.insert ⟨parent, index⟩ top n = some top2 →
    top2.markup.length = top.markup.length + n.markup.length := by
  induction parent with
  | nil =>
    intro top index n top2 h
    cases top with
    | text data => simp [Cursor.insert, Node.updateAt] at h
    | branch kind cs =>
      simp only [Cursor.insert, updateAt_nil, Option.some.injEq] at h
      subst h
      simp only [Node.markup, insertBefore, markupList_append, markupList_cons, markupList_nil,
        List.length_cons, List.length_append, List.length_nil]
      have : (markupList cs).length
          = (markupList (cs.take index)).length + (markupList (cs.drop index)).length := by
        conv_lhs => rw [← List.take_append_drop index cs, markupList_append, List.length_append]
      omega
  | cons i p ih =>
    intro top index n top2 h
    cases top with
    | text data => simp [Cursor.insert, Node.updateAt] at h
    | branch kind cs =>
      simp only [Cursor.insert, Node.updateAt] at h
      cases hg : cs.get? i with
      | none => rw [hg] at h; simp at h
      | some ci =>
        rw [hg] at h
        simp only at h
        cases hu : Node.updateAt (insertBefore n index) p ci with
        | none => rw [hu] at h; simp at h
        | some ci2 =>
          rw [hu] at h
          simp only [Option.some.injEq] at h
          subst h
          obtain ⟨pre, post, rfl, rfl⟩ := get?_split cs i ci hg
          have := ih ci index n ci2 (by simp only [Cursor.insert]; exact hu)
          simp only [set_mid, Node.markup, markupList_append, markupList_cons, List.length_cons,
            List.length_append, List.length_nil]
          omega

/-- The address `shiftFrom` gives to a cursor that is not in front of the
cursor of the insertion is that of the same place, further on by the markup of
the node inserted. -/
theorem shift_place (parent : List Nat) : ∀ (kind : Kind) (cs : List Node) (index : Nat)
    (n : Node) (cs2 : List Node) (pe : List Nat) (ke xe : Nat),
    Cursor.insert ⟨parent, index⟩ (.branch kind cs) n = some (.branch kind cs2) →
    (Node.branch kind cs).boundaryKind parent index = some false →
    notAfter parent index pe ke = true →
    (Node.branch kind cs).boundaryKind pe ke = some false →
    (Node.branch kind cs).place pe ke = some ⟨xe, true⟩ →
    (Node.branch kind cs2).boundaryKind (shiftFrom parent index pe ke).1
        (shiftFrom parent index pe ke).2 = some false ∧
    (Node.branch kind cs2).place (shiftFrom parent index pe ke).1
        (shiftFrom parent index pe ke).2 = some ⟨xe + n.markup.length, true⟩ := by
  induction parent with
  | nil =>
    intro kind cs index n cs2 pe ke xe hi hk hn hke hpe
    simp only [Cursor.insert, updateAt_nil, Option.some.injEq, Node.branch.injEq, true_and] at hi
    subst hi
    have ho : index ≤ cs.length := by
      rw [boundaryKind_nil] at hk
      split_ifs at hk with ho
      exact ho
    obtain ⟨pre, post, rfl, rfl⟩ : ∃ pre post, cs = pre ++ post ∧ pre.length = index :=
      ⟨cs.take index, cs.drop index, (List.take_append_drop index cs).symm, by simp [ho]⟩
    rw [insertBefore_split]
    cases pe with
    | nil =>
      rw [notAfter_nil_nil] at hn
      have hs : shiftFrom [] pre.length [] ke = ([], ke + 1) := by simp [shiftFrom, hn]
      rw [hs]
      rw [boundaryKind_nil] at hke
      split_ifs at hke with hle
      rw [place_nil, if_pos hle, take_append_ge _ _ _ hn] at hpe
      simp only [Option.some.injEq, Place.mk.injEq, and_true] at hpe
      subst hpe
      simp only [List.length_append] at hle
      refine ⟨?_, ?_⟩
      · rw [boundaryKind_nil, if_pos (by simp only [List.length_append, List.length_cons]; omega)]
      · rw [place_nil, if_pos (by simp only [List.length_append, List.length_cons]; omega),
          take_mid_gt _ _ _ _ (by omega)]
        have e : ke + 1 - pre.length - 1 = ke - pre.length := by omega
        rw [e]
        simp only [markupList_append, markupList_cons, List.length_append, Option.some.injEq,
          Place.mk.injEq, and_true]
        omega
    | cons j q =>
      rw [notAfter_nil_cons] at hn
      have hs : shiftFrom [] pre.length (j :: q) ke = ((j + 1) :: q, ke) := by
        simp [shiftFrom, hn]
      rw [hs]
      have e : j + 1 - pre.length - 1 = j - pre.length := by omega
      simp only [Node.boundaryKind, Node.nodeAt, Node.place] at hke hpe ⊢
      rw [get?_append_ge _ _ _ hn] at hke hpe
      rw [take_append_ge _ _ _ hn] at hpe
      rw [get?_mid_gt _ _ _ _ (by omega), e]
      refine ⟨hke, ?_⟩
      rw [take_mid_gt _ _ _ _ (by omega), e]
      cases hg : post.get? (j - pre.length) with
      | none => rw [hg] at hpe; simp at hpe
      | some c =>
        rw [hg] at hpe
        simp only at hpe ⊢
        cases hx : c.place q ke with
        | none => rw [hx] at hpe; simp at hpe
        | some pl =>
          rw [hx] at hpe
          simp only [Option.some.injEq, Place.mk.injEq] at hpe ⊢
          simp only [markupList_append, markupList_cons, List.length_append] at hpe ⊢
          obtain ⟨h1, h2⟩ := hpe
          exact ⟨by omega, h2⟩
  | cons i p ih =>
    intro kind cs index n cs2 pe ke xe hi hk hn hke hpe
    have hlen := insert_length (i :: p) _ index n _ hi
    simp only [Cursor.insert, Node.updateAt] at hi
    cases hg : cs.get? i with
    | none => rw [hg] at hi; simp at hi
    | some ci =>
      rw [hg] at hi
      simp only at hi
      cases hu : Node.updateAt (insertBefore n index) p ci with
      | none => rw [hu] at hi; simp at hi
      | some ci2 =>
        rw [hu] at hi
        simp only [Option.some.injEq, Node.branch.injEq, true_and] at hi
        subst hi
        obtain ⟨pre, post, rfl, rfl⟩ := get?_split cs i ci hg
        rw [set_mid] at hlen ⊢
        have hd : ci2.markup.length = ci.markup.length + n.markup.length := by
          simp only [Node.markup, markupList_append, markupList_cons, List.length_cons,
            List.length_append] at hlen
          omega
        cases pe with
        | nil =>
          rw [notAfter_cons_nil] at hn
          rw [shiftFrom_cons_nil]
          refine ⟨?_, ?_⟩
          · rw [boundaryKind_nil] at hke ⊢
            simpa using hke
          · rw [place_replace_nil kind pre post ci ci2 _ hd, hpe]
            simp [hn]
        | cons j q =>
          rw [notAfter_cons_cons] at hn
          by_cases hj : j = pre.length
          · subst hj
            have ht : notAfter p index q ke = true := by
              rcases hn with hlt | ⟨-, ht⟩
              · omega
              · exact ht
            rw [shiftFrom_cons_same]
            rw [boundaryKind_mid] at hk hke
            rw [place_mid] at hpe
            cases ci with
            | text data =>
              cases q with
              | nil => simp [Node.boundaryKind, Node.nodeAt] at hke
              | cons a b => simp [place_text_cons] at hpe
            | branch kind1 cs1 =>
              obtain ⟨cs3, rfl⟩ := updateAt_kind _ p kind1 cs1 ci2 hu
              cases hx : (Node.branch kind1 cs1).place q ke with
              | none => rw [hx] at hpe; simp at hpe
              | some pl =>
                rw [hx] at hpe
                simp only [Option.some.injEq, Place.mk.injEq] at hpe
                obtain ⟨hpos, hedge⟩ := hpe
                have hx' : (Node.branch kind1 cs1).place q ke = some ⟨pl.pos, true⟩ := by
                  rw [hx]; cases pl with
                  | mk pos edge => simp only at hedge; rw [hedge]
                obtain ⟨r1, r2⟩ := ih kind1 cs1 index n cs3 q ke pl.pos
                  (by simp only [Cursor.insert]; exact hu) hk ht hke hx'
                refine ⟨by rw [boundaryKind_mid]; exact r1, ?_⟩
                rw [place_mid, r2]
                simp only [Option.some.injEq, Place.mk.injEq, and_true]
                omega
          · have hlt : pre.length < j := by
              rcases hn with hlt | ⟨he, -⟩
              · exact hlt
              · exact absurd he.symm hj
            rw [shiftFrom_cons_ne _ _ _ _ _ _ (fun e => hj e.symm)]
            refine ⟨?_, ?_⟩
            · rw [boundaryKind_replace_other kind pre post ci ci2 j q ke hj]
              exact hke
            · rw [place_replace_other kind pre post ci ci2 _ hd j q ke hj, hpe]
              simp [hlt]

theorem markupList_take_mono (cs : List Node) (a b : Nat) (h : a ≤ b) :
    (markupList (cs.take a)).length ≤ (markupList (cs.take b)).length := by
  have : cs.take a = (cs.take b).take a := by
    rw [List.take_take, Nat.min_eq_left h]
  rw [this]
  exact markupList_take_le _ _

theorem markupList_take_mid (pre post : List Node) (ci : Node) (b : Nat)
    (h : pre.length < b) :
    (markupList pre).length + ci.markup.length
      ≤ (markupList ((pre ++ ci :: post).take b)).length := by
  rw [take_mid_gt _ _ _ _ h]
  simp only [markupList_append, markupList_cons, List.length_append]
  omega

/-- The boundaries of a tree lie in its markup in their order. -/
theorem place_mono (c1 : List Nat) : ∀ (top : Node) (o1 : Nat) (c2 : List Nat) (o2 : Nat)
    (pl1 pl2 : Place), top.place c1 o1 = some pl1 → top.place c2 o2 = some pl2 →
    notAfter c1 o1 c2 o2 = true → pl1.pos ≤ pl2.pos := by
  induction c1 with
  | nil =>
    intro top o1 c2 o2 pl1 pl2 h1 h2 hn
    cases top with
    | text data =>
      cases c2 with
      | cons a b => simp [place_text_cons] at h2
      | nil =>
        rw [notAfter_nil_nil] at hn
        simp only [Node.place] at h1 h2
        split_ifs at h1 h2
        simp only [Option.some.injEq] at h1 h2
        subst h1 h2
        exact hn
    | branch kind cs =>
      rw [place_nil] at h1
      split_ifs at h1 with ho1
      simp only [Option.some.injEq] at h1
      subst h1
      cases c2 with
      | nil =>
        rw [notAfter_nil_nil] at hn
        rw [place_nil] at h2
        split_ifs at h2 with ho2
        simp only [Option.some.injEq] at h2
        subst h2
        have := markupList_take_mono cs o1 o2 hn
        simp only
        omega
      | cons k2 p2 =>
        rw [notAfter_nil_cons] at hn
        simp only [Node.place] at h2
        cases hg : cs.get? k2 with
        | none => rw [hg] at h2; simp at h2
        | some ci =>
          rw [hg] at h2
          simp only at h2
          cases hx : ci.place p2 o2 with
          | none => rw [hx] at h2; simp at h2
          | some pl =>
            rw [hx] at h2
            simp only [Option.some.injEq] at h2
            subst h2
            have := markupList_take_mono cs o1 k2 hn
            simp only
            omega
  | cons k1 p1 ih =>
    intro top o1 c2 o2 pl1 pl2 h1 h2 hn
    cases top with
    | text data => simp [place_text_cons] at h1
    | branch kind cs =>
      have hsome : ∃ ci, cs.get? k1 = some ci := by
        simp only [Node.place] at h1
        cases hg : cs.get? k1 with
        | none => rw [hg] at h1; simp at h1
        | some ci => exact ⟨ci, rfl⟩
      obtain ⟨ci, hg⟩ := hsome
      obtain ⟨pre, post, rfl, rfl⟩ := get?_split cs k1 ci hg
      rw [place_mid] at h1
      cases hx : ci.place p1 o1 with
      | none => rw [hx] at h1; simp at h1
      | some pla =>
        rw [hx] at h1
        simp only [Option.some.injEq] at h1
        subst h1
        have hle := place_le p1 ci o1 pla hx
        cases c2 with
        | nil =>
          rw [notAfter_cons_nil] at hn
          rw [place_nil] at h2
          split_ifs at h2 with ho2
          simp only [Option.some.injEq] at h2
          subst h2
          have := markupList_take_mid pre post ci o2 hn
          simp only
          omega
        | cons k2 p2 =>
          rw [notAfter_cons_cons] at hn
          by_cases hk : k2 = pre.length
          · subst hk
            have ht : notAfter p1 o1 p2 o2 = true := by
              rcases hn with hlt | ⟨-, ht⟩
              · omega
              · exact ht
            rw [place_mid] at h2
            cases hy : ci.place p2 o2 with
            | none => rw [hy] at h2; simp at h2
            | some plb =>
              rw [hy] at h2
              simp only [Option.some.injEq] at h2
              subst h2
              have := ih ci o1 p2 o2 pla plb hx hy ht
              simp only
              omega
          · have hlt : pre.length < k2 := by
              rcases hn with hlt | ⟨he, -⟩
              · exact hlt
              · exact absurd he.symm hk
            simp only [Node.place] at h2
            cases hg2 : (pre ++ ci :: post).get? k2 with
            | none => rw [hg2] at h2; simp at h2
            | some cj =>
              rw [hg2] at h2
              simp only at h2
              cases hy : cj.place p2 o2 with
              | none => rw [hy] at h2; simp at h2
              | some plb =>
                rw [hy] at h2
                simp only [Option.some.injEq] at h2
                subst h2
                have := markupList_take_mid pre post ci k2 hlt
                simp only
                omega

theorem isSome_place {top : Node} {c : List Nat} {o : Nat}
    (h : (top.position c o).isSome = true) : ∃ pl, top.place c o = some pl := by
  unfold Node.position at h
  cases hx : top.place c o with
  | none => rw [hx] at h; simp at h
  | some pl => exact ⟨pl, rfl⟩

/-- What `insert` does on a range of the tree: the markup of the tree gets the
left glyph at the position of the start boundary and the right glyph at the
position of the end boundary, behind the left one; nothing else changes. -/
theorem insert_spec (kind : Kind) (cs : List Node) (range : Range)
    (hv : ValidRange (.branch kind cs) range) :
    ∃ cs3 xs xe startContainer endContainer,
      (Node.branch kind cs).position range.startContainer range.startOffset = some xs ∧
      (Node.branch kind cs).position range.endContainer range.endOffset = some xe ∧
      xs ≤ xe ∧
      (Node.branch kind cs).nodeAt range.startContainer = some startContainer ∧
      (Node.branch kind cs).nodeAt range.endContainer = some endContainer ∧
      insert (.branch kind cs) range = some (.branch kind cs3) ∧
      (Node.branch kind cs3).markup
        = putAt (xe + 1) (.char (rightMarkerChar endContainer))
            (putAt xs (.char (leftMarkerChar startContainer)) (Node.branch kind cs).markup) := by
  obtain ⟨v1, v2, hn⟩ := hv
  obtain ⟨ps, hps⟩ := isSome_place v1
  obtain ⟨pe, hpe⟩ := isSome_place v2
  have hmono := place_mono _ _ _ _ _ ps pe hps hpe hn
  have hsn : ∃ sn, (Node.branch kind cs).nodeAt range.startContainer = some sn := by
    rcases place_nodeAt _ _ _ _ hps with ⟨d, h, -⟩ | ⟨k, c, h, -⟩ <;> exact ⟨_, h⟩
  have hen : ∃ en, (Node.branch kind cs).nodeAt range.endContainer = some en := by
    rcases place_nodeAt _ _ _ _ hpe with ⟨d, h, -⟩ | ⟨k, c, h, -⟩ <;> exact ⟨_, h⟩
  obtain ⟨sn, hsn⟩ := hsn
  obtain ⟨en, hen⟩ := hen
  obtain ⟨cs1, range1, g, hsplit, hre, hp1, hp2, hg1, hg2⟩ :=
    splitTextContainers_spec kind cs range ps pe hps hpe
  have hn1 : notAfter range1.startContainer range1.startOffset range1.endContainer
      range1.endOffset = true := by
    have := hre.order _ _ _ _ (by rw [hps]; rfl) (by rw [hpe]; rfl) hn
    rw [hg1, hg2] at this
    exact this
  obtain ⟨cur1, hc1, hcp1⟩ := cursor_place _ kind cs1 _ _ hp1
  obtain ⟨cur2, hc2, hcp2⟩ := cursor_place _ kind cs1 _ _ hp2
  have hk1 := cursor_kind _ kind cs1 _ _ cur1 hp1 hc1
  have hk2 := cursor_kind _ kind cs1 _ _ cur2 hp2 hc2
  have hco := cursor_order _ kind cs1 _ _ _ _ _ cur1 cur2 hp1 hp2 hn1 hc1 hc2
  obtain ⟨cs2, hi1, hm1⟩ := insert_markup cur1.parent kind cs1 cur1.index ps.pos
    (createTextNode [leftMarkerChar sn]) hk1 hcp1
  obtain ⟨hk3, hp3⟩ := shift_place cur1.parent kind cs1 cur1.index
    (createTextNode [leftMarkerChar sn]) cs2 cur2.parent cur2.index pe.pos hi1 hk1 hco hk2 hcp2
  obtain ⟨cs3, hi2, hm2⟩ := insert_markup _ kind cs2 _ _
    (createTextNode [rightMarkerChar en]) hk3 hp3
  refine ⟨cs3, ps.pos, pe.pos, sn, en, by simp [Node.position, hps], by simp [Node.position, hpe],
    hmono, hsn, hen, ?_, ?_⟩
  · unfold insert
    rw [hsn, hen]
    simp only [hsplit, hc1, hc2]
    have : cur1.insert (.branch kind cs1) (createTextNode [leftMarkerChar sn])
        = some (.branch kind cs2) := hi1
    rw [this]
    exact hi2
  · rw [hm2, hm1, hre.markup]
    simp [putAt, createTextNode, Node.markup]

/-! ## The positions of the boundaries `extract` sets -/

theorem markerCount_append (a b : List Sym) :
    markerCount (a ++ b) = markerCount a + markerCount b := by
  simp [markerCount]

theorem markerCount_nil : markerCount [] = 0 := rfl

theorem unmarked_length_cons_marker (s : Sym) (rest : List Sym) (h : s.isMarker = true) :
    unmarked (s :: rest) = unmarked rest := by
  simp [unmarked, h]

theorem unmarked_cons_other (s : Sym) (rest : List Sym) (h : s.isMarker = false) :
    unmarked (s :: rest) = s :: unmarked rest := by
  simp [unmarked, h]

theorem markerCount_cons_marker (s : Sym) (rest : List Sym) (h : s.isMarker = true) :
    markerCount (s :: rest) = markerCount rest + 1 := by
  simp [markerCount, h]

theorem markerCount_cons_other (s : Sym) (rest : List Sym) (h : s.isMarker = false) :
    markerCount (s :: rest) = markerCount rest := by
  simp [markerCount, h]

theorem markerPos_cons_marker (s : Sym) (rest : List Sym) (i : Nat) (h : s.isMarker = true) :
    markerPos (s :: rest) i = if i = 0 then some 0 else markerPos rest (i - 1) := by
  simp [markerPos, h]

theorem markerPos_cons_other (s : Sym) (rest : List Sym) (i : Nat) (h : s.isMarker = false) :
    markerPos (s :: rest) i = (markerPos rest i).map (· + 1) := by
  simp [markerPos, h]

theorem markerPos_none_of_count (seg : List Sym) : ∀ i, markerCount seg ≤ i →
    markerPos seg i = none := by
  induction seg with
  | nil => intro i _; rfl
  | cons s rest ih =>
    intro i h
    cases hs : s.isMarker with
    | true =>
      rw [markerCount_cons_marker s rest hs] at h
      rw [markerPos_cons_marker _ _ _ hs, if_neg (by omega)]
      exact ih (i - 1) (by omega)
    | false =>
      rw [markerCount_cons_other s rest hs] at h
      rw [markerPos_cons_other _ _ _ hs, ih i h]
      rfl

theorem markerPos_append (a b : List Sym) : ∀ i, markerPos (a ++ b) i =
    if i < markerCount a then markerPos a i
    else (markerPos b (i - markerCount a)).map (· + (unmarked a).length) := by
  induction a with
  | nil =>
    intro i
    simp only [List.nil_append, markerCount_nil, Nat.not_lt_zero, if_false, Nat.sub_zero,
      unmarked, List.filter_nil, List.length_nil, Nat.add_zero]
    cases markerPos b i <;> rfl
  | cons s rest ih =>
    intro i
    cases hs : s.isMarker with
    | true =>
      rw [markerCount_cons_marker s rest hs, unmarked_length_cons_marker s rest hs,
        List.cons_append, markerPos_cons_marker _ _ _ hs, markerPos_cons_marker _ _ _ hs]
      by_cases h0 : i = 0
      · simp [h0]
      · rw [if_neg h0, if_neg h0, ih (i - 1)]
        have e : i - (markerCount rest + 1) = i - 1 - markerCount rest := by omega
        rw [e]
        by_cases hlt : i < markerCount rest + 1
        · rw [if_pos hlt, if_pos (by omega)]
        · rw [if_neg hlt, if_neg (by omega)]
    | false =>
      rw [markerCount_cons_other s rest hs, unmarked_cons_other s rest hs,
        List.cons_append, markerPos_cons_other _ _ _ hs, markerPos_cons_other _ _ _ hs]
      rw [ih i]
      by_cases hlt : i < markerCount rest
      · rw [if_pos hlt, if_pos hlt]
      · rw [if_neg hlt, if_neg hlt]
        cases markerPos b (i - markerCount rest) with
        | none => rfl
        | some v => simp only [Option.map_some', List.length_cons, Option.some.injEq]; omega

theorem Track.nothing (here : List Nat) (before : List Node) (st : State) :
    Track here before st [] before st where
  found := by simp [markerCount]
  markup := by simp [unmarked]
  stable := fun _ _ _ _ h => h
  set := by intro idx x _ _ h; simp [markerPos] at h
  keep := fun _ _ _ => rfl

theorem Track.andThen {here : List Nat} {b0 b1 b2 : List Node} {s0 s1 s2 : State}
    {seg1 seg2 : List Sym} (h1 : Track here b0 s0 seg1 b1 s1)
    (h2 : Track here b1 s1 seg2 b2 s2) : Track here b0 s0 (seg1 ++ seg2) b2 s2 where
  found := by rw [h2.found, h1.found, markerCount_append]; omega
  markup := by rw [h2.markup, h1.markup, unmarked_append, List.append_assoc]
  stable := fun kind rel offset pl h => h2.stable kind rel offset pl (h1.stable kind rel offset pl h)
  set := by
    intro idx x hidx hm hx
    rw [markerPos_append] at hx
    by_cases hlt : idx - s0.markersFound < markerCount seg1
    · rw [if_pos hlt] at hx
      obtain ⟨rel, hrel, hk⟩ := h1.set idx x hidx hm hx
      have hkeep := h2.keep idx hidx (Or.inl (by rw [h1.found]; omega))
      refine ⟨rel, by rw [hkeep]; exact hrel, fun kind => ?_⟩
      obtain ⟨e, he⟩ := hk kind
      rw [hkeep]
      exact ⟨e, h2.stable kind rel _ _ he⟩
    · rw [if_neg hlt] at hx
      have e : idx - s0.markersFound - markerCount seg1 = idx - s1.markersFound := by
        rw [h1.found]; omega
      rw [e] at hx
      cases hy : markerPos seg2 (idx - s1.markersFound) with
      | none => rw [hy] at hx; simp at hx
      | some y =>
        rw [hy] at hx
        simp only [Option.map_some', Option.some.injEq] at hx
        obtain ⟨rel, hrel, hk⟩ := h2.set idx y hidx (by rw [h1.found]; omega) hy
        refine ⟨rel, hrel, fun kind => ?_⟩
        obtain ⟨e1, he1⟩ := hk kind
        refine ⟨e1, ?_⟩
        rw [he1, h1.markup, List.length_append, ← hx]
        simp only [Option.some.injEq, Place.mk.injEq, and_true]
        omega
  keep := by
    intro idx hidx h
    rw [h2.keep idx hidx (by rw [h1.found]; rw [markerCount_append] at h; omega),
      h1.keep idx hidx (by rw [markerCount_append] at h; omega)]

theorem place_append (kind : Kind) (before extra : List Node) (rel : List Nat) (o : Nat)
    (pl : Place) (h : (Node.branch kind before).place rel o = some pl) :
    (Node.branch kind (before ++ extra)).place rel o = some pl := by
  cases rel with
  | nil =>
    rw [place_nil] at h ⊢
    split_ifs at h with ho
    rw [if_pos (by rw [List.length_append]; omega), List.take_append_of_le_length ho]
    exact h
  | cons i p =>
    simp only [Node.place] at h ⊢
    cases hg : before.get? i with
    | none => rw [hg] at h; simp at h
    | some c =>
      have hi : i < before.length := by
        rw [List.get?_eq_getElem?] at hg
        exact (List.getElem?_eq_some_iff.1 hg).1
      have : (before ++ extra).get? i = some c := by
        rw [List.get?_eq_getElem?, List.getElem?_append_left hi, ← List.get?_eq_getElem?, hg]
      rw [hg] at h
      rw [this, List.take_append_of_le_length (Nat.le_of_lt hi)]
      exact h

/-- The boundary `setFn` writes, and the one it leaves alone. -/
theorem call_boundary (found : Nat) (marker : List Char) (fn : SetFn)
    (h : chooseSetFn found marker = .ok fn) (range : Range) (container : List Nat)
    (offset idx : Nat) (hidx : idx ≤ 1) :
    (fn.call range container offset).boundary idx =
      if idx = found then (container, offset) else range.boundary idx := by
  rcases chooseSetFn_ok _ _ _ h with ⟨h0, rfl⟩ | ⟨h1, rfl⟩
  · rw [h0]
    by_cases hi : idx = 0
    · simp [hi, SetFn.call, Range.setStart, Range.boundary]
    · simp [hi, SetFn.call, Range.setStart, Range.boundary]
  · rw [h1]
    by_cases hi : idx = 0
    · simp [hi, SetFn.call, Range.setEnd, Range.boundary]
    · have : idx = 1 := by omega
      simp [this, SetFn.call, Range.setEnd, Range.boundary]

/-- The result of `setBoundaryPoint` once its checks pass: new siblings without
markup, and a boundary at the end of the markup of the siblings in front. -/
theorem setBoundaryPoint_place (here : List Nat) (before : List Node) (st : State)
    (marker : List Char) (out : List Node) (st1 : State) (force1 : Bool)
    (h : setBoundaryPoint here before st marker = .ok (out, st1, force1)) :
    ∃ fn rel offset extra, chooseSetFn st.markersFound marker = .ok fn ∧
      out = before ++ extra ∧ markupList extra = [] ∧
      st1 = ⟨st.markersFound + 1, fn.call st.range (here ++ rel) offset⟩ ∧
      ∀ kind, ∃ e, (Node.branch kind out).place rel offset
        = some ⟨1 + (markupList before).length, e⟩ := by
  unfold setBoundaryPoint at h
  cases hch : chooseSetFn st.markersFound marker with
  | error e => rw [hch] at h; simp at h
  | ok fn =>
    rw [hch] at h
    simp only at h
    have newText : ∀ kind, ∃ e, (Node.branch kind (before ++ [createTextNode []])).place
        [before.length] 0 = some ⟨1 + (markupList before).length, e⟩ := by
      intro kind
      rw [place_mid]
      simp [createTextNode, Node.place]
    split_ifs at h with hbr
    · cases hl : before.getLast? with
      | none =>
        rw [hl] at h
        simp only [Except.ok.injEq, Prod.mk.injEq] at h
        obtain ⟨h1, h2, -⟩ := h
        subst h1
        exact ⟨fn, [before.length], 0, [createTextNode []], rfl, rfl,
          by simp [markupList, createTextNode, Node.markup], h2.symm, newText⟩
      | some n =>
        rw [hl] at h
        cases n with
        | text d =>
          simp only [Except.ok.injEq, Prod.mk.injEq] at h
          obtain ⟨h1, h2, -⟩ := h
          subst h1
          refine ⟨fn, [before.length - 1], d.length, [], rfl, by simp, rfl, h2.symm, ?_⟩
          intro kind
          obtain ⟨pre, rfl⟩ := List.getLast?_eq_some_iff.1 hl
          have e1 : (pre ++ [Node.text d]).length - 1 = pre.length := by simp
          rw [e1, place_mid]
          simp [Node.place, markupList_append, markupList_cons, markupList_nil, Node.markup]
          omega
        | branch k cs =>
          simp only [Except.ok.injEq, Prod.mk.injEq] at h
          obtain ⟨h1, h2, -⟩ := h
          subst h1
          exact ⟨fn, [before.length], 0, [createTextNode []], rfl, rfl,
            by simp [markupList, createTextNode, Node.markup], h2.symm, newText⟩
    · simp only [Except.ok.injEq, Prod.mk.injEq] at h
      obtain ⟨h1, h2, -⟩ := h
      subst h1
      refine ⟨fn, [], before.length, [], rfl, by simp, rfl, by rw [List.append_nil]; exact h2.symm,
        ?_⟩
      intro kind
      rw [place_nil]
      simp

/-- The stretch of a Text node that is a single marker. -/
theorem setBoundaryPoint_track (here : List Nat) (before : List Node) (st : State)
    (c : Char) (hc : isMarker c = true) (out : List Node) (st1 : State) (force1 : Bool)
    (h : setBoundaryPoint here before st [c] = .ok (out, st1, force1)) :
    Track here before st [Sym.char c] out st1 := by
  obtain ⟨fn, rel, offset, extra, hch, rfl, hex, rfl, hpl⟩ :=
    setBoundaryPoint_place here before st [c] out st1 force1 h
  have hm : (Sym.char c).isMarker = true := hc
  have hcount : markerCount [Sym.char c] = 1 := by simp [markerCount, hm]
  refine ⟨by simp [hcount], ?_, fun kind r o pl hp => place_append kind before extra r o pl hp,
    ?_, ?_⟩
  · rw [markupList_append, hex, unmarked_length_cons_marker _ _ hm]
    simp [unmarked]
  · intro idx x hidx hmf hx
    have hi : idx = st.markersFound := by
      by_contra hne
      rw [markerPos_none_of_count _ _ (by rw [hcount]; omega)] at hx
      simp at hx
    have hx0 : x = 0 := by
      rw [hi, Nat.sub_self, markerPos_cons_marker _ _ _ hm] at hx
      simpa using hx.symm
    subst hx0
    have hk := call_boundary _ _ fn hch st.range (here ++ rel) offset idx hidx
    rw [if_pos hi] at hk
    refine ⟨rel, ?_, fun kind => ?_⟩
    · show ((fn.call st.range (here ++ rel) offset).boundary idx).1 = here ++ rel
      rw [hk]
    · show ∃ e, (Node.branch kind (before ++ extra)).place rel
        ((fn.call st.range (here ++ rel) offset).boundary idx).2 = _
      rw [hk]
      exact hpl kind
  · intro idx hidx hcase
    have hi : idx ≠ st.markersFound := by rw [hcount] at hcase; omega
    have hk := call_boundary _ _ fn hch st.range (here ++ rel) offset idx hidx
    rw [if_neg hi] at hk
    exact hk

theorem splitInclAux_plain (text : List Char) (h : markerChars text = []) :
    ∀ pending, splitInclAux isMarker pending text
      = if pending ++ text = [] then [] else [pending ++ text] := by
  induction text with
  | nil =>
    intro pending
    simp only [splitInclAux, List.append_nil]
  | cons c cs ih =>
    intro pending
    have hc : isMarker c = false := by
      cases hx : isMarker c with
      | false => rfl
      | true => simp [markerChars, List.filter_cons, hx] at h
    have hcs : markerChars cs = [] := by
      simpa [markerChars, List.filter_cons, hc] using h
    simp only [splitInclAux, hc, Bool.false_eq_true, if_false]
    rw [ih hcs (pending ++ [c])]
    simp

theorem fastPath_of_plain (text : List Char) (h : markerChars text = []) :
    (splitIncl text isMarker).head? ∉ markers.map some ∧ (splitIncl text isMarker).length < 2 := by
  unfold splitIncl
  rw [splitInclAux_plain text h []]
  by_cases ht : text = []
  · simp [ht]
  · simp only [List.nil_append, ht, if_false, List.head?_cons, List.length_singleton]
    refine ⟨?_, by omega⟩
    intro hm
    simp only [List.mem_map, Option.some.injEq] at hm
    obtain ⟨p, hp, rfl⟩ := hm
    obtain ⟨c, rfl, hcm⟩ := (mem_markers_iff _).1 hp
    simp [markerChars, hcm] at h

theorem splitIncl_single (c : Char) (hc : isMarker c = true) :
    splitIncl [c] isMarker = [[c]] := by
  simp [splitIncl, splitInclAux, hc]

theorem plainText_of_plain (text : List Char) (h : markerChars text = []) :
    plainText text = text := by
  simp only [markerChars, List.filter_eq_nil_iff] at h
  simp only [plainText, List.filter_eq_self]
  intro c hc
  simpa using h c hc

theorem markerCount_map_char (text : List Char) :
    markerCount (text.map Sym.char) = (markerChars text).length := by
  induction text with
  | nil => rfl
  | cons c cs ih =>
    cases hc : isMarker c with
    | true =>
      have hm : (Sym.char c).isMarker = true := hc
      rw [List.map_cons, markerCount_cons_marker _ _ hm, ih]
      simp [markerChars, List.filter_cons, hc]
    | false =>
      have hm : (Sym.char c).isMarker = false := hc
      rw [List.map_cons, markerCount_cons_other _ _ hm, ih]
      simp [markerChars, List.filter_cons, hc]

/-- The stretch of a node free of markers that is put behind its siblings as it
is. -/
theorem Track.skip (here : List Nat) (before : List Node) (st : State) (n : Node)
    (h : markerCount n.markup = 0) (hu : unmarked n.markup = n.markup) :
    Track here before st n.markup (before ++ [n]) st where
  found := by rw [h]; rfl
  markup := by rw [markupList_append, markupList_singleton, hu]
  stable := fun kind rel o pl hp => place_append kind before _ rel o pl hp
  set := by
    intro idx x _ _ hx
    rw [markerPos_none_of_count _ _ (by rw [h]; omega)] at hx
    simp at hx
  keep := fun _ _ _ => rfl

theorem extractMarkers_track (here : List Nat) (before : List Node) (st : State)
    (text : List Char) (hiso : (Node.text text).Isolated) (out : List Node) (st1 : State)
    (h : extractMarkers here before st text = (out, st1, none)) :
    Track here before st (Node.text text).markup out st1 := by
  by_cases hplain : markerChars text = []
  · have hf := fastPath_of_plain text hplain
    unfold extractMarkers at h
    simp only at h
    rw [if_pos hf] at h
    simp only [Prod.mk.injEq] at h
    obtain ⟨h1, h2, -⟩ := h
    subst h1 h2
    apply Track.skip
    · rw [Node.markup, markerCount_map_char, hplain]; rfl
    · rw [Node.markup, unmarked_map_char, plainText_of_plain text hplain]
  · have hlen : text.length = 1 := by
      simp only [Node.Isolated] at hiso
      rcases hiso with h0 | h1
      · exact absurd h0 hplain
      · exact h1
    obtain ⟨c, rfl⟩ : ∃ c, text = [c] := by
      match text, hlen with
      | [c], _ => exact ⟨c, rfl⟩
    have hc : isMarker c = true := by
      cases hx : isMarker c with
      | true => rfl
      | false => simp [markerChars, hx] at hplain
    have hmem : [c] ∈ markers := (mem_markers_iff _).2 ⟨c, rfl, hc⟩
    unfold extractMarkers at h
    simp only [splitIncl_single c hc] at h
    have hnf : ¬ (([[c]] : List (List Char)).head? ∉ markers.map some ∧
        ([[c]] : List (List Char)).length < 2) := by
      intro hh
      apply hh.1
      simp only [List.head?_cons, List.mem_map, Option.some.injEq]
      exact ⟨[c], hmem, rfl⟩
    rw [if_neg hnf] at h
    simp only [extractParts, Bool.false_or] at h
    have hx : extractPart here before st true [c] = setBoundaryPoint here before st [c] := by
      simp [extractPart, hmem]
    rw [hx] at h
    cases hs : setBoundaryPoint here before st [c] with
    | error e => rw [hs] at h; simp at h
    | ok r =>
      obtain ⟨b1, s1, f1⟩ := r
      rw [hs] at h
      simp only [Prod.mk.injEq] at h
      obtain ⟨h1, h2, -⟩ := h
      subst h1 h2
      simpa [Node.markup] using setBoundaryPoint_track here before st c hc b1 s1 f1 hs

theorem markerPos_lift (kind : Kind) (seg : List Sym) (i : Nat) :
    markerPos (Sym.opening kind :: (seg ++ [Sym.closing])) i = (markerPos seg i).map (· + 1) := by
  have h1 : (Sym.opening kind).isMarker = false := rfl
  rw [markerPos_cons_other _ _ _ h1, markerPos_append]
  have h2 : markerPos [Sym.closing] (i - markerCount seg) = none := rfl
  by_cases hlt : i < markerCount seg
  · rw [if_pos hlt]
  · rw [if_neg hlt, h2, markerPos_none_of_count seg i (by omega)]
    rfl

/-- The stretch of the children of a node, seen from its parent. -/
theorem Track.raise {here : List Nat} {before : List Node} {st : State} {seg : List Sym}
    {cs1 : List Node} {st1 : State} (kind1 : Kind)
    (h : Track (here ++ [before.length]) [] st seg cs1 st1) :
    Track here before st (Sym.opening kind1 :: (seg ++ [Sym.closing]))
      (before ++ [.branch kind1 cs1]) st1 where
  found := by
    rw [h.found]
    simp [markerCount, Sym.isMarker, List.filter_cons]
  markup := by
    have := h.markup
    simp only [markupList_nil, List.nil_append] at this
    rw [markupList_append, markupList_singleton, Node.markup, this]
    simp [unmarked, Sym.isMarker, List.filter_cons]
  stable := fun kind rel o pl hp => place_append kind before _ rel o pl hp
  set := by
    intro idx x hidx hm hx
    rw [markerPos_lift] at hx
    cases hy : markerPos seg (idx - st.markersFound) with
    | none => rw [hy] at hx; simp at hx
    | some y =>
      rw [hy] at hx
      simp only [Option.map_some', Option.some.injEq] at hx
      obtain ⟨rel, hrel, hk⟩ := h.set idx y hidx hm hy
      refine ⟨before.length :: rel, by rw [hrel]; simp, fun kind => ?_⟩
      obtain ⟨e, he⟩ := hk kind1
      refine ⟨e, ?_⟩
      have e1 : before ++ [Node.branch kind1 cs1] = before ++ Node.branch kind1 cs1 :: [] := rfl
      rw [e1, place_mid, he]
      simp only [markupList_nil, List.length_nil, Option.some.injEq, Place.mk.injEq, and_true]
      omega
  keep := by
    intro idx hidx hcase
    apply h.keep idx hidx
    have : markerCount (Sym.opening kind1 :: (seg ++ [Sym.closing])) = markerCount seg := by
      simp [markerCount, Sym.isMarker, List.filter_cons]
    rw [this] at hcase
    exact hcase

mutual
theorem walkRec_track (here : List Nat) (before : List Node) (st : State) :
    ∀ (node : Node) (out : List Node) (st1 : State), node.Isolated →
      walkRec here before st node = (out, st1, none) →
      Track here before st node.markup out st1
  | .text text, out, st1, hiso, h => by
    simp only [walkRec] at h
    exact extractMarkers_track here before st text hiso out st1 h
  | .branch kind cs, out, st1, hiso, h => by
    simp only [walkRec] at h
    rcases hw : walk (here ++ [before.length]) [] st cs with ⟨cs1, s1, thr⟩
    rw [hw] at h
    simp only [Prod.mk.injEq] at h
    obtain ⟨h1, h2, h3⟩ := h
    subst h1 h2 h3
    simp only [Node.Isolated] at hiso
    rw [Node.markup]
    exact (walk_track (here ++ [before.length]) [] st cs cs1 s1 hiso hw).raise kind
theorem walk_track (here : List Nat) (before : List Node) (st : State) :
    ∀ (nodes : List Node) (out : List Node) (st1 : State), IsolatedList nodes →
      walk here before st nodes = (out, st1, none) →
      Track here before st (markupList nodes) out st1
  | [], out, st1, _, h => by
    simp only [walk, Prod.mk.injEq] at h
    obtain ⟨h1, h2, -⟩ := h
    subst h1 h2
    exact Track.nothing here before st
  | node :: nodes, out, st1, hiso, h => by
    simp only [walk] at h
    simp only [IsolatedList] at hiso
    rcases hw : walkRec here before st node with ⟨b1, s1, _ | e⟩
    · rw [hw] at h
      simp only at h
      rw [markupList_cons]
      exact (walkRec_track here before st node b1 s1 hiso.1 hw).andThen
        (walk_track here b1 s1 nodes out st1 hiso.2 h)
    · rw [hw] at h
      simp at h
end

/-! ## `insert` followed by `extract` -/

theorem isolatedList_append (a b : List Node) :
    IsolatedList (a ++ b) ↔ IsolatedList a ∧ IsolatedList b := by
  induction a with
  | nil => simp [IsolatedList]
  | cons c cs ih => simp [IsolatedList, ih, and_assoc]

theorem isolatedList_take (cs : List Node) (k : Nat) (h : IsolatedList cs) :
    IsolatedList (cs.take k) := by
  rw [← List.take_append_drop k cs, isolatedList_append] at h
  exact h.1

theorem isolatedList_drop (cs : List Node) (k : Nat) (h : IsolatedList cs) :
    IsolatedList (cs.drop k) := by
  rw [← List.take_append_drop k cs, isolatedList_append] at h
  exact h.2

mutual
theorem isolated_of_plain : ∀ node : Node, markerChars node.textContent = [] → node.Isolated
  | .text data, h => by
    simp only [Node.textContent] at h
    exact Or.inl h
  | .branch kind cs, h => by
    simp only [Node.textContent] at h
    simp only [Node.Isolated]
    exact isolatedList_of_plain cs h
theorem isolatedList_of_plain : ∀ nodes : List Node,
    markerChars (textContentList nodes) = [] → IsolatedList nodes
  | [], _ => trivial
  | node :: nodes, h => by
    simp only [textContentList, markerChars_append, List.append_eq_nil] at h
    exact ⟨isolated_of_plain node h.1, isolatedList_of_plain nodes h.2⟩
end

theorem isolated_nodeAt (p : List Nat) : ∀ (top n : Node), top.Isolated →
    top.nodeAt p = some n → n.Isolated := by
  induction p with
  | nil =>
    intro top n h hn
    simp only [Node.nodeAt, Option.some.injEq] at hn
    subst hn
    exact h
  | cons i q ih =>
    intro top n h hn
    cases top with
    | text d => simp [Node.nodeAt] at hn
    | branch kind cs =>
      obtain ⟨pre, post, c, rfl, -, hc⟩ := nodeAt_cons kind cs i q n hn
      simp only [Node.Isolated, isolatedList_append, IsolatedList] at h
      exact ih c n h.2.1 hc

theorem updateAt_isolated (f : List Node → List Node)
    (hf : ∀ cs, IsolatedList cs → IsolatedList (f cs)) (p : List Nat) :
    ∀ (top top1 : Node), top.Isolated → Node.updateAt f p top = some top1 → top1.Isolated := by
  induction p with
  | nil =>
    intro top top1 h hu
    cases top with
    | text d => simp [Node.updateAt] at hu
    | branch kind cs =>
      rw [updateAt_nil] at hu
      simp only [Option.some.injEq] at hu
      subst hu
      simp only [Node.Isolated] at h ⊢
      exact hf cs h
  | cons i q ih =>
    intro top top1 h hu
    cases top with
    | text d => simp [Node.updateAt] at hu
    | branch kind cs =>
      rw [Node.updateAt] at hu
      cases hg : cs.get? i with
      | none => rw [hg] at hu; simp at hu
      | some c =>
        rw [hg] at hu
        simp only at hu
        cases hc : Node.updateAt f q c with
        | none => rw [hc] at hu; simp at hu
        | some c1 =>
          rw [hc] at hu
          simp only [Option.some.injEq] at hu
          subst hu
          obtain ⟨pre, post, rfl, rfl⟩ := get?_split cs i c hg
          rw [set_mid]
          simp only [Node.Isolated, isolatedList_append, IsolatedList] at h ⊢
          exact ⟨h.1, ih c c1 h.2.1 hc, h.2.2⟩

theorem markerChars_take (data : List Char) (k : Nat) (h : markerChars data = []) :
    markerChars (data.take k) = [] := by
  rw [← List.take_append_drop k data, markerChars_append, List.append_eq_nil] at h
  exact h.1

theorem markerChars_drop (data : List Char) (k : Nat) (h : markerChars data = []) :
    markerChars (data.drop k) = [] := by
  rw [← List.take_append_drop k data, markerChars_append, List.append_eq_nil] at h
  exact h.2

theorem splitTextContainer_isolated (top : Node) (range : Range) (container : List Nat)
    (offset : Nat) (top1 : Node) (range1 : Range) (h : top.Isolated)
    (hs : splitTextContainer top range container offset = some (top1, range1)) :
    top1.Isolated := by
  unfold splitTextContainer at hs
  cases hn : top.nodeAt container with
  | none => rw [hn] at hs; simp at hs
  | some n =>
    rw [hn] at hs
    cases n with
    | branch kind cs =>
      simp only [Option.some.injEq, Prod.mk.injEq] at hs
      rw [← hs.1]; exact h
    | text data =>
      simp only at hs
      split_ifs at hs with hin
      · cases hl : container.getLast? with
        | none => rw [hl] at hs; simp at hs
        | some index =>
          rw [hl] at hs
          simp only at hs
          cases hu : Node.updateAt (splitChild index offset data) container.dropLast top with
          | none => rw [hu] at hs; simp at hs
          | some t =>
            rw [hu] at hs
            simp only [Option.some.injEq, Prod.mk.injEq] at hs
            rw [← hs.1]
            have hd : markerChars data = [] := by
              have := isolated_nodeAt container top _ h hn
              simp only [Node.Isolated] at this
              rcases this with h0 | h1
              · exact h0
              · omega
            apply updateAt_isolated _ _ container.dropLast top t h hu
            intro cs hcs
            simp only [splitChild, isolatedList_append, IsolatedList, Node.Isolated, and_true]
            exact ⟨⟨isolatedList_take cs index hcs, Or.inl (markerChars_take data offset hd),
              Or.inl (markerChars_drop data offset hd)⟩, isolatedList_drop cs _ hcs⟩
      · simp only [Option.some.injEq, Prod.mk.injEq] at hs
        rw [← hs.1]; exact h

theorem insertBefore_isolated (c : Char) (index : Nat) (cs : List Node) (h : IsolatedList cs) :
    IsolatedList (insertBefore (createTextNode [c]) index cs) := by
  simp only [insertBefore, isolatedList_append, IsolatedList, Node.Isolated, createTextNode,
    List.length_singleton, or_true, and_true, true_and]
  exact ⟨isolatedList_take cs index h, isolatedList_drop cs index h⟩

/-- The tree `insert` makes of a tree whose markers are isolated is such a
tree: the two markers are Text nodes of their own. -/
theorem insert_isolated (top : Node) (range : Range) (top3 : Node) (h : top.Isolated)
    (hi : insert top range = some top3) : top3.Isolated := by
  unfold insert at hi
  cases hsn : top.nodeAt range.startContainer with
  | none => rw [hsn] at hi; simp at hi
  | some sn =>
    cases hen : top.nodeAt range.endContainer with
    | none => rw [hsn, hen] at hi; simp at hi
    | some en =>
      rw [hsn, hen] at hi
      simp only at hi
      cases hsp : splitTextContainers top range with
      | none => rw [hsp] at hi; simp at hi
      | some r =>
        obtain ⟨top1, range1⟩ := r
        rw [hsp] at hi
        simp only at hi
        have h1 : top1.Isolated := by
          unfold splitTextContainers at hsp
          cases ha : splitTextContainer top range range.startContainer range.startOffset with
          | none => rw [ha] at hsp; simp at hsp
          | some ra =>
            obtain ⟨ta, rga⟩ := ra
            rw [ha] at hsp
            simp only at hsp
            exact splitTextContainer_isolated ta rga _ _ top1 range1
              (splitTextContainer_isolated top range _ _ ta rga h ha) hsp
        cases hc1 : cursorFromBoundaryPoint top1 range1.startContainer range1.startOffset with
        | none => rw [hc1] at hi; simp at hi
        | some cur1 =>
          cases hc2 : cursorFromBoundaryPoint top1 range1.endContainer range1.endOffset with
          | none => rw [hc1, hc2] at hi; simp at hi
          | some cur2 =>
            rw [hc1, hc2] at hi
            simp only at hi
            cases hi1 : cur1.insert top1 (createTextNode [leftMarkerChar sn]) with
            | none => rw [hi1] at hi; simp at hi
            | some top2 =>
              rw [hi1] at hi
              simp only at hi
              have h2 : top2.Isolated :=
                updateAt_isolated _ (fun cs hcs => insertBefore_isolated _ _ cs hcs) _ top1 top2
                  h1 hi1
              exact updateAt_isolated _ (fun cs hcs => insertBefore_isolated _ _ cs hcs) _ top2
                top3 h2 hi

theorem markerCount_charsOf (syms : List Sym) :
    markerCount syms = (markerChars (charsOf syms)).length := by
  induction syms with
  | nil => rfl
  | cons s rest ih =>
    cases s with
    | opening k =>
      have e2 : charsOf (Sym.opening k :: rest) = charsOf rest := rfl
      rw [markerCount_cons_other (Sym.opening k) rest rfl, e2, ih]
    | closing =>
      have e2 : charsOf (Sym.closing :: rest) = charsOf rest := rfl
      rw [markerCount_cons_other Sym.closing rest rfl, e2, ih]
    | char c =>
      have e2 : charsOf (Sym.char c :: rest) = c :: charsOf rest := rfl
      rw [e2]
      cases hc : isMarker c with
      | true =>
        rw [markerCount_cons_marker _ _ (show (Sym.char c).isMarker = true from hc), ih]
        simp [markerChars, List.filter_cons, hc]
      | false =>
        rw [markerCount_cons_other _ _ (show (Sym.char c).isMarker = false from hc), ih]
        simp [markerChars, List.filter_cons, hc]

theorem unmarked_of_count (syms : List Sym) (h : markerCount syms = 0) : unmarked syms = syms := by
  simp only [markerCount, List.length_eq_zero, List.filter_eq_nil_iff] at h
  simp only [unmarked, List.filter_eq_self]
  intro s hs
  simpa using h s hs

theorem markerCount_take (syms : List Sym) (k : Nat) (h : markerCount syms = 0) :
    markerCount (syms.take k) = 0 := by
  rw [← List.take_append_drop k syms, markerCount_append] at h
  omega

theorem markerCount_drop (syms : List Sym) (k : Nat) (h : markerCount syms = 0) :
    markerCount (syms.drop k) = 0 := by
  rw [← List.take_append_drop k syms, markerCount_append] at h
  omega

theorem putAt_putAt (M : List Sym) (xs xe : Nat) (l r : Sym) (h : xs ≤ xe) (hs : xs ≤ M.length) :
    putAt (xe + 1) r (putAt xs l M)
      = M.take xs ++ l :: ((M.drop xs).take (xe - xs) ++ r :: M.drop xe) := by
  have hl : (M.take xs).length = xs := by simp [hs]
  unfold putAt
  have e1 : xe + 1 - (M.take xs).length - 1 = xe - xs := by rw [hl]; omega
  rw [take_mid_gt _ _ _ _ (by rw [hl]; omega), e1]
  have e2 : (M.take xs ++ l :: M.drop xs).drop (xe + 1) = M.drop xe := by
    rw [List.drop_append_eq_append_drop, hl, List.drop_of_length_le (by rw [hl]; omega)]
    have : xe + 1 - xs = (xe - xs) + 1 := by omega
    rw [this, List.nil_append, List.drop_succ_cons, List.drop_drop]
    congr 1
    omega
  rw [e2]
  simp

/-- The markup with two markers put in a markup free of markers. -/
theorem marked_facts (A B C : List Sym) (l r : Char) (hA : markerCount A = 0)
    (hB : markerCount B = 0) (hC : markerCount C = 0) (hl : isMarker l = true)
    (hr : isMarker r = true) :
    markerPos (A ++ Sym.char l :: (B ++ Sym.char r :: C)) 0 = some A.length ∧
    markerPos (A ++ Sym.char l :: (B ++ Sym.char r :: C)) 1 = some (A.length + B.length) ∧
    unmarked (A ++ Sym.char l :: (B ++ Sym.char r :: C)) = A ++ (B ++ C) ∧
    markerChars (charsOf (A ++ Sym.char l :: (B ++ Sym.char r :: C))) = [l, r] := by
  have ml : (Sym.char l).isMarker = true := hl
  have mr : (Sym.char r).isMarker = true := hr
  have cA : markerChars (charsOf A) = [] := by
    rw [markerCount_charsOf] at hA; exact List.length_eq_zero.1 hA
  have cB : markerChars (charsOf B) = [] := by
    rw [markerCount_charsOf] at hB; exact List.length_eq_zero.1 hB
  have cC : markerChars (charsOf C) = [] := by
    rw [markerCount_charsOf] at hC; exact List.length_eq_zero.1 hC
  refine ⟨?_, ?_, ?_, ?_⟩
  · rw [markerPos_append, hA, if_neg (by omega), markerPos_cons_marker _ _ _ ml,
      unmarked_of_count A hA]
    simp
  · rw [markerPos_append, hA, if_neg (by omega), markerPos_cons_marker _ _ _ ml,
      unmarked_of_count A hA]
    simp only [Nat.sub_zero, one_ne_zero, if_false, Nat.sub_self]
    rw [markerPos_append, hB, if_neg (by omega), markerPos_cons_marker _ _ _ mr,
      unmarked_of_count B hB]
    simp
    omega
  · have e1 : A ++ Sym.char l :: (B ++ Sym.char r :: C)
        = A ++ ([Sym.char l] ++ (B ++ ([Sym.char r] ++ C))) := by simp
    rw [e1]
    simp only [unmarked_append, unmarked_of_count A hA, unmarked_of_count B hB,
      unmarked_of_count C hC]
    simp [unmarked, ml, mr]
  · have e1 : A ++ Sym.char l :: (B ++ Sym.char r :: C)
        = A ++ ([Sym.char l] ++ (B ++ ([Sym.char r] ++ C))) := by simp
    rw [e1]
    simp only [charsOf_append, markerChars_append, cA, cB, cC]
    simp [charsOf, markerChars, hl, hr]

theorem extract_ok (kind : Kind) (cs : List Node) (range : Range)
    (h : (extract (.branch kind cs) range).thrown = none) :
    ∃ cs4 st, walk [] [] ⟨0, range⟩ cs = (cs4, st, none) ∧
      extract (.branch kind cs) range = ⟨.branch kind cs4, st.range, none⟩ := by
  unfold extract at h ⊢
  rcases hw : walk [] [] ⟨0, range⟩ cs with ⟨cs4, st, _ | e⟩
  · simp only [hw] at h ⊢
    split_ifs at h ⊢
    exact ⟨cs4, st, rfl, rfl⟩
  · simp [hw] at h

theorem leftMarkerChar_glyph (n : Node) :
    isStartGlyph (leftMarkerChar n) = true ∧ isMarker (leftMarkerChar n) = true := by
  unfold leftMarkerChar
  split_ifs <;> exact ⟨by decide, by decide⟩

theorem rightMarkerChar_glyph (n : Node) :
    isEndGlyph (rightMarkerChar n) = true ∧ isMarker (rightMarkerChar n) = true := by
  unfold rightMarkerChar
  split_ifs <;> exact ⟨by decide, by decide⟩

theorem position_place {top : Node} {c : List Nat} {o x : Nat}
    (h : top.position c o = some x) : ∃ e, top.place c o = some ⟨x, e⟩ := by
  unfold Node.position at h
  cases hx : top.place c o with
  | none => rw [hx] at h; simp at h
  | some pl =>
    rw [hx] at h
    simp only [Option.map_some', Option.some.injEq] at h
    subst h
    exact ⟨pl.edge, rfl⟩

/-- The kind of a boundary of the tree is that of its container. -/
theorem boundaryKind_of_position (top : Node) (c : List Nat) (o x : Nat) (n : Node)
    (h : top.position c o = some x) (hn : top.nodeAt c = some n) :
    top.boundaryKind c o = some (decide (Nodes.TEXT = n.nodeType)) := by
  obtain ⟨e, he⟩ := position_place h
  unfold Node.boundaryKind
  rcases place_nodeAt c top o _ he with ⟨data, hd, ho, -⟩ | ⟨kind, cs, hd, ho, -⟩
  · rw [hd] at hn ⊢
    simp only [Option.some.injEq] at hn
    subst hn
    simp [ho, Node.nodeType]
  · rw [hd] at hn ⊢
    simp only [Option.some.injEq] at hn
    subst hn
    cases kind <;> simp [ho, Node.nodeType, Nodes.TEXT, Nodes.ELEMENT,
      Nodes.DOCUMENT_FRAGMENT, Nodes.DOCUMENT]

/-- The round trip on a tree free of marker characters: `insert` on a range of
the tree followed by `extract` returns, gives back the markup of the tree, and
sets each boundary at the position in the markup, and of the kind, of the
boundary of the range. -/
theorem insert_extract (kind : Kind) (cs : List Node) (range range0 : Range)
    (hplain : markerChars (Node.branch kind cs).textContent = [])
    (hv : ValidRange (.branch kind cs) range) :
    ∃ top3, insert (.branch kind cs) range = some top3 ∧
      (extract top3 range0).thrown = none ∧
      (extract top3 range0).rootElem.markup = (Node.branch kind cs).markup ∧
      (extract top3 range0).rootElem.position (extract top3 range0).range.startContainer
          (extract top3 range0).range.startOffset
        = (Node.branch kind cs).position range.startContainer range.startOffset ∧
      (extract top3 range0).rootElem.position (extract top3 range0).range.endContainer
          (extract top3 range0).range.endOffset
        = (Node.branch kind cs).position range.endContainer range.endOffset ∧
      (extract top3 range0).rootElem.boundaryKind (extract top3 range0).range.startContainer
          (extract top3 range0).range.startOffset
        = (Node.branch kind cs).boundaryKind range.startContainer range.startOffset ∧
      (extract top3 range0).rootElem.boundaryKind (extract top3 range0).range.endContainer
          (extract top3 range0).range.endOffset
        = (Node.branch kind cs).boundaryKind range.endContainer range.endOffset := by
  obtain ⟨cs3, xs, xe, sn, en, hposS, hposE, hle, hsn, hen, hins, hM3⟩ :=
    insert_spec kind cs range hv
  obtain ⟨gl1, gl2⟩ := leftMarkerChar_glyph sn
  obtain ⟨gr1, gr2⟩ := rightMarkerChar_glyph en
  obtain ⟨e1, hp1⟩ := position_place hposS
  obtain ⟨e2, hp2⟩ := position_place hposE
  have hb1 := place_le _ _ _ _ hp1
  have hb2 := place_le _ _ _ _ hp2
  simp only at hb1 hb2
  -- the markup of the tree is free of markers
  have hM0 : markerCount (Node.branch kind cs).markup = 0 := by
    rw [markerCount_charsOf, charsOf_markup, hplain]; rfl
  generalize hM : (Node.branch kind cs).markup = M at hM3 hb1 hb2 hM0
  rw [putAt_putAt M xs xe _ _ hle hb1] at hM3
  obtain ⟨f0, f1, f2, f3⟩ := marked_facts (M.take xs) ((M.drop xs).take (xe - xs)) (M.drop xe)
    (leftMarkerChar sn) (rightMarkerChar en) (markerCount_take M xs hM0)
    (markerCount_take _ _ (markerCount_drop M xs hM0)) (markerCount_drop M xe hM0) gl2 gr2
  rw [← hM3] at f0 f1 f2 f3
  have hlenA : (M.take xs).length = xs := by simp [hb1]
  have hlenB : ((M.drop xs).take (xe - xs)).length = xe - xs := by
    simp only [List.length_take, List.length_drop]; omega
  have hABC : M.take xs ++ ((M.drop xs).take (xe - xs) ++ M.drop xe) = M := by
    have : M.drop xe = (M.drop xs).drop (xe - xs) := by
      rw [List.drop_drop]; congr 1; omega
    rw [this, List.take_append_drop, List.take_append_drop]
  rw [hlenA] at f0
  rw [hlenA, hlenB] at f1
  rw [hABC] at f2
  rw [charsOf_markup] at f3
  -- `extract` returns
  have hret : (extract (.branch kind cs3) range0).thrown = none :=
    (thrown_none_iff kind cs3 range0).2 ⟨_, _, f3, gl1, gr1⟩
  have hmk := extract_markup kind cs3 range0 hret
  rw [f2] at hmk
  -- the kinds, by the glyphs
  obtain ⟨a, b, hab, hka, hkb⟩ := extract_kinds kind cs3 range0 hret
  rw [f3] at hab
  simp only [List.cons.injEq, and_true] at hab
  obtain ⟨rfl, rfl⟩ := hab
  have hks := boundaryKind_of_position _ _ _ _ sn hposS hsn
  have hke := boundaryKind_of_position _ _ _ _ en hposE hen
  have ga : (leftMarkerChar sn == '[') = decide (Nodes.TEXT = sn.nodeType) := by
    unfold leftMarkerChar
    split_ifs with h <;> simp [h]
  have gb : (rightMarkerChar en == ']') = decide (Nodes.TEXT = en.nodeType) := by
    unfold rightMarkerChar
    split_ifs with h <;> simp [h]
  -- the positions, by the traversal
  have hiso : (Node.branch kind cs3).Isolated :=
    insert_isolated _ range _ (isolated_of_plain _ hplain) hins
  simp only [Node.Isolated] at hiso
  obtain ⟨cs4, st, hw, hex⟩ := extract_ok kind cs3 range0 hret
  have htr := walk_track [] [] ⟨0, range0⟩ cs3 cs4 st hiso hw
  have hmp : ∀ i, markerPos (Node.branch kind cs3).markup i
      = (markerPos (markupList cs3) i).map (· + 1) := fun i => markerPos_lift kind _ i
  have pos : ∀ idx x, idx ≤ 1 → markerPos (Node.branch kind cs3).markup idx = some x →
      (Node.branch kind cs4).position (st.range.boundary idx).1 (st.range.boundary idx).2
        = some x := by
    intro idx x hidx hx
    rw [hmp] at hx
    cases hy : markerPos (markupList cs3) idx with
    | none => rw [hy] at hx; simp at hx
    | some y =>
      rw [hy] at hx
      simp only [Option.map_some', Option.some.injEq] at hx
      obtain ⟨rel, hrel, hk⟩ := htr.set idx y hidx (Nat.zero_le _) (by simpa using hy)
      obtain ⟨e, he⟩ := hk kind
      rw [List.nil_append] at hrel
      rw [hrel]
      unfold Node.position
      rw [he]
      simp only [markupList_nil, List.length_nil, Option.map_some', Option.some.injEq]
      omega
  have ps := pos 0 xs (by omega) f0
  have pe := pos 1 (xs + (xe - xs)) (by omega) f1
  have hxe : xs + (xe - xs) = xe := by omega
  rw [hxe] at pe
  simp only [Range.boundary, if_true, one_ne_zero, if_false] at ps pe
  refine ⟨.branch kind cs3, hins, hret, ?_, ?_, ?_, ?_, ?_⟩
  · rw [hmk]
  · rw [hex]; simp only; rw [ps, hposS]
  · rw [hex]; simp only; rw [pe, hposE]
  · rw [hka, hks, ga]
  · rw [hkb, hke, gb]

/-! ## The claims on `insert` and on the round trip -/

/-- C3: `insert` on a range of the tree puts two characters in the markup of
the tree and changes nothing else: at the start boundary '[' when the start
container is a Text node and '{' when it is a node of another kind, and at the
end boundary, behind it, ']' when the end container is a Text node and '}'
otherwise. -/
theorem insert_glyphs (kind : Kind) (cs : List Node) (range : Range)
    (hv : ValidRange (.branch kind cs) range) :
    ∃ top3 xs xe startContainer endContainer,
      (Node.branch kind cs).nodeAt range.startContainer = some startContainer ∧
      (Node.branch kind cs).nodeAt range.endContainer = some endContainer ∧
      (Node.branch kind cs).position range.startContainer range.startOffset = some xs ∧
      (Node.branch kind cs).position range.endContainer range.endOffset = some xe ∧
      xs ≤ xe ∧
      insert (.branch kind cs) range = some top3 ∧
      top3.markup
        = putAt (xe + 1) (.char (if Nodes.TEXT = endContainer.nodeType then ']' else '}'))
            (putAt xs (.char (if Nodes.TEXT = startContainer.nodeType then '[' else '{'))
              (Node.branch kind cs).markup) := by
  obtain ⟨cs3, xs, xe, sn, en, h1, h2, h3, h4, h5, h6, h7⟩ := insert_spec kind cs range hv
  exact ⟨_, xs, xe, sn, en, h4, h5, h1, h2, h3, h6, h7⟩

/-- The witness of C3: `<div><a></a>text</div>` with the range from in front
of the Text node to offset 2 in it. -/
theorem insert_glyphs_witness :
    ∃ top3 xs xe startContainer endContainer,
      (Node.branch (.element "div") [.branch (.element "a") [], .text "text".toList]).nodeAt []
        = some startContainer ∧
      (Node.branch (.element "div") [.branch (.element "a") [], .text "text".toList]).nodeAt [1]
        = some endContainer ∧
      (Node.branch (.element "div") [.branch (.element "a") [], .text "text".toList]).position
        [] 1 = some xs ∧
      (Node.branch (.element "div") [.branch (.element "a") [], .text "text".toList]).position
        [1] 2 = some xe ∧
      xs ≤ xe ∧
      insert (.branch (.element "div") [.branch (.element "a") [], .text "text".toList])
        ⟨[], 1, [1], 2⟩ = some top3 ∧
      top3.markup
        = putAt (xe + 1) (.char (if Nodes.TEXT = endContainer.nodeType then ']' else '}'))
            (putAt xs (.char (if Nodes.TEXT = startContainer.nodeType then '[' else '{'))
              (Node.branch (.element "div")
                [.branch (.element "a") [], .text "text".toList]).markup) :=
  insert_glyphs (.element "div") [.branch (.element "a") [], .text "text".toList]
    ⟨[], 1, [1], 2⟩ ⟨by decide, by decide, by decide⟩

/-- The counterexample to C1: in `<p>hello world</p>` the range from offset 2
to offset 8 of the Text node comes back as the range from offset 2 of the
first Text node to offset 6 of the second one, since the Text nodes `insert`
has split stay split; and in `<p>a[b</p>`, whose text holds a marker
character, `extract` throws. -/
theorem roundtrip_selection_counterexample :
    (∃ top3, insert (.branch (.element "p") [.text "hello world".toList]) ⟨[0], 2, [0], 8⟩
        = some top3 ∧
      (extract top3 ⟨[], 0, [], 0⟩).thrown = none ∧
      (extract top3 ⟨[], 0, [], 0⟩).range = ⟨[0], 2, [1], 6⟩ ∧
      (extract top3 ⟨[], 0, [], 0⟩).range ≠ ⟨[0], 2, [0], 8⟩) ∧
    (∃ top3, insert (.branch (.element "p") [.text "a[b".toList]) ⟨[0], 0, [0], 0⟩
        = some top3 ∧
      (extract top3 ⟨[], 0, [], 0⟩).thrown = some (.message "Too many markers")) :=
  ⟨⟨.branch (.element "p") [.text "he".toList, .text "[".toList, .text "llo wo".toList,
      .text "]".toList, .text "rld".toList], by rfl, by decide, by decide, by decide⟩,
    ⟨.branch (.element "p") [.text "[".toList, .text "]".toList, .text "a[b".toList],
      by rfl, by decide⟩⟩

/-- C1, amended: on a tree free of marker characters, `insert` on a range of
the tree followed by `extract` returns, and each boundary it sets lies at the
position in the markup of the tree (which is the markup before `insert`) at
which the boundary of the range lay, with a container of the same kind. -/
theorem roundtrip_selection (kind : Kind) (cs : List Node) (range range0 : Range)
    (hplain : markerChars (Node.branch kind cs).textContent = [])
    (hv : ValidRange (.branch kind cs) range) :
    ∃ top3, insert (.branch kind cs) range = some top3 ∧
      (extract top3 range0).thrown = none ∧
      (extract top3 range0).rootElem.markup = (Node.branch kind cs).markup ∧
      (extract top3 range0).rootElem.position (extract top3 range0).range.startContainer
          (extract top3 range0).range.startOffset
        = (Node.branch kind cs).position range.startContainer range.startOffset ∧
      (extract top3 range0).rootElem.position (extract top3 range0).range.endContainer
          (extract top3 range0).range.endOffset
        = (Node.branch kind cs).position range.endContainer range.endOffset ∧
      (extract top3 range0).rootElem.boundaryKind (extract top3 range0).range.startContainer
          (extract top3 range0).range.startOffset
        = (Node.branch kind cs).boundaryKind range.startContainer range.startOffset ∧
      (extract top3 range0).rootElem.boundaryKind (extract top3 range0).range.endContainer
          (extract top3 range0).range.endOffset
        = (Node.branch kind cs).boundaryKind range.endContainer range.endOffset :=
  insert_extract kind cs range range0 hplain hv

/-- The witness of C1, amended: `<p>hello world</p>`, offsets 2 and 8. -/
theorem roundtrip_selection_witness :
    ∃ top3, insert (.branch (.element "p") [.text "hello world".toList]) ⟨[0], 2, [0], 8⟩
        = some top3 ∧
      (extract top3 ⟨[], 0, [], 0⟩).thrown = none ∧
      (extract top3 ⟨[], 0, [], 0⟩).rootElem.markup
        = (Node.branch (.element "p") [.text "hello world".toList]).markup ∧
      (extract top3 ⟨[], 0, [], 0⟩).rootElem.position
          (extract top3 ⟨[], 0, [], 0⟩).range.startContainer
          (extract top3 ⟨[], 0, [], 0⟩).range.startOffset
        = (Node.branch (.element "p") [.text "hello world".toList]).position [0] 2 ∧
      (extract top3 ⟨[], 0, [], 0⟩).rootElem.position
          (extract top3 ⟨[], 0, [], 0⟩).range.endContainer
          (extract top3 ⟨[], 0, [], 0⟩).range.endOffset
        = (Node.branch (.element "p") [.text "hello world".toList]).position [0] 8 ∧
      (extract top3 ⟨[], 0, [], 0⟩).rootElem.boundaryKind
          (extract top3 ⟨[], 0, [], 0⟩).range.startContainer
          (extract top3 ⟨[], 0, [], 0⟩).range.startOffset
        = (Node.branch (.element "p") [.text "hello world".toList]).boundaryKind [0] 2 ∧
      (extract top3 ⟨[], 0, [], 0⟩).rootElem.boundaryKind
          (extract top3 ⟨[], 0, [], 0⟩).range.endContainer
          (extract top3 ⟨[], 0, [], 0⟩).range.endOffset
        = (Node.branch (.element "p") [.text "hello world".toList]).boundaryKind [0] 8 :=
  roundtrip_selection (.element "p") [.text "hello world".toList] ⟨[0], 2, [0], 8⟩
    ⟨[], 0, [], 0⟩ (by decide) ⟨by decide, by decide, by decide⟩

/-- The counterexample to C6: `<p>a]b</p>` with the collapsed range at offset
0 of the Text node; `extract` meets a third marker, throws, and leaves the text
"aa]b". -/
theorem roundtrip_text_counterexample :
    ∃ top3, insert (.branch (.element "p") [.text "a]b".toList]) ⟨[0], 0, [0], 0⟩
        = some top3 ∧
      (extract top3 ⟨[], 0, [], 0⟩).thrown = some (.message "Too many markers") ∧
      (extract top3 ⟨[], 0, [], 0⟩).rootElem.textContent = "aa]b".toList ∧
      (extract top3 ⟨[], 0, [], 0⟩).rootElem.textContent
        ≠ (Node.branch (.element "p") [.text "a]b".toList]).textContent :=
  ⟨.branch (.element "p") [.text "[".toList, .text "]".toList, .text "a]b".toList],
    by rfl, by decide, by decide, by decide⟩

/-- C6, amended: on a tree free of marker characters, `insert` on a range of
the tree followed by `extract` returns and leaves the text of the tree as it
was, character for character, wherever the boundaries sit. -/
theorem roundtrip_text (kind : Kind) (cs : List Node) (range range0 : Range)
    (hplain : markerChars (Node.branch kind cs).textContent = [])
    (hv : ValidRange (.branch kind cs) range) :
    ∃ top3, insert (.branch kind cs) range = some top3 ∧
      (extract top3 range0).thrown = none ∧
      (extract top3 range0).rootElem.textContent = (Node.branch kind cs).textContent := by
  obtain ⟨top3, h1, h2, h3, -⟩ := insert_extract kind cs range range0 hplain hv
  refine ⟨top3, h1, h2, ?_⟩
  rw [← charsOf_markup, h3, charsOf_markup]

/-- The witness of C6, amended: `<p>abXcd</p>` with the markers around `X`. -/
theorem roundtrip_text_witness :
    ∃ top3, insert (.branch (.element "p") [.text "abXcd".toList]) ⟨[0], 2, [0], 3⟩
        = some top3 ∧
      (extract top3 ⟨[], 0, [], 0⟩).thrown = none ∧
      (extract top3 ⟨[], 0, [], 0⟩).rootElem.textContent
        = (Node.branch (.element "p") [.text "abXcd".toList]).textContent :=
  roundtrip_text (.element "p") [.text "abXcd".toList] ⟨[0], 2, [0], 3⟩ ⟨[], 0, [], 0⟩
    (by decide) ⟨by decide, by decide, by decide⟩

theorem markup_one_text (kind : Kind) (s : List Char) :
    (Node.branch kind [.text s]).markup = Sym.opening kind :: (s.map Sym.char ++ [Sym.closing]) := by
  simp [Node.markup, markupList]

theorem take_markup_one_text (kind : Kind) (s : List Char) (k : Nat) (hk : k ≤ s.length) :
    (Sym.opening kind :: (s.map Sym.char ++ [Sym.closing])).take (k + 1)
      = Sym.opening kind :: (s.take k).map Sym.char := by
  rw [List.take_succ_cons, List.take_append_of_le_length (by simpa using hk), List.map_take]

theorem drop_markup_one_text (kind : Kind) (s : List Char) (k : Nat) (hk : k ≤ s.length) :
    (Sym.opening kind :: (s.map Sym.char ++ [Sym.closing])).drop (k + 1)
      = (s.drop k).map Sym.char ++ [Sym.closing] := by
  rw [List.drop_succ_cons, List.drop_append_of_le_length (by simpa using hk), List.map_drop]

theorem charsOf_opening (kind : Kind) (l : List Sym) :
    charsOf (Sym.opening kind :: l) = charsOf l := rfl

theorem charsOf_closing : charsOf [Sym.closing] = [] := rfl

theorem charsOf_char (c : Char) (l : List Sym) : charsOf (Sym.char c :: l) = c :: charsOf l := rfl

theorem position_one_text (kind : Kind) (s : List Char) (k : Nat) (hk : k ≤ s.length) :
    (Node.branch kind [.text s]).position [0] k = some (k + 1) := by
  simp [Node.position, Node.place, hk, markupList]
  omega

theorem validRange_one_text (kind : Kind) (s : List Char) (i j : Nat) (hij : i ≤ j)
    (hj : j ≤ s.length) : ValidRange (.branch kind [.text s]) ⟨[0], i, [0], j⟩ := by
  refine ⟨?_, ?_, ?_⟩
  · rw [position_one_text kind s i (by omega)]; rfl
  · rw [position_one_text kind s j hj]; rfl
  · simp [notAfter, hij]

/-- The markup `insert` leaves of a node whose only child is a Text node, for a
range inside that Text node. -/
theorem insert_one_text_markup (kind : Kind) (s : List Char) (i j : Nat) (hij : i ≤ j)
    (hj : j ≤ s.length) :
    ∃ cs3, insert (.branch kind [.text s]) ⟨[0], i, [0], j⟩ = some (.branch kind cs3) ∧
      (Node.branch kind cs3).markup = Sym.opening kind ::
        ((s.take i).map Sym.char ++ Sym.char '[' ::
          (((s.drop i).take (j - i)).map Sym.char ++ Sym.char ']' ::
            ((s.drop j).map Sym.char ++ [Sym.closing]))) := by
  obtain ⟨cs3, xs, xe, sn, en, h1, h2, h3, h4, h5, h6, h7⟩ :=
    insert_spec kind [.text s] ⟨[0], i, [0], j⟩ (validRange_one_text kind s i j hij hj)
  simp only at h1 h2 h4 h5
  rw [position_one_text kind s i (by omega)] at h1
  rw [position_one_text kind s j hj] at h2
  simp only [Option.some.injEq] at h1 h2
  subst h1 h2
  have hn : (Node.branch kind [.text s]).nodeAt [0] = some (.text s) := by
    simp [Node.nodeAt]
  rw [hn] at h4 h5
  simp only [Option.some.injEq] at h4 h5
  subst h4 h5
  refine ⟨cs3, h6, ?_⟩
  have hl : leftMarkerChar (.text s) = '[' := by simp [leftMarkerChar, Node.nodeType]
  have hr : rightMarkerChar (.text s) = ']' := by simp [rightMarkerChar, Node.nodeType]
  rw [h7, hl, hr, markup_one_text,
    putAt_putAt _ (i + 1) (j + 1) _ _ (by omega) (by simp; omega),
    take_markup_one_text kind s i (by omega), drop_markup_one_text kind s i (by omega),
    drop_markup_one_text kind s j hj]
  have e : j + 1 - (i + 1) = j - i := by omega
  rw [e, List.take_append_of_le_length (by simp; omega), List.map_take]
  simp

/-- C8: `insert` with a range inside the Text node `s` that is the only child
of a node leaves that node with the text `s[0..i) [ s[i..j) ] s[j..)`. -/
theorem insert_one_text (kind : Kind) (s : List Char) (i j : Nat) (hij : i ≤ j)
    (hj : j ≤ s.length) :
    ∃ top3, insert (.branch kind [.text s]) ⟨[0], i, [0], j⟩ = some top3 ∧
      top3.textContent = s.take i ++ '[' :: ((s.drop i).take (j - i) ++ ']' :: s.drop j) := by
  obtain ⟨cs3, h, hm⟩ := insert_one_text_markup kind s i j hij hj
  refine ⟨_, h, ?_⟩
  rw [← charsOf_markup, hm, charsOf_opening, charsOf_append, charsOf_map_char, charsOf_char,
    charsOf_append, charsOf_map_char, charsOf_char, charsOf_append, charsOf_map_char,
    charsOf_closing, List.append_nil]

/-- The witness of C8: "hello world" with the offsets 2 and 8 gives
"he[llo wo]rld". -/
theorem insert_one_text_witness :
    (∃ top3, insert (.branch (.element "p") [.text "hello world".toList]) ⟨[0], 2, [0], 8⟩
        = some top3 ∧
      top3.textContent = "hello world".toList.take 2 ++
        '[' :: (("hello world".toList.drop 2).take (8 - 2) ++
          ']' :: "hello world".toList.drop 8)) ∧
    "hello world".toList.take 2 ++ '[' :: (("hello world".toList.drop 2).take (8 - 2) ++
      ']' :: "hello world".toList.drop 8) = "he[llo wo]rld".toList :=
  ⟨insert_one_text (.element "p") "hello world".toList 2 8 (by decide) (by decide), by decide⟩

/-! ## The claims on `show` -/

theorem commonPrefix_self (p : List Nat) : commonPrefix p p = p := by
  induction p with
  | nil => rfl
  | cons i q ih => simp [commonPrefix, ih]

theorem escape_append (a b : List Char) : escape (a ++ b) = escape a ++ escape b := by
  simp [escape]

/-- The serialisation of siblings that are all Text nodes is their text,
escaped. -/
theorem serializeList_text : ∀ (cs : List Node) (l : List Char),
    markupList cs = l.map Sym.char → serializeList false cs = escape l
  | [], l, h => by
    rw [markupList_nil] at h
    have : l = [] := by simpa using h.symm
    subst this
    rfl
  | c :: cs, l, h => by
    rw [markupList_cons] at h
    obtain ⟨l1, l2, rfl, h1, h2⟩ := List.map_eq_append_iff.1 h.symm
    cases c with
    | branch kind cs1 =>
      cases l1 with
      | nil => simp [Node.markup] at h1
      | cons a b => simp [Node.markup] at h1
    | text d =>
      simp only [Node.markup] at h1
      have hd : l1 = d := List.map_injective_iff.2 (fun a b e => by cases e; rfl) h1
      subst hd
      rw [serializeList, serialize, serializeList_text cs l2 h2.symm, escape_append]
      simp

theorem insertIn_clone (heap : Heap) (top top1 : Node) (range : Range)
    (h : insert top range = some top1) :
    insertIn (heap ++ [top]) heap.length range = some (heap ++ [top1]) := by
  unfold insertIn
  have : (heap ++ [top]).get? heap.length = some top := get?_mid heap [] top
  rw [this]
  simp only [h]
  rw [set_mid]

/-- What `show` returns for a range inside the Text node `s` that is the only
child of an element `<p>`. -/
theorem show_one_text_result (heap : Heap) (tree : Nat) (top : Node) (p : List Nat)
    (s : List Char) (i j : Nat) (ht : heap.get? tree = some top)
    (hp : top.nodeAt p = some (.branch (.element "p") [.text s])) (hij : i ≤ j)
    (hj : j ≤ s.length) :
    («show» heap tree ⟨p ++ [0], i, p ++ [0], j⟩).result =
      .ok (some ("<p>".toList ++ (escape (s.take i) ++ '[' ::
        (escape ((s.drop i).take (j - i)) ++ ']' :: (escape (s.drop j) ++ "</p>".toList))))) := by
  obtain ⟨cs3, hi, hm⟩ := insert_one_text_markup (.element "p") s i j hij hj
  have hml : markupList cs3
      = (s.take i ++ '[' :: ((s.drop i).take (j - i) ++ ']' :: s.drop j)).map Sym.char := by
    simp only [Node.markup, List.cons.injEq, true_and] at hm
    have e : (s.take i).map Sym.char ++ Sym.char '[' ::
        (((s.drop i).take (j - i)).map Sym.char ++ Sym.char ']' ::
          ((s.drop j).map Sym.char ++ [Sym.closing]))
        = (s.take i ++ '[' :: ((s.drop i).take (j - i) ++ ']' :: s.drop j)).map Sym.char
          ++ [Sym.closing] := by simp
    rw [e] at hm
    exact List.append_cancel_right hm
  have hser := serializeList_text cs3 _ hml
  have hcac : (⟨p ++ [0], i, p ++ [0], j⟩ : Range).commonAncestorContainer = p ++ [0] :=
    commonPrefix_self _
  unfold «show»
  simp only [hcac, ht, List.getLast?_concat, List.dropLast_concat, hp, Paths.fromBoundary,
    List.drop_length, List.nil_append, List.length_append, List.length_singleton]
  have hd : (p ++ [0]).drop (p.length + 1) = [] := by
    apply List.drop_of_length_le; simp
  simp only [hd, List.nil_append, List.singleton_append, Paths.toBoundary,
    show ([0, i] : List Nat).getLast? = some i from rfl,
    show ([0, j] : List Nat).getLast? = some j from rfl,
    show ([0, i] : List Nat).dropLast = [0] from rfl,
    show ([0, j] : List Nat).dropLast = [0] from rfl,
    insertIn_clone heap _ _ _ hi, get?_mid heap [] _]
  have hnt : Nodes.DOCUMENT_FRAGMENT ≠ (Node.branch (.element "p") cs3).nodeType := by
    simp [Node.nodeType, Nodes.DOCUMENT_FRAGMENT, Nodes.ELEMENT]
  rw [if_pos hnt]
  simp only [outerHTML, serialize]
  rw [if_neg (by decide)]
  have hraw : decide ("p" ∈ rawTextElements) = false := by decide
  rw [hraw, hser]
  simp [escape_append, escape, escapeChar]

/-- The counterexample to C9: the content "a<b" is free of markers, and `show`
gives "<p>[a&lt;b]</p>" for it, not "<p>[a<b]</p>". -/
theorem show_one_text_counterexample :
    («show» [.branch (.element "p") [.text "a<b".toList]] 0 ⟨[0], 0, [0], 3⟩).result
      = .ok (some "<p>[a&lt;b]</p>".toList) ∧
    markerChars "a<b".toList = [] ∧
    "<p>[a&lt;b]</p>".toList ≠ "<p>".toList ++ ("a<b".toList.take 0 ++ '[' ::
      (("a<b".toList.drop 0).take (3 - 0) ++ ']' :: ("a<b".toList.drop 3 ++ "</p>".toList))) :=
  ⟨by rfl, by decide, by decide⟩

/-- C9, amended: for an element `<p>` whose only child is the Text node `s`,
`show` on a range inside `s` returns the markup of `<p>` with the glyphs at
the two offsets and the three pieces of `s` escaped as HTML text. -/
theorem show_one_text (heap : Heap) (tree : Nat) (top : Node) (p : List Nat)
    (s : List Char) (i j : Nat) (ht : heap.get? tree = some top)
    (hp : top.nodeAt p = some (.branch (.element "p") [.text s])) (hij : i ≤ j)
    (hj : j ≤ s.length) :
    («show» heap tree ⟨p ++ [0], i, p ++ [0], j⟩).result =
      .ok (some ("<p>".toList ++ (escape (s.take i) ++ '[' ::
        (escape ((s.drop i).take (j - i)) ++ ']' :: (escape (s.drop j) ++ "</p>".toList))))) :=
  show_one_text_result heap tree top p s i j ht hp hij hj

/-- The witness of C9, amended: `<p>hello world</p>`, offsets 2 and 8, gives
"<p>he[llo wo]rld</p>". -/
theorem show_one_text_witness :
    («show» [.branch (.element "p") [.text "hello world".toList]] 0 ⟨[] ++ [0], 2, [] ++ [0], 8⟩).result
      = .ok (some ("<p>".toList ++ (escape ("hello world".toList.take 2) ++ '[' ::
        (escape (("hello world".toList.drop 2).take (8 - 2)) ++ ']' ::
          (escape ("hello world".toList.drop 8) ++ "</p>".toList))))) ∧
    "<p>".toList ++ (escape ("hello world".toList.take 2) ++ '[' ::
        (escape (("hello world".toList.drop 2).take (8 - 2)) ++ ']' ::
          (escape ("hello world".toList.drop 8) ++ "</p>".toList)))
      = "<p>he[llo wo]rld</p>".toList :=
  ⟨show_one_text [.branch (.element "p") [.text "hello world".toList]] 0
    (.branch (.element "p") [.text "hello world".toList]) [] "hello world".toList 2 8
    rfl rfl (by decide) (by decide), by decide⟩

theorem insertIn_set (heap : Heap) (tree : Nat) (range : Range) (heap2 : Heap)
    (h : insertIn heap tree range = some heap2) : ∃ top1, heap2 = heap.set tree top1 := by
  unfold insertIn at h
  cases hg : heap.get? tree with
  | none => rw [hg] at h; simp at h
  | some top =>
    rw [hg] at h
    simp only at h
    cases hi : insert top range with
    | none => rw [hi] at h; simp at h
    | some top1 =>
      rw [hi] at h
      simp only [Option.some.injEq] at h
      exact ⟨top1, h.symm⟩

/-- C7: `show` leaves every tree that exists when it is called as it is, the
tree of its range among them: the heap afterwards is the heap before followed
by the trees `show` has made, and the markers are inserted in one of those. -/
theorem show_keeps_trees (heap : Heap) (tree : Nat) (range : Range) :
    ∃ made, («show» heap tree range).heap = heap ++ made := by
  unfold «show»
  simp only
  cases heap.get? tree with
  | none => exact ⟨[], by simp⟩
  | some top =>
    simp only
    cases range.commonAncestorContainer.getLast? with
    | none =>
      simp only
      cases top.nodeAt range.commonAncestorContainer with
      | none => exact ⟨[], by simp⟩
      | some cacNode =>
        simp only
        split
        · exact ⟨[cacNode], rfl⟩
        · split <;> exact ⟨_, rfl⟩
    | some index =>
      simp only
      cases top.nodeAt range.commonAncestorContainer.dropLast with
      | none => exact ⟨[], by simp⟩
      | some parentNode =>
        simp only
        split
        · rename_i sc so ec eo _ _
          cases hi : insertIn (heap ++ [parentNode]) heap.length ⟨sc, so, ec, eo⟩ with
          | none => exact ⟨[parentNode], rfl⟩
          | some heap2 =>
            obtain ⟨top1, rfl⟩ := insertIn_set _ _ _ _ hi
            have e : (heap ++ [parentNode]).set heap.length top1 = heap ++ [top1] :=
              set_mid heap [] parentNode top1
            simp only [e]
            split
            · exact ⟨[top1], rfl⟩
            · split
              · exact ⟨[top1], rfl⟩
              · split
                · exact ⟨_, by rw [set_mid heap [] top1 _, List.append_assoc]⟩
                · exact ⟨[top1], rfl⟩
        · exact ⟨[parentNode], rfl⟩

/-! ## The errors of `extract` on one marker and on three -/

/-- What `extract` throws on a node with children that holds three marker
characters or more. -/
theorem thrown_of_three (kind : Kind) (cs : List Node) (range : Range) (a b c : Char)
    (rest : List Char) (h : markerChars (textContentList cs) = a :: b :: c :: rest) :
    (extract (.branch kind cs) range).thrown = some (.message
      (if isStartGlyph a = true then
        if isEndGlyph b = true then "Too many markers" else "start marker before end marker"
      else "end marker before start marker")) := by
  rw [extract_thrown, h]
  by_cases ha : isStartGlyph a = true <;> by_cases hb : isEndGlyph b = true <;>
    simp [scanMarkers, chooseSetFn_zero, chooseSetFn_one, chooseSetFn_many 0 c, ha, hb]

/-- The counterexample to C11: `<p>a[b[c]</p>` holds three marker characters,
and `extract` throws 'start marker before end marker' on it. -/
theorem extract_overflow_counterexample :
    (markerChars (Node.branch (.element "p") [.text "a[b[c]".toList]).textContent).length = 3 ∧
    (extract (.branch (.element "p") [.text "a[b[c]".toList]) ⟨[], 0, [], 0⟩).thrown
      = some (.message "start marker before end marker") ∧
    (extract (.branch (.element "p") [.text "a[b[c]".toList]) ⟨[], 0, [], 0⟩).thrown
      ≠ some (.message "Too many markers") := by
  decide

/-- C11, amended: on a node with children that holds three marker characters or
more, `extract` throws: 'Too many markers' when the first two are a start glyph
and then an end glyph, and else the error of the first glyph that is out of
order. -/
theorem extract_overflow (kind : Kind) (cs : List Node) (range : Range) (a b c : Char)
    (rest : List Char)
    (h : markerChars (Node.branch kind cs).textContent = a :: b :: c :: rest) :
    (extract (.branch kind cs) range).thrown = some (.message
      (if isStartGlyph a = true then
        if isEndGlyph b = true then "Too many markers" else "start marker before end marker"
      else "end marker before start marker")) := by
  rw [Node.textContent] at h
  exact thrown_of_three kind cs range a b c rest h

/-- The witness of C11: `<p>[a]b]</p>` throws 'Too many markers'. -/
theorem extract_overflow_witness :
    (extract (.branch (.element "p") [.text "[a]b]".toList]) ⟨[], 0, [], 0⟩).thrown
      = some (.message "Too many markers") :=
  extract_overflow (.element "p") [.text "[a]b]".toList] ⟨[], 0, [], 0⟩ '[' ']' ']' []
    (by decide)

/-- What `extract` does on a node with children that holds one marker
character: a start glyph is read, the traversal goes to its end, and the check
behind it throws; an end glyph throws at once. -/
theorem thrown_of_one (kind : Kind) (cs : List Node) (range : Range) (c : Char)
    (h : markerChars (textContentList cs) = [c]) :
    (extract (.branch kind cs) range).thrown = some (.message
      (if isStartGlyph c = true then "Missing one or both markers"
      else "end marker before start marker")) ∧
    (isStartGlyph c = true →
      (extract (.branch kind cs) range).rootElem.markup = unmarked (Node.branch kind cs).markup) := by
  constructor
  · rw [extract_thrown, h]
    by_cases hc : isStartGlyph c = true <;> simp [scanMarkers, chooseSetFn_zero, hc]
  · intro hc
    have hs := walk_scan [] [] ⟨0, range⟩ cs
    rw [h] at hs
    simp only [scanMarkers, chooseSetFn_zero, hc, if_true] at hs
    unfold extract
    rcases hw : walk [] [] ⟨0, range⟩ cs with ⟨cs1, st1, _ | e⟩
    · have hm := walk_markup [] [] ⟨0, range⟩ cs cs1 st1 hw
      rw [hw] at hs
      simp only [Prod.mk.injEq, and_true] at hs
      simp only [hw, hs]
      simp [Node.markup, hm, unmarked, Sym.isMarker, markupList]
    · rw [hw] at hs
      simp at hs

/-- The counterexample to C12: `<p>a]b</p>` holds one marker character, and
`extract` throws 'end marker before start marker' on it. -/
theorem extract_missing_counterexample :
    (markerChars (Node.branch (.element "p") [.text "a]b".toList]).textContent).length = 1 ∧
    (extract (.branch (.element "p") [.text "a]b".toList]) ⟨[], 0, [], 0⟩).thrown
      = some (.message "end marker before start marker") ∧
    (extract (.branch (.element "p") [.text "a]b".toList]) ⟨[], 0, [], 0⟩).thrown
      ≠ some (.message "Missing one or both markers") := by
  decide

/-- C12, amended: on a node with children that holds one marker character, a
start glyph, `extract` throws 'Missing one or both markers' once the traversal
is over: the tree it leaves is the whole tree without the marker. When the one
marker is an end glyph it throws 'end marker before start marker'. -/
theorem extract_missing (kind : Kind) (cs : List Node) (range : Range) (c : Char)
    (h : markerChars (Node.branch kind cs).textContent = [c]) :
    (extract (.branch kind cs) range).thrown = some (.message
      (if isStartGlyph c = true then "Missing one or both markers"
      else "end marker before start marker")) ∧
    (isStartGlyph c = true →
      (extract (.branch kind cs) range).rootElem.markup = unmarked (Node.branch kind cs).markup) := by
  rw [Node.textContent] at h
  exact thrown_of_one kind cs range c h

/-- The witness of C12: `<p>a[b<i>c</i></p>` throws 'Missing one or both markers'
and is left as `<p>ab<i>c</i></p>`. -/
theorem extract_missing_witness :
    (extract (.branch (.element "p") [.text "a[b".toList,
      .branch (.element "i") [.text "c".toList]]) ⟨[], 0, [], 0⟩).thrown
      = some (.message "Missing one or both markers") ∧
    (extract (.branch (.element "p") [.text "a[b".toList,
      .branch (.element "i") [.text "c".toList]]) ⟨[], 0, [], 0⟩).rootElem.markup
      = (Node.branch (.element "p") [.text "ab".toList,
          .branch (.element "i") [.text "c".toList]]).markup :=
  ⟨(extract_missing (.element "p") [.text "a[b".toList,
      .branch (.element "i") [.text "c".toList]] ⟨[], 0, [], 0⟩ '[' (by decide)).1,
    ((extract_missing (.element "p") [.text "a[b".toList,
      .branch (.element "i") [.text "c".toList]] ⟨[], 0, [], 0⟩ '[' (by decide)).2
        (by decide)).trans (by decide)⟩

/-! ## `insert` between the children of a node -/

theorem shiftFrom_self (p : List Nat) (i j : Nat) :
    shiftFrom p i p j = (p, if i ≤ j then j + 1 else j) := by
  induction p with
  | nil => simp [shiftFrom]
  | cons k q ih => rw [shiftFrom_cons_same, ih]

/-- Replacing the children of the node at `p` twice is replacing them once. -/
theorem updateAt_updateAt (f g : List Node → List Node) (p : List Nat) :
    ∀ (top t1 : Node), top.updateAt f p = some t1 →
      t1.updateAt g p = top.updateAt (g ∘ f) p := by
  induction p with
  | nil =>
    intro top t1 h
    cases top with
    | text data => simp [Node.updateAt] at h
    | branch kind cs =>
      rw [updateAt_nil] at h
      simp only [Option.some.injEq] at h
      rw [← h, updateAt_nil, updateAt_nil]
      rfl
  | cons i q ih =>
    intro top t1 h
    cases top with
    | text data => simp [Node.updateAt] at h
    | branch kind cs =>
      rw [Node.updateAt] at h
      cases hg : cs.get? i with
      | none => rw [hg] at h; simp at h
      | some c =>
        obtain ⟨pre, post, e, hl⟩ := get?_split cs i c hg
        subst e hl
        rw [updateAt_mid]
        rw [hg] at h
        simp only at h
        cases hu : Node.updateAt f q c with
        | none => rw [hu] at h; simp at h
        | some c1 =>
          rw [hu] at h
          simp only [Option.some.injEq, set_mid] at h
          rw [← h, updateAt_mid, ih c c1 hu]

/-- Replacing the children of a node with children gives a tree, and in it the
node has the new children. -/
theorem updateAt_nodeAt (f : List Node → List Node) (p : List Nat) :
    ∀ (top : Node) (kind : Kind) (cs : List Node), top.nodeAt p = some (.branch kind cs) →
      ∃ t1, top.updateAt f p = some t1 ∧ t1.nodeAt p = some (.branch kind (f cs)) := by
  induction p with
  | nil =>
    intro top kind cs h
    simp only [Node.nodeAt, Option.some.injEq] at h
    subst h
    exact ⟨_, updateAt_nil f kind cs, rfl⟩
  | cons i q ih =>
    intro top kind cs h
    cases top with
    | text data => simp [Node.nodeAt] at h
    | branch kind0 cs0 =>
      obtain ⟨pre, post, c, rfl, rfl, hc⟩ := nodeAt_cons kind0 cs0 _ q _ h
      obtain ⟨c1, h1, h2⟩ := ih c kind cs hc
      refine ⟨.branch kind0 (pre ++ c1 :: post), ?_, ?_⟩
      · rw [updateAt_mid, h1]
      · simp only [Node.nodeAt, get?_mid]
        exact h2

/-- The children a node with the children `cs` has once a '{' has been put in
at `i` and a '}' at `j`. -/
theorem insertBefore_twice (cs : List Node) (i j : Nat) (l r : Node) (hij : i ≤ j)
    (hj : j ≤ cs.length) :
    insertBefore r (j + 1) (insertBefore l i cs)
      = cs.take i ++ [l] ++ (cs.drop i).take (j - i) ++ [r] ++ cs.drop j := by
  unfold insertBefore
  have hl : (cs.take i).length = i := by simp; omega
  have e1 : (cs.take i ++ [l] ++ cs.drop i).take (j + 1)
      = cs.take i ++ [l] ++ (cs.drop i).take (j - i) := by
    rw [List.take_append_eq_append_take, List.take_of_length_le (by simp; omega)]
    congr 1
    simp only [List.length_append, hl, List.length_singleton]
    congr 1
    omega
  have e2 : (cs.take i ++ [l] ++ cs.drop i).drop (j + 1) = cs.drop j := by
    rw [List.drop_append_eq_append_drop, List.drop_of_length_le (by simp; omega)]
    simp only [List.length_append, hl, List.length_singleton, List.nil_append, List.drop_drop]
    congr 1
    omega
  rw [e1, e2]

/-- Replacing the children of the node at `p` depends on what the function
gives for these children only. -/
theorem updateAt_congr (f g : List Node → List Node) (p : List Nat) :
    ∀ (top : Node) (kind : Kind) (cs : List Node), top.nodeAt p = some (.branch kind cs) →
      f cs = g cs → top.updateAt f p = top.updateAt g p := by
  induction p with
  | nil =>
    intro top kind cs h hfg
    simp only [Node.nodeAt, Option.some.injEq] at h
    subst h
    rw [updateAt_nil, updateAt_nil, hfg]
  | cons i q ih =>
    intro top kind cs h hfg
    cases top with
    | text data => simp [Node.nodeAt] at h
    | branch kind0 cs0 =>
      obtain ⟨pre, post, c, rfl, rfl, hc⟩ := nodeAt_cons kind0 cs0 _ q _ h
      rw [updateAt_mid, updateAt_mid, ih c kind cs hc hfg]

/-- What `insert` does with a range whose two boundaries lie between the
children of one node. -/
theorem insert_same_node (top : Node) (e : List Nat) (kind : Kind) (cs : List Node)
    (i j : Nat) (he : top.nodeAt e = some (.branch kind cs)) (hij : i ≤ j)
    (hj : j ≤ cs.length) :
    insert top ⟨e, i, e, j⟩ = top.updateAt (fun _ =>
      cs.take i ++ [.text ['{']] ++ (cs.drop i).take (j - i) ++ [.text ['}']] ++ cs.drop j) e := by
  have hs : splitTextContainers top ⟨e, i, e, j⟩ = some (top, ⟨e, i, e, j⟩) := by
    simp [splitTextContainers, splitTextContainer, he]
  have hc1 : cursorFromBoundaryPoint top e i = some ⟨e, i⟩ := by
    simp only [cursorFromBoundaryPoint, he]
    rw [if_pos (by omega)]
  have hc2 : cursorFromBoundaryPoint top e j = some ⟨e, j⟩ := by
    simp only [cursorFromBoundaryPoint, he]
    rw [if_pos hj]
  obtain ⟨t1, h1, h2⟩ := updateAt_nodeAt (insertBefore (createTextNode ['{']) i) e top kind cs he
  have hb : Cursor.behind ⟨e, j⟩ ⟨e, i⟩ = ⟨e, j + 1⟩ := by
    simp only [Cursor.behind, shiftFrom_self, if_pos hij]
  have hl : leftMarkerChar (.branch kind cs) = '{' := by
    cases kind <;> rfl
  have hr : rightMarkerChar (.branch kind cs) = '}' := by
    cases kind <;> rfl
  unfold insert
  simp only [he, hs, hc1, hc2, hl, hr, Cursor.insert, h1, hb]
  rw [updateAt_updateAt _ _ e top t1 h1]
  exact updateAt_congr _ _ e top kind cs he
    (insertBefore_twice cs i j (.text ['{']) (.text ['}']) hij hj)

/-- C13: for a node `e` with the children `cs` and `0 ≤ i ≤ j ≤ |cs|`, `insert`
with the range `(e, i)`-`(e, j)` gives the tree in which `e` has the children
`cs[0..i)`, a new Text node "{", `cs[i..j)`, a new Text node "}", `cs[j..)`,
and nothing else has changed. -/
theorem insert_between_nodes (top : Node) (e : List Nat) (kind : Kind) (cs : List Node)
    (i j : Nat) (he : top.nodeAt e = some (.branch kind cs)) (hij : i ≤ j)
    (hj : j ≤ cs.length) :
    ∃ top1, insert top ⟨e, i, e, j⟩ = some top1 ∧
      top1.nodeAt e = some (.branch kind
        (cs.take i ++ [.text ['{']] ++ (cs.drop i).take (j - i) ++ [.text ['}']] ++ cs.drop j)) ∧
      top.updateAt (fun _ =>
        cs.take i ++ [.text ['{']] ++ (cs.drop i).take (j - i) ++ [.text ['}']] ++ cs.drop j) e
          = some top1 := by
  obtain ⟨t, h1, h2⟩ := updateAt_nodeAt (fun _ =>
      cs.take i ++ [.text ['{']] ++ (cs.drop i).take (j - i) ++ [.text ['}']] ++ cs.drop j)
    e top kind cs he
  exact ⟨t, (insert_same_node top e kind cs i j he hij hj).trans h1, h2, h1⟩

/-- The witness of C13: `<div><a></a><b></b><c></c></div>` with `i = 1` and
`j = 2` gives `<div><a></a>{<b></b>}<c></c></div>`. -/
theorem insert_between_nodes_witness :
    insert (.branch (.element "div")
        [.branch (.element "a") [], .branch (.element "b") [], .branch (.element "c") []])
      ⟨[], 1, [], 2⟩
    = some (.branch (.element "div")
        [.branch (.element "a") [], .text ['{'], .branch (.element "b") [], .text ['}'],
          .branch (.element "c") []]) := by
  obtain ⟨t, h1, _, h3⟩ := insert_between_nodes (.branch (.element "div")
      [.branch (.element "a") [], .branch (.element "b") [], .branch (.element "c") []])
    [] (.element "div")
    [.branch (.element "a") [], .branch (.element "b") [], .branch (.element "c") []] 1 2
    rfl (by decide) (by decide)
  rw [h1, ← h3]
  rfl

/-! ## `show` on a common ancestor without parent -/

/-- C14: `show` on a range whose common ancestor container is the topmost node
of its tree, which has no parent, raises a TypeError: the branch that clones
the container leaves `root` unassigned, and `root.concat(start)` follows. -/
theorem show_without_parent (heap : Heap) (tree : Nat) (range : Range) (top : Node)
    (ht : heap.get? tree = some top) (hr : range.commonAncestorContainer = []) :
    («show» heap tree range).result = .error .typeError := by
  unfold «show»
  simp only [ht, hr, List.getLast?_nil, Node.nodeAt]
  split_ifs
  · rfl
  · split <;> rfl

/-- The witness of C14: a DocumentFragment with the Text children "a" and "b",
and the range from `("a", 0)` to `("b", 1)`. -/
theorem show_without_parent_witness :
    («show» [.branch .documentFragment [.text ['a'], .text ['b']]] 0 ⟨[0], 0, [1], 1⟩).result
      = .error .typeError :=
  show_without_parent [.branch .documentFragment [.text ['a'], .text ['b']]] 0
    ⟨[0], 0, [1], 1⟩ (.branch .documentFragment [.text ['a'], .text ['b']]) rfl rfl

/-! ## The dispatch of `hint` -/

/-- C16: `hint` on a boundary `b` is `hint` on the pair `[b, b]` and `show` on
the collapsed range at `b`; on a pair `[b1, b2]` it is `show` on the range
from `b1` to `b2`; on a range it is `show` on that range. -/
theorem hint_dispatch (heap : Heap) (tree : Nat) :
    (∀ container offset,
      hint heap tree (.boundary container offset)
        = hint heap tree (.boundaries [(container, offset), (container, offset)]) ∧
      hint heap tree (.boundary container offset)
        = «show» heap tree ⟨container, offset, container, offset⟩) ∧
    (∀ b1 b2 : List Nat × Nat,
      hint heap tree (.boundaries [b1, b2]) = «show» heap tree ⟨b1.1, b1.2, b2.1, b2.2⟩) ∧
    (∀ r : Range, hint heap tree (.range r) = «show» heap tree r) := by
  refine ⟨fun container offset => ⟨?_, ?_⟩, fun b1 b2 => ?_, fun r => ?_⟩
  · simp [hint, Arg.length, Arg.firstHasNodeName, showBoundary, showBoundaries,
      Ranges.fromBoundaries]
  · simp [hint, Arg.length, Arg.firstHasNodeName, showBoundary, Ranges.fromBoundaries]
  · simp [hint, Arg.length, Arg.firstHasNodeName, showBoundaries, Ranges.fromBoundaries]
  · simp [hint, Arg.length]

/-! ## `extract` on a failure -/

/-- C17: `extract` does not undo what it has done when it throws: on
`<p>a[b[c</p>` it throws 'start marker before end marker' at the second '[' and
leaves `<p>` with the new Text node "ab" in front of the Text node "a[b[c". -/
theorem extract_not_atomic :
    ∃ (rootElem : Node) (range : Range) (e : Thrown),
      rootElem = .branch (.element "p") [.text "a[b[c".toList] ∧
      (extract rootElem range).thrown = some e ∧
      (extract rootElem range).rootElem
        = .branch (.element "p") [.text "ab".toList, .text "a[b[c".toList] ∧
      (extract rootElem range).rootElem ≠ rootElem := by
  refine ⟨.branch (.element "p") [.text "a[b[c".toList], ⟨[], 0, [], 0⟩,
    .message "start marker before end marker", rfl, by decide, by rfl, ?_⟩
  have h : (extract (.branch (.element "p") [.text "a[b[c".toList]) ⟨[], 0, [], 0⟩).rootElem
      = .branch (.element "p") [.text "ab".toList, .text "a[b[c".toList] := by rfl
  rw [h]
  intro hne
  simp at hne

/-! ## The fast path of `extractMarkers` -/

/-- C19: `extractMarkers` on a Text node returns with the node still in
place and the state (the range and `markersFound`) as it was if and only if
the content of the node holds no marker character; so an empty Text node is
left alone, and a node that is one marker character is not. -/
theorem extractMarkers_skips_iff (here : List Nat) (before : List Node) (st : State)
    (text : List Char) :
    (extractMarkers here before st text = (before ++ [.text text], st, none)
      ↔ markerChars text = []) ∧
    extractMarkers here before st [] = (before ++ [.text []], st, none) ∧
    (∀ c, isMarker c = true →
      extractMarkers here before st [c] ≠ (before ++ [.text [c]], st, none)) := by
  have key : ∀ text : List Char,
      extractMarkers here before st text = (before ++ [.text text], st, none)
        ↔ markerChars text = [] := by
    intro text
    constructor
    · intro h
      have hs := extractMarkers_scan here before st text
      rw [h] at hs
      have := scanMarkers_found_none _ _ _ hs.symm
      simp only at this
      exact List.length_eq_zero.1 (by omega)
    · intro h
      unfold extractMarkers
      simp only
      rw [if_pos (fastPath_of_plain text h)]
  refine ⟨key text, (key []).2 rfl, ?_⟩
  intro c hc h
  have := (key [c]).1 h
  simp [markerChars, hc] at this

/-! ## Text nodes that `extract` joins -/

/-- C20: on `<p>` with the two Text children "he" and "[llo]", `extract`
returns and leaves `<p>` with the one Text node "hello": the part "llo" of the
second node is appended to the first node, which `extract` has not made, and
both boundaries lie in that node. -/
theorem extract_joins_text_nodes :
    (extract (.branch (.element "p") [.text "he".toList, .text "[llo]".toList])
        ⟨[], 0, [], 0⟩).thrown = none ∧
    (extract (.branch (.element "p") [.text "he".toList, .text "[llo]".toList])
        ⟨[], 0, [], 0⟩).rootElem = .branch (.element "p") [.text "hello".toList] ∧
    (extract (.branch (.element "p") [.text "he".toList, .text "[llo]".toList])
        ⟨[], 0, [], 0⟩).range = ⟨[0], 2, [0], 5⟩ :=
  ⟨by decide, by rfl, by decide⟩

/-! ## `extract` on one Text node that holds both markers -/

theorem splitInclAux_marker (s : List Char) (h : markerChars s = []) (c : Char)
    (hc : isMarker c = true) (rest : List Char) :
    ∀ pending, splitInclAux isMarker pending (s ++ c :: rest)
      = (if pending ++ s = [] then [] else [pending ++ s])
          ++ [c] :: splitInclAux isMarker [] rest := by
  induction s with
  | nil =>
    intro pending
    by_cases hp : pending = [] <;> simp [splitInclAux, hc, hp]
  | cons x xs ih =>
    intro pending
    have hx : isMarker x = false := by
      cases hx : isMarker x with
      | false => rfl
      | true => simp [markerChars, List.filter_cons, hx] at h
    have hxs : markerChars xs = [] := by
      simpa [markerChars, List.filter_cons, hx] using h
    have e : (x :: xs) ++ c :: rest = x :: (xs ++ c :: rest) := rfl
    rw [e, splitInclAux]
    simp only [hx, Bool.false_eq_true, if_false]
    rw [ih hxs (pending ++ [x])]
    simp

/-- The parts of a text with two marker characters. -/
theorem splitIncl_two (s1 s2 s3 : List Char) (a b : Char) (h1 : markerChars s1 = [])
    (h2 : markerChars s2 = []) (h3 : markerChars s3 = []) (ha : isMarker a = true)
    (hb : isMarker b = true) :
    splitIncl (s1 ++ a :: (s2 ++ b :: s3)) isMarker
      = (if s1 = [] then [] else [s1]) ++ [a] ::
          ((if s2 = [] then [] else [s2]) ++ [b] :: (if s3 = [] then [] else [s3])) := by
  unfold splitIncl
  rw [splitInclAux_marker s1 h1 a ha, splitInclAux_marker s2 h2 b hb, splitInclAux_plain s3 h3]
  simp

theorem not_mem_markers_of_plain (s : List Char) (h : markerChars s = []) : s ∉ markers := by
  intro hm
  obtain ⟨c, rfl, hc⟩ := (mem_markers_iff s).1 hm
  simp [markerChars, hc] at h

/-- The visitor on a Text node `s1[s2]s3` without a sibling in front: one Text
node with the three parts joined takes its place, with both boundaries in
it. -/
theorem extractMarkers_brackets (here : List Nat) (range : Range) (s1 s2 s3 : List Char)
    (h1 : markerChars s1 = []) (h2 : markerChars s2 = []) (h3 : markerChars s3 = []) :
    extractMarkers here [] ⟨0, range⟩ (s1 ++ '[' :: (s2 ++ ']' :: s3))
      = ([.text (s1 ++ (s2 ++ s3))],
          ⟨2, ⟨here ++ [0], s1.length, here ++ [0], s1.length + s2.length⟩⟩, none) := by
  have hp := splitIncl_two s1 s2 s3 '[' ']' h1 h2 h3 (by decide) (by decide)
  have n1 := not_mem_markers_of_plain s1 h1
  have n2 := not_mem_markers_of_plain s2 h2
  have n3 := not_mem_markers_of_plain s3 h3
  have m1 : ['['] ∈ markers := by decide
  have m2 : [']'] ∈ markers := by decide
  unfold extractMarkers
  simp only [hp]
  rcases s1 with _ | ⟨x1, s1⟩ <;> rcases s2 with _ | ⟨x2, s2⟩ <;> rcases s3 with _ | ⟨x3, s3⟩ <;>
    (simp [extractParts, extractPart, setBoundaryPoint, chooseSetFn, SetFn.call, Range.setStart,
      Range.setEnd, createTextNode, n1, n2, n3, m1, m2] <;> omega)

/-- The visitor on a Text node `s1{s2}s3` without a sibling in front: the parts
that are not empty take its place, each a Text node, and both boundaries lie
between them. -/
theorem extractMarkers_braces (here : List Nat) (range : Range) (s1 s2 s3 : List Char)
    (h1 : markerChars s1 = []) (h2 : markerChars s2 = []) (h3 : markerChars s3 = []) :
    extractMarkers here [] ⟨0, range⟩ (s1 ++ '{' :: (s2 ++ '}' :: s3))
      = (([s1, s2, s3].filter (fun s => !s.isEmpty)).map Node.text,
          ⟨2, ⟨here, if s1.isEmpty then 0 else 1,
            here, (if s1.isEmpty then 0 else 1) + (if s2.isEmpty then 0 else 1)⟩⟩, none) := by
  have hp := splitIncl_two s1 s2 s3 '{' '}' h1 h2 h3 (by decide) (by decide)
  have n1 := not_mem_markers_of_plain s1 h1
  have n2 := not_mem_markers_of_plain s2 h2
  have n3 := not_mem_markers_of_plain s3 h3
  have m1 : ['{'] ∈ markers := by decide
  have m2 : ['}'] ∈ markers := by decide
  unfold extractMarkers
  simp only [hp]
  rcases s1 with _ | ⟨x1, s1⟩ <;> rcases s2 with _ | ⟨x2, s2⟩ <;> rcases s3 with _ | ⟨x3, s3⟩ <;>
    simp [extractParts, extractPart, setBoundaryPoint, chooseSetFn, SetFn.call, Range.setStart,
      Range.setEnd, createTextNode, n1, n2, n3, m1, m2]

/-! ## The tree `extract` leaves of a tree with brace markers -/

theorem withoutBracesList_append (a b : List Node) :
    withoutBracesList (a ++ b) = withoutBracesList a ++ withoutBracesList b := by
  induction a with
  | nil => simp [withoutBracesList]
  | cons c cs ih =>
    simp only [List.cons_append, withoutBracesList]
    split_ifs <;> simp [ih]

theorem withoutBracesList_branch (kind : Kind) (cs : List Node) :
    withoutBracesList [.branch kind cs] = [.branch kind (withoutBracesList cs)] := by
  simp [withoutBracesList, Node.isBrace, Node.withoutBraces]

theorem withoutBracesList_plain_text (text : List Char) (h : markerChars text = []) :
    withoutBracesList [.text text] = [.text text] := by
  have h1 : text ≠ ['{'] := by rintro rfl; simp [markerChars, isMarker] at h
  have h2 : text ≠ ['}'] := by rintro rfl; simp [markerChars, isMarker] at h
  simp [withoutBracesList, Node.isBrace, Node.withoutBraces, h1, h2]

/-- The visitor on a Text node that is one brace glyph takes the node away and
puts nothing in its place. -/
theorem extractMarkers_brace (here : List Nat) (before : List Node) (st : State) (c : Char)
    (hc : isMarker c = true) (hb : isBracket c = false) (out : List Node) (st1 : State)
    (h : extractMarkers here before st [c] = (out, st1, none)) : out = before := by
  have hmem : [c] ∈ markers := (mem_markers_iff _).2 ⟨c, rfl, hc⟩
  have hnb : ¬ ([c] = ['['] ∨ [c] = [']']) := by
    simp only [isBracket, Bool.or_eq_false_iff, beq_eq_false_iff_ne, ne_eq] at hb
    simp [hb.1, hb.2]
  unfold extractMarkers at h
  simp only [splitIncl_single c hc] at h
  have hnf : ¬ (([[c]] : List (List Char)).head? ∉ markers.map some ∧
      ([[c]] : List (List Char)).length < 2) := by
    intro hh
    apply hh.1
    simp only [List.head?_cons, List.mem_map, Option.some.injEq]
    exact ⟨[c], hmem, rfl⟩
  rw [if_neg hnf] at h
  simp only [extractParts, Bool.false_or, extractPart, hmem, if_true, setBoundaryPoint] at h
  cases hch : chooseSetFn st.markersFound [c] with
  | error e => rw [hch] at h; simp at h
  | ok fn =>
    rw [hch] at h
    simp only [hnb, if_false, Prod.mk.injEq] at h
    exact h.1.symm

mutual
theorem walkRec_withoutBraces (here : List Nat) (before : List Node) (st : State) :
    ∀ (node : Node) (before1 : List Node) (st1 : State), node.Isolated →
      (∀ c ∈ markerChars node.textContent, isBracket c = false) →
      walkRec here before st node = (before1, st1, none) →
      before1 = before ++ withoutBracesList [node]
  | .text text, before1, st1, hiso, hnb, h => by
    simp only [walkRec] at h
    simp only [Node.textContent] at hnb
    by_cases hplain : markerChars text = []
    · have hf := fastPath_of_plain text hplain
      unfold extractMarkers at h
      simp only at h
      rw [if_pos hf] at h
      simp only [Prod.mk.injEq] at h
      rw [← h.1, withoutBracesList_plain_text text hplain]
    · have hlen : text.length = 1 := by
        simp only [Node.Isolated] at hiso
        rcases hiso with h0 | h1
        · exact absurd h0 hplain
        · exact h1
      obtain ⟨c, rfl⟩ : ∃ c, text = [c] := by
        match text, hlen with
        | [c], _ => exact ⟨c, rfl⟩
      have hc : isMarker c = true := by
        cases hx : isMarker c with
        | true => rfl
        | false => simp [markerChars, hx] at hplain
      have hb : isBracket c = false := hnb c (by simp [markerChars, hc])
      have hbr : (Node.text [c]).isBrace = true := by
        simp only [isMarker, Bool.or_eq_true, beq_iff_eq] at hc
        rcases hc with ((rfl | rfl) | rfl) | rfl <;> first | rfl | simp [isBracket] at hb
      rw [extractMarkers_brace here before st c hc hb before1 st1 h]
      simp [withoutBracesList, hbr]
  | .branch kind cs, before1, st1, hiso, hnb, h => by
    simp only [walkRec] at h
    simp only [Node.Isolated] at hiso
    simp only [Node.textContent] at hnb
    rcases hw : walk (here ++ [before.length]) [] st cs with ⟨cs1, s1, t⟩
    rw [hw] at h
    simp only [Prod.mk.injEq] at h
    obtain ⟨h1, h2, h3⟩ := h
    subst h3
    have := walk_withoutBraces (here ++ [before.length]) [] st cs cs1 s1 hiso hnb hw
    rw [← h1, this, withoutBracesList_branch]
    simp
theorem walk_withoutBraces (here : List Nat) (before : List Node) (st : State) :
    ∀ (nodes : List Node) (before1 : List Node) (st1 : State), IsolatedList nodes →
      (∀ c ∈ markerChars (textContentList nodes), isBracket c = false) →
      walk here before st nodes = (before1, st1, none) →
      before1 = before ++ withoutBracesList nodes
  | [], before1, st1, _, _, h => by
    simp only [walk, Prod.mk.injEq] at h
    rw [← h.1]; simp [withoutBracesList]
  | node :: nodes, before1, st1, hiso, hnb, h => by
    simp only [IsolatedList] at hiso
    simp only [textContentList, markerChars_append, List.mem_append] at hnb
    simp only [walk] at h
    rcases hw : walkRec here before st node with ⟨b1, s1, _ | e⟩
    · rw [hw] at h
      simp only at h
      have e1 := walkRec_withoutBraces here before st node b1 s1 hiso.1
        (fun c hc => hnb c (Or.inl hc)) hw
      have e2 := walk_withoutBraces here b1 s1 nodes before1 st1 hiso.2
        (fun c hc => hnb c (Or.inr hc)) h
      rw [e2, e1, List.append_assoc, ← withoutBracesList_append]
      rfl
    · rw [hw] at h
      simp at h
end

mutual
theorem withoutBraces_plain : ∀ node : Node, markerChars node.textContent = [] →
    node.withoutBraces = node
  | .text _, _ => rfl
  | .branch kind cs, h => by
    simp only [Node.textContent] at h
    simp only [Node.withoutBraces, withoutBracesList_plain cs h]
theorem withoutBracesList_plain : ∀ nodes : List Node,
    markerChars (textContentList nodes) = [] → withoutBracesList nodes = nodes
  | [], _ => rfl
  | c :: cs, h => by
    simp only [textContentList, markerChars_append, List.append_eq_nil] at h
    have hb : c.isBrace = false := by
      cases c with
      | branch kind cs1 => rfl
      | text data =>
        have h0 : markerChars data = [] := h.1
        have h1 : data ≠ ['{'] := by rintro rfl; simp [markerChars, isMarker] at h0
        have h2 : data ≠ ['}'] := by rintro rfl; simp [markerChars, isMarker] at h0
        simp [Node.isBrace, h1, h2]
    simp only [withoutBracesList, hb, Bool.false_eq_true, if_false,
      withoutBraces_plain c h.1, withoutBracesList_plain cs h.2]
end

theorem withoutBracesList_insertBefore (g : Char) (hg : g = '{' ∨ g = '}') (index : Nat)
    (cs : List Node) :
    withoutBracesList (insertBefore (createTextNode [g]) index cs) = withoutBracesList cs := by
  have hb : (createTextNode [g]).isBrace = true := by
    rcases hg with rfl | rfl <;> rfl
  have h1 : withoutBracesList [createTextNode [g]] = [] := by
    simp [withoutBracesList, hb]
  unfold insertBefore
  rw [withoutBracesList_append, withoutBracesList_append, h1, List.append_nil,
    ← withoutBracesList_append, List.take_append_drop]

/-- Replacing the children of a node by children that are the same without the
brace nodes leaves the tree the same without the brace nodes. -/
theorem withoutBraces_updateAt (f : List Node → List Node)
    (hf : ∀ cs, withoutBracesList (f cs) = withoutBracesList cs) (p : List Nat) :
    ∀ (top t1 : Node), top.updateAt f p = some t1 → t1.withoutBraces = top.withoutBraces := by
  induction p with
  | nil =>
    intro top t1 h
    cases top with
    | text data => simp [Node.updateAt] at h
    | branch kind cs =>
      rw [updateAt_nil] at h
      simp only [Option.some.injEq] at h
      rw [← h]
      simp only [Node.withoutBraces, hf]
  | cons i q ih =>
    intro top t1 h
    cases top with
    | text data => simp [Node.updateAt] at h
    | branch kind cs =>
      rw [Node.updateAt] at h
      cases hg : cs.get? i with
      | none => rw [hg] at h; simp at h
      | some c =>
        obtain ⟨pre, post, e, hl⟩ := get?_split cs i c hg
        subst e hl
        rw [hg] at h
        simp only at h
        cases hu : Node.updateAt f q c with
        | none => rw [hu] at h; simp at h
        | some c1 =>
          rw [hu] at h
          simp only [Option.some.injEq, set_mid] at h
          have e1 := ih c c1 hu
          have hc : ∃ k cs0, c = .branch k cs0 := by
            cases c with
            | text data => simp [Node.updateAt] at hu
            | branch k cs0 => exact ⟨k, cs0, rfl⟩
          obtain ⟨k, cs0, rfl⟩ := hc
          obtain ⟨cs1, rfl⟩ := updateAt_kind f q k cs0 c1 hu
          rw [← h]
          simp only [Node.withoutBraces] at e1 ⊢
          have e2 : ∀ x : Node, pre ++ x :: post = pre ++ ([x] ++ post) := fun _ => rfl
          rw [e2, e2, withoutBracesList_append, withoutBracesList_append,
            withoutBracesList_append, withoutBracesList_append,
            withoutBracesList_branch, withoutBracesList_branch]
          simp only [Node.branch.injEq, true_and] at e1
          rw [e1]

/-- The tree `insert` makes for a range whose containers are nodes with
children is the tree it was given, with two brace nodes put in. -/
theorem insert_withoutBraces (top : Node) (range : Range) (top3 : Node) (k1 k2 : Kind)
    (c1 c2 : List Node) (hs : top.nodeAt range.startContainer = some (.branch k1 c1))
    (he : top.nodeAt range.endContainer = some (.branch k2 c2))
    (hi : insert top range = some top3) : top3.withoutBraces = top.withoutBraces := by
  have hsp : splitTextContainers top range = some (top, range) := by
    simp [splitTextContainers, splitTextContainer, hs, he]
  have hl : leftMarkerChar (.branch k1 c1) = '{' := by cases k1 <;> rfl
  have hr : rightMarkerChar (.branch k2 c2) = '}' := by cases k2 <;> rfl
  unfold insert at hi
  simp only [hs, he, hsp, hl, hr] at hi
  cases hc1 : cursorFromBoundaryPoint top range.startContainer range.startOffset with
  | none => rw [hc1] at hi; simp at hi
  | some start =>
    cases hc2 : cursorFromBoundaryPoint top range.endContainer range.endOffset with
    | none => rw [hc1, hc2] at hi; simp at hi
    | some end1 =>
      rw [hc1, hc2] at hi
      simp only [Cursor.insert] at hi
      cases hu : top.updateAt (insertBefore (createTextNode ['{']) start.index) start.parent with
      | none => rw [hu] at hi; simp at hi
      | some top2 =>
        rw [hu] at hi
        simp only at hi
        rw [withoutBraces_updateAt _ (withoutBracesList_insertBefore '}' (Or.inr rfl) _) _ _ _ hi,
          withoutBraces_updateAt _ (withoutBracesList_insertBefore '{' (Or.inl rfl) _) _ _ _ hu]

/-! ## `extract` as the inverse of `insert` on the tree -/

theorem nodeAt_of_boundaryKind_false (top : Node) (c : List Nat) (o : Nat)
    (h : top.boundaryKind c o = some false) : ∃ kind cs, top.nodeAt c = some (.branch kind cs) := by
  unfold Node.boundaryKind at h
  cases hn : top.nodeAt c with
  | none => rw [hn] at h; simp at h
  | some n =>
    cases n with
    | text data =>
      rw [hn] at h
      simp only at h
      split_ifs at h
      simp at h
    | branch kind cs => exact ⟨kind, cs, rfl⟩

/-- The counterexample to C15: in `<p>hello world</p>` with the range from
offset 2 to offset 8, `insert` followed by `extract` leaves `<p>` with the
three Text nodes "he", "llo wo" and "rld". -/
theorem extract_inverts_insert_counterexample :
    ∃ top3, insert (.branch (.element "p") [.text "hello world".toList]) ⟨[0], 2, [0], 8⟩
        = some top3 ∧
      (extract top3 ⟨[], 0, [], 0⟩).thrown = none ∧
      (extract top3 ⟨[], 0, [], 0⟩).rootElem
        = .branch (.element "p") [.text "he".toList, .text "llo wo".toList, .text "rld".toList] ∧
      (extract top3 ⟨[], 0, [], 0⟩).rootElem
        ≠ .branch (.element "p") [.text "hello world".toList] := by
  refine ⟨.branch (.element "p") [.text "he".toList, .text "[".toList, .text "llo wo".toList,
      .text "]".toList, .text "rld".toList], by rfl, by decide, by rfl, ?_⟩
  have h : (extract (.branch (.element "p") [.text "he".toList, .text "[".toList,
      .text "llo wo".toList, .text "]".toList, .text "rld".toList]) ⟨[], 0, [], 0⟩).rootElem
      = .branch (.element "p") [.text "he".toList, .text "llo wo".toList, .text "rld".toList] := by
    rfl
  rw [h]
  intro hne
  simp at hne

/-- C15, amended: on a tree free of marker characters, `insert` on a range of
the tree followed by `extract` returns and leaves a tree with the markup of
the tree before `insert`: the same nodes with children and the same
characters, in the same order.  When both boundaries of the range lie between
the children of nodes, it leaves the very tree. -/
theorem extract_inverts_insert (kind : Kind) (cs : List Node) (range range0 : Range)
    (hplain : markerChars (Node.branch kind cs).textContent = [])
    (hv : ValidRange (.branch kind cs) range) :
    ∃ top3, insert (.branch kind cs) range = some top3 ∧
      (extract top3 range0).thrown = none ∧
      (extract top3 range0).rootElem.markup = (Node.branch kind cs).markup ∧
      ((Node.branch kind cs).boundaryKind range.startContainer range.startOffset = some false →
        (Node.branch kind cs).boundaryKind range.endContainer range.endOffset = some false →
        (extract top3 range0).rootElem = .branch kind cs) := by
  obtain ⟨top3, hins, hret, hmk, -, -, hks, hke⟩ := insert_extract kind cs range range0 hplain hv
  refine ⟨top3, hins, hret, hmk, ?_⟩
  intro hs he
  obtain ⟨cs3, _, _, _, _, _, _, _, _, _, hins3, _⟩ := insert_spec kind cs range hv
  rw [hins] at hins3
  simp only [Option.some.injEq] at hins3
  subst hins3
  obtain ⟨k1, c1, hn1⟩ := nodeAt_of_boundaryKind_false _ _ _ hs
  obtain ⟨k2, c2, hn2⟩ := nodeAt_of_boundaryKind_false _ _ _ he
  -- the two markers are braces
  obtain ⟨a, b, hab, hka, hkb⟩ := extract_kinds kind cs3 range0 hret
  rw [hks, hs] at hka
  rw [hke, he] at hkb
  simp only [Option.some.injEq] at hka hkb
  have hnb : ∀ c ∈ markerChars (textContentList cs3), isBracket c = false := by
    obtain ⟨a1, b1, hab1, ha1, hb1⟩ := (thrown_none_iff kind cs3 range0).1 hret
    rw [hab] at hab1
    simp only [List.cons.injEq, and_true] at hab1
    obtain ⟨rfl, rfl⟩ := hab1
    rw [Node.textContent] at hab
    rw [hab]
    intro c hc
    simp only [List.mem_cons, List.mem_singleton, List.not_mem_nil, or_false] at hc
    rcases hc with rfl | rfl
    · simp only [isStartGlyph, Bool.or_eq_true, beq_iff_eq] at ha1
      rcases ha1 with rfl | rfl
      · simp at hka
      · rfl
    · simp only [isEndGlyph, Bool.or_eq_true, beq_iff_eq] at hb1
      rcases hb1 with rfl | rfl
      · simp at hkb
      · rfl
  have hiso : (Node.branch kind cs3).Isolated :=
    insert_isolated _ range _ (isolated_of_plain _ hplain) hins
  simp only [Node.Isolated] at hiso
  obtain ⟨cs4, st, hw, hex⟩ := extract_ok kind cs3 range0 hret
  have h4 := walk_withoutBraces [] [] ⟨0, range0⟩ cs3 cs4 st hiso hnb hw
  have h3 := insert_withoutBraces _ range _ k1 k2 c1 c2 hn1 hn2 hins
  rw [withoutBraces_plain _ hplain] at h3
  simp only [Node.withoutBraces, Node.branch.injEq, true_and] at h3
  rw [hex, h4, h3]
  rfl

/-- The witness of C15, amended: `<div><a></a><b></b><c></c></div>` with the
range around `<b></b>`. -/
theorem extract_inverts_insert_witness :
    ∃ top3, insert (.branch (.element "div")
          [.branch (.element "a") [], .branch (.element "b") [], .branch (.element "c") []])
        ⟨[], 1, [], 2⟩ = some top3 ∧
      (extract top3 ⟨[], 0, [], 0⟩).thrown = none ∧
      (extract top3 ⟨[], 0, [], 0⟩).rootElem.markup = (Node.branch (.element "div")
          [.branch (.element "a") [], .branch (.element "b") [],
            .branch (.element "c") []]).markup ∧
      (extract top3 ⟨[], 0, [], 0⟩).rootElem = .branch (.element "div")
          [.branch (.element "a") [], .branch (.element "b") [], .branch (.element "c") []] := by
  obtain ⟨top3, h1, h2, h3, h4⟩ := extract_inverts_insert (.element "div")
    [.branch (.element "a") [], .branch (.element "b") [], .branch (.element "c") []]
    ⟨[], 1, [], 2⟩ ⟨[], 0, [], 0⟩ (by decide) ⟨by decide, by decide, by decide⟩
  exact ⟨top3, h1, h2, h3, h4 (by decide) (by decide)⟩

/-! ## `extract` on a tree whose markers lie in one Text node -/

mutual
theorem walkRec_plain (here : List Nat) (before : List Node) (st : State) :
    ∀ node : Node, markerChars node.textContent = [] →
      walkRec here before st node = (before ++ [node], st, none)
  | .text text, h => by
    simp only [Node.textContent] at h
    simp only [walkRec]
    unfold extractMarkers
    simp only
    rw [if_pos (fastPath_of_plain text h)]
  | .branch kind cs, h => by
    simp only [Node.textContent] at h
    simp only [walkRec, walk_plain (here ++ [before.length]) [] st cs h, List.nil_append]
theorem walk_plain (here : List Nat) (before : List Node) (st : State) :
    ∀ nodes : List Node, markerChars (textContentList nodes) = [] →
      walk here before st nodes = (before ++ nodes, st, none)
  | [], _ => by simp [walk]
  | node :: nodes, h => by
    simp only [textContentList, markerChars_append, List.append_eq_nil] at h
    simp only [walk, walkRec_plain here before st node h.1,
      walk_plain here (before ++ [node]) st nodes h.2]
    simp
end

theorem walk_append (here : List Nat) (a b : List Node) :
    ∀ (before : List Node) (st : State), walk here before st (a ++ b) =
      match walk here before st a with
      | (before1, st1, some e) => (before1 ++ b, st1, some e)
      | (before1, st1, none) => walk here before1 st1 b := by
  induction a with
  | nil => intro before st; simp [walk]
  | cons n ns ih =>
    intro before st
    simp only [List.cons_append, walk]
    rcases hw : walkRec here before st n with ⟨b1, s1, _ | e⟩
    · simp only
      exact ih b1 s1
    · simp

/-- The traversal of a tree all of whose marker characters lie in the Text node
that is the only child of the node at `p`: the stretch the visitor puts in the
place of that Text node becomes the children of the node at `p`, and the rest
of the tree stays as it is. -/
theorem walk_one (kind : Kind) (text : List Char) (out : List Node) (st1 : List Nat → State)
    (st : State)
    (hT : ∀ here, extractMarkers here [] st text = (out, st1 here, none)) (p : List Nat) :
    ∀ (k0 : Kind) (cs0 : List Node) (rest : Node) (here : List Nat),
      (Node.branch k0 cs0).nodeAt p = some (.branch kind [.text text]) →
      (Node.branch k0 cs0).updateAt (fun _ => []) p = some rest →
      markerChars rest.textContent = [] →
      ∃ cs1, (Node.branch k0 cs0).updateAt (fun _ => out) p = some (.branch k0 cs1) ∧
        walk here [] st cs0 = (cs1, st1 (here ++ p), none) := by
  induction p with
  | nil =>
    intro k0 cs0 rest here hn _ _
    simp only [Node.nodeAt, Option.some.injEq, Node.branch.injEq] at hn
    obtain ⟨rfl, rfl⟩ := hn
    refine ⟨out, updateAt_nil _ _ _, ?_⟩
    simp [walk, walkRec, hT]
  | cons i q ih =>
    intro k0 cs0 rest here hn hu hplain
    obtain ⟨pre, post, c, rfl, rfl, hc⟩ := nodeAt_cons k0 cs0 _ q _ hn
    rw [updateAt_mid] at hu
    cases hu0 : Node.updateAt (fun _ => []) q c with
    | none => rw [hu0] at hu; simp at hu
    | some c0 =>
      rw [hu0] at hu
      simp only [Option.some.injEq] at hu
      subst hu
      obtain ⟨k1, cs1, rfl⟩ : ∃ k1 cs1, c = .branch k1 cs1 := by
        cases c with
        | text data => simp [Node.updateAt] at hu0
        | branch k1 cs1 => exact ⟨k1, cs1, rfl⟩
      have e0 : ∀ x : Node, pre ++ x :: post = pre ++ ([x] ++ post) := fun _ => rfl
      rw [Node.textContent, e0, ← charsOf_markupList, markupList_append, markupList_append,
        charsOf_append, charsOf_append, charsOf_markupList, charsOf_markupList,
        charsOf_markupList, markerChars_append, markerChars_append] at hplain
      simp only [List.append_eq_nil] at hplain
      obtain ⟨hpre, hc0, hpost⟩ := hplain
      have hc0' : markerChars c0.textContent = [] := by
        simpa [textContentList] using hc0
      obtain ⟨cs2, hu2, hw2⟩ := ih k1 cs1 c0 (here ++ [pre.length]) hc hu0 hc0'
      refine ⟨pre ++ .branch k1 cs2 :: post, ?_, ?_⟩
      · rw [updateAt_mid, hu2]
      · rw [walk_append, walk_plain here [] st pre hpre]
        simp only [List.nil_append, walk, walkRec, hw2]
        rw [walk_plain here _ _ post hpost]
        simp

/-- C18: in a tree whose marker characters all lie in one Text node, the only
child of its parent (the node at `p`): when that Text node is `s1[s2]s3`,
`extract` leaves one Text node `s1 ++ s2 ++ s3` in its place and sets the range
to offset `|s1|` and offset `|s1| + |s2|` of that node; when it is `s1{s2}s3`,
`extract` leaves the parts that are not empty as Text nodes of their own and
sets the range to the child indices, in the parent, at which `s2` and `s3`
begin.  The rest of the tree stays as it is. -/
theorem extract_rejoin (top : Node) (p : List Nat) (kind : Kind) (range : Range)
    (s1 s2 s3 : List Char) (rest : Node)
    (h1 : markerChars s1 = []) (h2 : markerChars s2 = []) (h3 : markerChars s3 = [])
    (hrest : top.updateAt (fun _ => []) p = some rest)
    (hplain : markerChars rest.textContent = []) :
    (top.nodeAt p = some (.branch kind [.text (s1 ++ '[' :: (s2 ++ ']' :: s3))]) →
      ∃ top1, top.updateAt (fun _ => [.text (s1 ++ (s2 ++ s3))]) p = some top1 ∧
        extract top range
          = ⟨top1, ⟨p ++ [0], s1.length, p ++ [0], s1.length + s2.length⟩, none⟩) ∧
    (top.nodeAt p = some (.branch kind [.text (s1 ++ '{' :: (s2 ++ '}' :: s3))]) →
      ∃ top1, top.updateAt
          (fun _ => ([s1, s2, s3].filter (fun s => !s.isEmpty)).map Node.text) p = some top1 ∧
        extract top range
          = ⟨top1, ⟨p, if s1.isEmpty then 0 else 1,
              p, (if s1.isEmpty then 0 else 1) + (if s2.isEmpty then 0 else 1)⟩, none⟩) := by
  obtain ⟨k0, cs0, rfl⟩ : ∃ k0 cs0, top = .branch k0 cs0 := by
    cases top with
    | text data => cases p <;> simp [Node.updateAt] at hrest
    | branch k0 cs0 => exact ⟨k0, cs0, rfl⟩
  constructor
  · intro hn
    obtain ⟨cs1, hu, hw⟩ := walk_one kind _ _ _ ⟨0, range⟩
      (fun here => extractMarkers_brackets here range s1 s2 s3 h1 h2 h3) p k0 cs0 rest [] hn
      hrest hplain
    refine ⟨_, hu, ?_⟩
    simp [extract, hw]
  · intro hn
    obtain ⟨cs1, hu, hw⟩ := walk_one kind _ _ _ ⟨0, range⟩
      (fun here => extractMarkers_braces here range s1 s2 s3 h1 h2 h3) p k0 cs0 rest [] hn
      hrest hplain
    refine ⟨_, hu, ?_⟩
    simp [extract, hw]

/-- The witness of C18: `<div>x<p>he[llo wo]rld</p></div>` and
`<div>x<p>he{llo wo}rld</p></div>`. -/
theorem extract_rejoin_witness :
    extract (.branch (.element "div") [.text "x".toList,
        .branch (.element "p") [.text "he[llo wo]rld".toList]]) ⟨[], 0, [], 0⟩
      = ⟨.branch (.element "div") [.text "x".toList,
          .branch (.element "p") [.text "hello world".toList]], ⟨[1, 0], 2, [1, 0], 8⟩, none⟩ ∧
    extract (.branch (.element "div") [.text "x".toList,
        .branch (.element "p") [.text "he{llo wo}rld".toList]]) ⟨[], 0, [], 0⟩
      = ⟨.branch (.element "div") [.text "x".toList, .branch (.element "p")
          [.text "he".toList, .text "llo wo".toList, .text "rld".toList]],
          ⟨[1], 1, [1], 2⟩, none⟩ := by
  constructor
  · obtain ⟨top1, hu, he⟩ := (extract_rejoin (.branch (.element "div") [.text "x".toList,
        .branch (.element "p") [.text "he[llo wo]rld".toList]]) [1] (.element "p")
      ⟨[], 0, [], 0⟩ "he".toList "llo wo".toList "rld".toList
      (.branch (.element "div") [.text "x".toList, .branch (.element "p") []])
      (by decide) (by decide) (by decide) (by rfl) (by decide)).1 (by rfl)
    rw [he]
    have : top1 = .branch (.element "div") [.text "x".toList,
        .branch (.element "p") [.text "hello world".toList]] :=
      Option.some.inj (hu.symm.trans (by rfl))
    rw [this]
    rfl
  · obtain ⟨top1, hu, he⟩ := (extract_rejoin (.branch (.element "div") [.text "x".toList,
        .branch (.element "p") [.text "he{llo wo}rld".toList]]) [1] (.element "p")
      ⟨[], 0, [], 0⟩ "he".toList "llo wo".toList "rld".toList
      (.branch (.element "div") [.text "x".toList, .branch (.element "p") []])
      (by decide) (by decide) (by decide) (by rfl) (by decide)).2 (by rfl)
    rw [he]
    have : top1 = .branch (.element "div") [.text "x".toList, .branch (.element "p")
        [.text "he".toList, .text "llo wo".toList, .text "rld".toList]] :=
      Option.some.inj (hu.symm.trans (by rfl))
    rw [this]
    rfl

/-! ## Which boundary `setBoundaryPoint` sets -/

/-- What a call of `setBoundaryPoint` that passes its checks does, in terms of
the siblings `before` in front of the node at that moment: for a bracket the
boundary is the end of the Text node right in front (the offset is its
length), or offset 0 of a new, empty Text node put there when no Text node is
right in front; for a brace it is the parent with the index of the node. -/
theorem setBoundaryPoint_sets (here : List Nat) (before out : List Node) (st st1 : State)
    (g : Char) (force : Bool)
    (h : setBoundaryPoint here before st [g] = .ok (out, st1, force)) :
    st1.markersFound = st.markersFound + 1 ∧
    (isBracket g = true →
      ((∃ data, before.getLast? = some (.text data) ∧ out = before ∧
          st1.range.boundary st.markersFound = (here ++ [before.length - 1], data.length)) ∨
        ((∀ data, before.getLast? ≠ some (.text data)) ∧ out = before ++ [.text []] ∧
          st1.range.boundary st.markersFound = (here ++ [before.length], 0))) ∧
      force = false) ∧
    (isBracket g = false →
      out = before ∧ st1.range.boundary st.markersFound = (here, before.length) ∧
        force = true) := by
  have hbr : ([g] = ['['] ∨ [g] = [']']) ↔ isBracket g = true := by
    simp [isBracket]
  unfold setBoundaryPoint at h
  cases hch : chooseSetFn st.markersFound [g] with
  | error e => rw [hch] at h; simp at h
  | ok fn =>
    rw [hch] at h
    simp only at h
    have hle : st.markersFound ≤ 1 := by
      rcases chooseSetFn_ok _ _ _ hch with ⟨h0, -⟩ | ⟨h1, -⟩ <;> omega
    have hb := fun c o => call_boundary _ _ fn hch st.range c o st.markersFound hle
    simp only [if_true] at hb
    by_cases hg : isBracket g = true
    · rw [if_pos (hbr.2 hg)] at h
      cases hl : before.getLast? with
      | none =>
        rw [hl] at h
        simp only [Except.ok.injEq, Prod.mk.injEq] at h
        obtain ⟨h1, h2, h3⟩ := h
        subst h1 h2 h3
        refine ⟨rfl, fun _ => ⟨Or.inr ⟨by simp, rfl, hb _ _⟩, rfl⟩, fun hn => ?_⟩
        rw [hg] at hn; simp at hn
      | some n =>
        rw [hl] at h
        cases n with
        | text d =>
          simp only [Except.ok.injEq, Prod.mk.injEq] at h
          obtain ⟨h1, h2, h3⟩ := h
          subst h1 h2 h3
          refine ⟨rfl, fun _ => ⟨Or.inl ⟨d, rfl, rfl, hb _ _⟩, rfl⟩, fun hn => ?_⟩
          rw [hg] at hn; simp at hn
        | branch k cs =>
          simp only [Except.ok.injEq, Prod.mk.injEq] at h
          obtain ⟨h1, h2, h3⟩ := h
          subst h1 h2 h3
          refine ⟨rfl, fun _ => ⟨Or.inr ⟨by simp, rfl, hb _ _⟩, rfl⟩, fun hn => ?_⟩
          rw [hg] at hn; simp at hn
    · rw [if_neg (fun hx => hg (hbr.1 hx))] at h
      simp only [Except.ok.injEq, Prod.mk.injEq] at h
      obtain ⟨h1, h2, h3⟩ := h
      subst h1 h2 h3
      exact ⟨rfl, fun hx => absurd hx hg, fun _ => ⟨rfl, hb _ _, rfl⟩⟩

theorem markerPos_some (seg : List Sym) : ∀ i, i < markerCount seg →
    ∃ x, markerPos seg i = some x := by
  induction seg with
  | nil => intro i hi; simp [markerCount] at hi
  | cons s rest ih =>
    intro i hi
    cases hs : s.isMarker with
    | true =>
      rw [markerCount_cons_marker s rest hs] at hi
      rw [markerPos_cons_marker s rest i hs]
      by_cases h0 : i = 0
      · exact ⟨0, by rw [if_pos h0]⟩
      · rw [if_neg h0]
        exact ih (i - 1) (by omega)
    | false =>
      rw [markerCount_cons_other s rest hs] at hi
      rw [markerPos_cons_other s rest i hs]
      obtain ⟨x, hx⟩ := ih i hi
      exact ⟨x + 1, by rw [hx]; rfl⟩

/-- On a tree whose markers are isolated, a successful `extract` sets each
boundary at the position of the markup at which its marker stood. -/
theorem extract_positions (kind : Kind) (cs : List Node) (range : Range)
    (h : (extract (.branch kind cs) range).thrown = none) (hiso : IsolatedList cs) :
    (extract (.branch kind cs) range).rootElem.position
        (extract (.branch kind cs) range).range.startContainer
        (extract (.branch kind cs) range).range.startOffset
      = markerPos (Node.branch kind cs).markup 0 ∧
    (extract (.branch kind cs) range).rootElem.position
        (extract (.branch kind cs) range).range.endContainer
        (extract (.branch kind cs) range).range.endOffset
      = markerPos (Node.branch kind cs).markup 1 := by
  obtain ⟨a, b, hab, -, -⟩ := (thrown_none_iff kind cs range).1 h
  have hcount : markerCount (Node.branch kind cs).markup = 2 := by
    rw [markerCount_charsOf, charsOf_markup, hab]; rfl
  obtain ⟨cs4, st, hw, hex⟩ := extract_ok kind cs range h
  have htr := walk_track [] [] ⟨0, range⟩ cs cs4 st hiso hw
  have pos : ∀ idx, idx ≤ 1 →
      (Node.branch kind cs4).position (st.range.boundary idx).1 (st.range.boundary idx).2
        = markerPos (Node.branch kind cs).markup idx := by
    intro idx hidx
    obtain ⟨x, hx⟩ := markerPos_some (Node.branch kind cs).markup idx (by omega)
    rw [hx]
    rw [Node.markup, markerPos_lift] at hx
    cases hy : markerPos (markupList cs) idx with
    | none => rw [hy] at hx; simp at hx
    | some y =>
      rw [hy] at hx
      simp only [Option.map_some', Option.some.injEq] at hx
      obtain ⟨rel, hrel, hk⟩ := htr.set idx y hidx (Nat.zero_le _) (by simpa using hy)
      obtain ⟨e, he⟩ := hk kind
      rw [List.nil_append] at hrel
      rw [hrel]
      unfold Node.position
      rw [he]
      simp only [markupList_nil, List.length_nil, Option.map_some', Option.some.injEq]
      omega
  have ps := pos 0 (by omega)
  have pe := pos 1 (by omega)
  simp only [Range.boundary, if_true, one_ne_zero, if_false] at ps pe
  rw [hex]
  exact ⟨ps, pe⟩

/-! ## The boundaries `extract` sets -/

/-- C5: after a successful `extract` the start boundary of the range is a
boundary of the tree whose container is a Text node exactly when the start
marker was '[' (a node with children, the offset counting children, when it
was '{'), and the end boundary is one whose container is a Text node exactly
when the end marker was ']'; on a tree whose markers are Text nodes of their
own each boundary lies at the position of the markup at which its marker
stood.  Which boundary it is, is settled when `setBoundaryPoint` meets the
marker, with the siblings `before` in front of the node at that moment: for a
bracket the Text node right in front with its length as offset, or a new,
empty Text node put there, with offset 0, when no Text node is right in front;
for a brace the parent of the node with the index of the node as offset. -/
theorem extract_boundary_kind (kind : Kind) (cs : List Node) (range : Range)
    (h : (extract (.branch kind cs) range).thrown = none) :
    (∃ a b, markerChars (Node.branch kind cs).textContent = [a, b] ∧
      (extract (.branch kind cs) range).rootElem.boundaryKind
        (extract (.branch kind cs) range).range.startContainer
        (extract (.branch kind cs) range).range.startOffset = some (a == '[') ∧
      (extract (.branch kind cs) range).rootElem.boundaryKind
        (extract (.branch kind cs) range).range.endContainer
        (extract (.branch kind cs) range).range.endOffset = some (b == ']') ∧
      (IsolatedList cs →
        (extract (.branch kind cs) range).rootElem.position
            (extract (.branch kind cs) range).range.startContainer
            (extract (.branch kind cs) range).range.startOffset
          = markerPos (Node.branch kind cs).markup 0 ∧
        (extract (.branch kind cs) range).rootElem.position
            (extract (.branch kind cs) range).range.endContainer
            (extract (.branch kind cs) range).range.endOffset
          = markerPos (Node.branch kind cs).markup 1)) ∧
    (∀ (here : List Nat) (before out : List Node) (st st1 : State) (g : Char) (force : Bool),
      setBoundaryPoint here before st [g] = .ok (out, st1, force) →
        st1.markersFound = st.markersFound + 1 ∧
        (isBracket g = true →
          ((∃ data, before.getLast? = some (.text data) ∧ out = before ∧
              st1.range.boundary st.markersFound
                = (here ++ [before.length - 1], data.length)) ∨
            ((∀ data, before.getLast? ≠ some (.text data)) ∧ out = before ++ [.text []] ∧
              st1.range.boundary st.markersFound = (here ++ [before.length], 0))) ∧
          force = false) ∧
        (isBracket g = false →
          out = before ∧ st1.range.boundary st.markersFound = (here, before.length) ∧
            force = true)) := by
  obtain ⟨a, b, hab, hka, hkb⟩ := extract_kinds kind cs range h
  exact ⟨⟨a, b, hab, hka, hkb, fun hiso => extract_positions kind cs range h hiso⟩,
    fun here before out st st1 g force hs =>
      setBoundaryPoint_sets here before out st st1 g force hs⟩

/-- The witness of C5: in `<p>[]</p>` no Text node stands in front of the
markers, and both boundaries lie in a new, empty Text node; in
`<p>a<i></i>{b]</p>`, with the Text nodes "a", "{", "b" and "]", the start
boundary is `<p>` with the index 2 and the end boundary the end of "b". -/
theorem extract_boundary_kind_witness :
    ((extract (.branch (.element "p") [.text "[]".toList]) ⟨[], 0, [], 0⟩).rootElem.nodeAt [0]
        = some (.text []) ∧
      (extract (.branch (.element "p") [.text "[]".toList]) ⟨[], 0, [], 0⟩).range
        = ⟨[0], 0, [0], 0⟩ ∧
      (extract (.branch (.element "p") [.text "[]".toList]) ⟨[], 0, [], 0⟩).rootElem.boundaryKind
        [0] 0 = some true) ∧
    ((extract (.branch (.element "p") [.text "a".toList, .branch (.element "i") [],
          .text ['{'], .text "b".toList, .text "]".toList]) ⟨[], 0, [], 0⟩).range
        = ⟨[], 2, [2], 1⟩ ∧
      (extract (.branch (.element "p") [.text "a".toList, .branch (.element "i") [],
          .text ['{'], .text "b".toList, .text "]".toList]) ⟨[], 0, [], 0⟩).rootElem.position
        [] 2 = some 4 ∧
      (extract (.branch (.element "p") [.text "a".toList, .branch (.element "i") [],
          .text ['{'], .text "b".toList, .text "]".toList]) ⟨[], 0, [], 0⟩).rootElem.position
        [2] 1 = some 5) := by
  obtain ⟨⟨a, b, hab, hka, -, -⟩, -⟩ := extract_boundary_kind (.element "p")
    [.text "[]".toList] ⟨[], 0, [], 0⟩ (by decide)
  obtain ⟨⟨a2, b2, -, -, -, hp⟩, -⟩ := extract_boundary_kind (.element "p")
    [.text "a".toList, .branch (.element "i") [], .text ['{'], .text "b".toList,
      .text "]".toList] ⟨[], 0, [], 0⟩ (by decide)
  have hr1 : (extract (.branch (.element "p") [.text "[]".toList]) ⟨[], 0, [], 0⟩).range
      = ⟨[0], 0, [0], 0⟩ := by decide
  have hr2 : (extract (.branch (.element "p") [.text "a".toList, .branch (.element "i") [],
      .text ['{'], .text "b".toList, .text "]".toList]) ⟨[], 0, [], 0⟩).range
      = ⟨[], 2, [2], 1⟩ := by decide
  have ha : a = '[' := by
    have : ['[', ']'] = [a, b] := hab
    simp only [List.cons.injEq, and_true] at this
    exact this.1.symm
  obtain ⟨p1, p2⟩ := hp (by simp [IsolatedList, Node.Isolated, markerChars, isMarker])
  rw [hr1, ha] at hka
  rw [hr2] at p1 p2
  exact ⟨⟨by rfl, hr1, hka⟩, hr2, p1.trans (by decide), p2.trans (by decide)⟩

end BoundaryMarkers
